import Mathlib

/-!
Verification of the fastmail-proc repository against its specification.

The repository consists of small JavaScript programs:
* `src/fastmailProc.js` — the batch message processor.  The file contains an
  older and a newer script variant; the newer variant (the one declaring
  `SAVE_SUBJECTS`/`PROCESS_LABELS` and the full-rewrite ledger merge) is the
  one embedded here, since it subsumes the older one and is the variant the
  ledger claims cite.
* `fastmail-host.js` — the Express server with the advisory lock and the
  `/api/data` endpoints.

JavaScript strings are modelled as lists of characters (`Str`), JavaScript
objects used as dictionaries are modelled as insertion-ordered association
lists, and JavaScript `Set`s as insertion-ordered duplicate-free lists.
File contents are modelled as the full character sequence, so newline
handling is explicit and byte-level equality of file contents coincides
with equality of the model values.
-/

namespace FastmailProc

/-- Characters of a JavaScript string; all text values and file contents are
modelled as lists of characters. -/
abbrev Str := List Char

/-- Coerce a Lean string literal into the character-list model. -/
def str (s : String) : Str := s.data

/-- ASCII lower-casing of a single character, modelling the effect of
`String.prototype.toLowerCase` on the ASCII range used by the scripts. -/
def lowChar (c : Char) : Char :=
  if 65 ≤ c.toNat ∧ c.toNat ≤ 90 then Char.ofNat (c.toNat + 32) else c

/-- Model of `s.toLowerCase()`. -/
def jsToLower (s : Str) : Str := s.map lowChar

/-- Model of `t.startsWith(p)`. -/
def startsWithL : Str → Str → Bool
  | _, [] => true
  | [], _ :: _ => false
  | c :: cs, p :: ps => c == p && startsWithL cs ps

/-- Model of `t.includes(sub)` (substring containment). -/
def containsSub : Str → Str → Bool
  | [], sub => sub.isEmpty
  | c :: cs, sub => startsWithL (c :: cs) sub || containsSub cs sub

/-- Model of `t.endsWith(p)`. -/
def endsWithL (t suf : Str) : Bool := startsWithL t.reverse suf.reverse

/-- The whitespace characters matched by the `\s` regex class that can occur
in the data handled by the scripts. -/
def isJsWs (c : Char) : Bool :=
  c == ' ' || c == '\t' || c == '\n' || c == '\r' || c == '\x0b' || c == '\x0c'

/-- Truthiness of `line.trim()`: true iff the line has a non-whitespace
character. -/
def jsTrimTruthy (line : Str) : Bool := line.any (fun c => !(isJsWs c))

/-- Remove trailing whitespace (the `\s*$` part of the header regexes). -/
def trimRightWs (s : Str) : Str := (s.reverse.dropWhile isJsWs).reverse

/-- Drop the last `n` characters of a string. -/
def dropRightN (s : Str) (n : Nat) : Str := s.take (s.length - n)

/-- Model of `content.split('\n')`. -/
def splitNl : Str → List Str
  | [] => [[]]
  | c :: cs =>
    if c = '\n' then [] :: splitNl cs
    else
      match splitNl cs with
      | [] => [[c]]
      | l :: ls => (c :: l) :: ls

/-- Lexicographic comparison of character lists by code point, the model used
for both the default `Array.prototype.sort()` comparator (UTF-16 code-unit
order) and `localeCompare` (both agree with code-point order on the ASCII
data the scripts handle): `leStr a b` means `a` sorts no later than `b`. -/
def leStr : Str → Str → Bool
  | [], _ => true
  | _ :: _, [] => false
  | a :: as, b :: bs =>
    if a.toNat < b.toNat then true
    else if b.toNat < a.toNat then false
    else leStr as bs

/-- The entry comparator of the ledger merge:
`(a, b) => a.toLowerCase().localeCompare(b.toLowerCase())`
(src/fastmailProc.js line 661). -/
def LeKey (a b : Str) : Prop := leStr (jsToLower a) (jsToLower b) = true

/-- The label comparator: default `Array.prototype.sort()` string order
(src/fastmailProc.js line 657). -/
def LeLab (a b : Str) : Prop := leStr a b = true

instance : DecidableRel LeKey := fun a b => decEq _ _

instance : DecidableRel LeLab := fun a b => decEq _ _

theorem leStr_total (a b : Str) : leStr a b = true ∨ leStr b a = true := by
  induction a generalizing b with
  | nil => exact Or.inl rfl
  | cons x xs ih =>
    cases b with
    | nil => exact Or.inr rfl
    | cons y ys =>
      by_cases hxy : x.toNat < y.toNat
      · exact Or.inl (by simp [leStr, hxy])
      · by_cases hyx : y.toNat < x.toNat
        · exact Or.inr (by simp [leStr, hyx])
        · rcases ih ys with h | h
          · exact Or.inl (by simp [leStr, hxy, hyx, h])
          · exact Or.inr (by simp [leStr, hxy, hyx, h])

theorem leStr_trans {a b c : Str} (h₁ : leStr a b = true) (h₂ : leStr b c = true) :
    leStr a c = true := by
  induction a generalizing b c with
  | nil => rfl
  | cons x xs ih =>
    cases b with
    | nil => simp [leStr] at h₁
    | cons y ys =>
      cases c with
      | nil => simp [leStr] at h₂
      | cons z zs =>
        simp only [leStr] at h₁ h₂ ⊢
        rcases Nat.lt_trichotomy x.toNat y.toNat with hxy | hxy | hxy
        · rcases Nat.lt_trichotomy y.toNat z.toNat with hyz | hyz | hyz
          · have hxz : x.toNat < z.toNat := Nat.lt_trans hxy hyz
            simp [hxz]
          · have hxz : x.toNat < z.toNat := hyz ▸ hxy
            simp [hxz]
          · rw [if_neg (by omega), if_pos hyz] at h₂
            exact absurd h₂ (by simp)
        · rcases Nat.lt_trichotomy y.toNat z.toNat with hyz | hyz | hyz
          · have hxz : x.toNat < z.toNat := hxy ▸ hyz
            simp [hxz]
          · have hxz : x.toNat = z.toNat := hxy.trans hyz
            rw [if_neg (by omega), if_neg (by omega)] at h₁ h₂ ⊢
            exact ih h₁ h₂
          · rw [if_neg (by omega), if_pos hyz] at h₂
            exact absurd h₂ (by simp)
        · rw [if_neg (by omega), if_pos hxy] at h₁
          exact absurd h₁ (by simp)

instance : IsTotal Str LeKey := ⟨fun a b => leStr_total _ _⟩

instance : IsTrans Str LeKey := ⟨fun _ _ _ h₁ h₂ => leStr_trans h₁ h₂⟩

instance : IsTotal Str LeLab := ⟨fun a b => leStr_total a b⟩

instance : IsTrans Str LeLab := ⟨fun _ _ _ h₁ h₂ => leStr_trans h₁ h₂⟩

/-- Stable sort used to model `Array.prototype.sort` (stable per the
ECMAScript specification): Mathlib's insertion sort inserts earlier elements
before later comparator-equal ones, which is exactly stability. -/
def sortKeys (l : List Str) : List Str := l.insertionSort LeKey

/-- Stable sort by the default string comparator, for label names. -/
def sortLabs (l : List Str) : List Str := l.insertionSort LeLab

/-- Lookup in a JavaScript object used as a dictionary (insertion-ordered
association list). -/
def jsGet {α : Type} (m : List (Str × α)) (k : Str) : Option α :=
  (m.find? (fun p => p.1 == k)).map (fun p => p.2)

/-- Model of `obj[k] = v`: overwrite in place if the key exists, else append
(string keys keep insertion order in JavaScript objects; the scripts never
use integer-like keys in an order-observable way). -/
def objSet {α : Type} (m : List (Str × α)) (k : Str) (v : α) : List (Str × α) :=
  if (jsGet m k).isSome then m.map (fun p => if p.1 == k then (p.1, v) else p)
  else m ++ [(k, v)]

/-- Model of `set.add(x)` on a JavaScript `Set` (insertion-ordered,
duplicate-free). -/
def setAdd (s : List Str) (x : Str) : List Str :=
  if s.contains x then s else s ++ [x]

/-- One email address object as delivered by `Email/get`: display name and
address, with the empty string modelling both `undefined` and `''` (they are
indistinguishable to the scripts, which only use `||`-style truthiness). -/
structure EmailAddress where
  name : Str := []
  email : Str := []
deriving DecidableEq

/-- One header object from the `headers` property. -/
structure MsgHeader where
  name : Str
  value : Str
deriving DecidableEq

/-- A message as used by the processing loop (`Email/get` with properties
id, subject, from, to, headers, keywords, mailboxIds, textBody, bodyValues).
`textBody` holds the part ids of the text body parts; `bodyValues` maps part
ids to their `value` fields.  `keywords` and `mailboxIds` are sets of keys
whose values are `true`. -/
structure Message where
  id : Str := []
  subject : Str := []
  fromA : List EmailAddress := []
  toA : List EmailAddress := []
  headers : List MsgHeader := []
  keywords : List Str := []
  mailboxIds : List Str := []
  textBody : List Str := []
  bodyValues : List (Str × Str) := []
deriving DecidableEq

/-- The argument of a `contains` condition: the script accepts a scalar
string or an array of strings (`Array.isArray(rule.contains)`). -/
inductive ContainsArg where
  | scalar (s : Str)
  | list (l : List Str)
deriving DecidableEq

/-- A rule object from `rules.jsonc`.  Field-selector flags and actions with
string values model JavaScript truthiness by using the empty string for
absent; condition keys checked with `!== undefined` are `Option`s. -/
structure Rule where
  header : Str := []
  fromSel : Bool := false
  toSel : Bool := false
  subjectSel : Bool := false
  bodySel : Bool := false
  empty : Option Bool := none
  notEmpty : Option Bool := none
  exact : Option Str := none
  notExact : Option Str := none
  regex : Option Str := none
  contains : Option ContainsArg := none
  oneOf : Option (List Str) := none
  addLabel : Str := []
  removeLabel : Str := []
  stop : Bool := false
deriving DecidableEq

/-- `message.headers?.find(h => h.name.toLowerCase() === rule.header.toLowerCase())?.value || ''`. -/
def headerValueOf (m : Message) (hname : Str) : Str :=
  match m.headers.find? (fun h => jsToLower h.name == jsToLower hname) with
  | some h => h.value
  | none => []

/-- `message.to?.map(t => t.email).join(' ') || ''`. -/
def joinSpace : List Str → Str
  | [] => []
  | [e] => e
  | e :: rest => e ++ ' ' :: joinSpace rest

/-- Truthiness of an optional looked-up string value. -/
def optTruthy : Option Str → Bool
  | some v => !(v == [])
  | none => false

/-- The body part of `getTextString` (src/fastmailProc.js line 359):
`message.bodyValues?.['body']?.value || message.textBody?.[0]?.partId
  ? message.bodyValues?.[message.textBody[0].partId]?.value || '' : ''`.
Because `||` binds tighter than `?:`, the condition is the disjunction, and
the then-branch accesses `message.textBody[0].partId` without optional
chaining: when the condition holds only because of a truthy `'body'` key and
`textBody` is empty, the script throws a `TypeError`, modelled as `none`. -/
def bodyPart (m : Message) : Option Str :=
  let bodyKeyed := jsGet m.bodyValues (str "body")
  match m.textBody.head? with
  | some pid =>
    if optTruthy bodyKeyed || !(pid == []) then
      some ((jsGet m.bodyValues pid).getD [])
    else some []
  | none => if optTruthy bodyKeyed then none else some []

/-- `getTextString(message, rule)` (src/fastmailProc.js lines 338-363):
collect the selected parts in order header, from, to, subject, body, join
them with `'|'` and lower-case the result.  `none` models the `TypeError`
thrown by the body expression (see `bodyPart`). -/
def getTextString (m : Message) (r : Rule) : Option Str :=
  let parts0 : List Str := if !(r.header == []) then [headerValueOf m r.header] else []
  let parts1 := parts0 ++ (if r.fromSel then [((m.fromA.head?).map (fun a => a.email)).getD []] else [])
  let parts2 := parts1 ++ (if r.toSel then [joinSpace (m.toA.map (fun a => a.email))] else [])
  let parts3 := parts2 ++ (if r.subjectSel then [m.subject] else [])
  if r.bodySel then
    match bodyPart m with
    | some b => some (jsToLower (List.intercalate ['|'] (parts3 ++ [b])))
    | none => none
  else some (jsToLower (List.intercalate ['|'] parts3))

/-- `testRule(textString, rule)` (src/fastmailProc.js lines 365-404): the
conditions are checked in source order with early `return false`, which is
the conjunction of the individual clause tests.  The regular-expression test
`new RegExp(rule.regex, 'i').test(textString)` is delegated to the platform
regex engine, modelled by the oracle parameter `rx`. -/
def testRule (rx : Str → Str → Bool) (t : Str) (r : Rule) : Bool :=
  (match r.empty with
   | some b => if b then t == [] else !(t == [])
   | none => true) &&
  (match r.notEmpty with
   | some b => if b then !(t == []) else t == []
   | none => true) &&
  (match r.exact with
   | some s => t == jsToLower s
   | none => true) &&
  (match r.notExact with
   | some s => !(t == jsToLower s)
   | none => true) &&
  (match r.regex with
   | some pat => rx pat t
   | none => true) &&
  (match r.contains with
   | some (ContainsArg.scalar s) => containsSub t (jsToLower s)
   | some (ContainsArg.list l) => l.any (fun s => containsSub t (jsToLower s))
   | none => true) &&
  (match r.oneOf with
   | some l => l.any (fun s => containsSub t (jsToLower s))
   | none => true)

/-- Configuration constant of src/fastmailProc.js line 287. -/
def SAVE_SUBJECTS : Bool := true

/-- Configuration constant of src/fastmailProc.js line 288. -/
def PROCESS_LABELS : Bool := false

/-- The ledger separator string `' | '`. -/
def sepStr : Str := str " | "

/-- Seven equals signs, the fixed marker framing a ledger label name. -/
def sevens : Str := str "======="

/-- `line.split(' | ')[0]`: the prefix of the line before the first
occurrence of `' | '` (the whole line when the separator is absent). -/
def splitKey : Str → Str
  | [] => []
  | c :: cs => if startsWithL (c :: cs) sepStr then [] else c :: splitKey cs

/-- `line.match(/^=======.*=======$/)` for a newline-free line: at least 14
characters, starting and ending with seven equals signs (`.` cannot match a
newline, and lines produced by `split('\n')` contain none). -/
def isHeaderLine (line : Str) : Bool :=
  decide (line.length ≥ 14) && startsWithL line sevens && endsWithL line sevens

/-- Label extraction from a header line:
`line.replace(/^=======\s*/, '').replace(/\s*=======\s*$/, '')`.
For a line that starts and ends with the seven-equals marker this is: drop
the leading marker and following whitespace, then drop the trailing marker
and the whitespace before it (the leftmost match of the second regex on a
string ending in `=======` removes exactly the last seven characters plus
the maximal whitespace run preceding them). -/
def extractLabel (line : Str) : Str :=
  trimRightWs (dropRightN ((line.drop 7).dropWhile isJsWs) 7)

/-- The two accumulation dictionaries of the batch script:
`subjectsByLabel` (label → `Set` of from names) and `subjectLinesByLabel`
(label → array of new ledger lines). -/
structure LedgerAcc where
  byLabel : List (Str × List Str) := []
  linesByLabel : List (Str × List Str) := []
deriving DecidableEq

/-- Add an element to the `Set` stored under a key (`subjectsByLabel[lab].add v`;
the key is always present when this is reached). -/
def mapAdd (m : List (Str × List Str)) (k v : Str) : List (Str × List Str) :=
  m.map (fun p => if p.1 == k then (p.1, setAdd p.2 v) else p)

/-- Push an element onto the array stored under a key. -/
def mapPush (m : List (Str × List Str)) (k v : Str) : List (Str × List Str) :=
  m.map (fun p => if p.1 == k then (p.1, p.2 ++ [v]) else p)

/-- One step of the subjects-file load loop (src/fastmailProc.js lines
426-438): header lines select (and if needed create) the current label,
non-blank lines containing `' | '` under a current label record the text
before the first separator as a known from name. -/
def loadStep (st : Option Str × LedgerAcc) (line : Str) : Option Str × LedgerAcc :=
  if isHeaderLine line then
    let lab := extractLabel line
    if (jsGet st.2.byLabel lab).isSome then (some lab, st.2)
    else (some lab, ⟨st.2.byLabel ++ [(lab, [])], st.2.linesByLabel ++ [(lab, [])]⟩)
  else
    match st.1 with
    | some lab =>
      if jsTrimTruthy line && containsSub line sepStr then
        (st.1, ⟨mapAdd st.2.byLabel lab (splitKey line), st.2.linesByLabel⟩)
      else st
    | none => st

/-- Load the existing subjects file into the accumulation dictionaries
(src/fastmailProc.js lines 420-440; a missing file is the empty content). -/
def loadSubjects (subjectsContent : Str) : LedgerAcc :=
  ((splitNl subjectsContent).foldl loadStep (none, ⟨[], []⟩)).2

/-- A ledger candidate: one execution of the subject-tracking block
(src/fastmailProc.js lines 562-574) with the label of the matched
`add-label` action, the resolved from name, and the message subject and id. -/
structure Candidate where
  label : Str
  fromName : Str
  subject : Str
  msgId : Str
deriving DecidableEq

/-- The new ledger line built for a candidate:
`${fromName} | ${message.subject} | ${message.id}` (line 571). -/
def subjectLineOf (c : Candidate) : Str :=
  c.fromName ++ sepStr ++ c.subject ++ sepStr ++ c.msgId

/-- Record one candidate (src/fastmailProc.js lines 565-574): ensure the
label's entries exist, then add the from name and push the new line unless
the from name is already known under this label. -/
def accumStep (acc : LedgerAcc) (c : Candidate) : LedgerAcc :=
  let acc :=
    if (jsGet acc.byLabel c.label).isNone then
      ⟨acc.byLabel ++ [(c.label, [])], acc.linesByLabel ++ [(c.label, [])]⟩
    else acc
  if ((jsGet acc.byLabel c.label).getD []).contains c.fromName then acc
  else ⟨mapAdd acc.byLabel c.label c.fromName,
        mapPush acc.linesByLabel c.label (subjectLineOf c)⟩

/-- The duplicate-collection test of src/fastmailProc.js line 649:
`line.trim() && line.includes(' | ') && !line.match(/^=======.*=======$/)` —
a line of the section-delimited format that records a sender. -/
def isEntryLine (line : Str) : Bool :=
  jsTrimTruthy line && containsSub line sepStr && !(isHeaderLine line)

/-- The entry lines of a ledger file content. -/
def entryLines (content : Str) : List Str := (splitNl content).filter isEntryLine

/-- The sender keys of a ledger file content, in line order (one per entry
line, duplicates preserved). -/
def entryKeys (content : Str) : List Str := (entryLines content).map splitKey

/-- Collect the from names of all entry lines of a file content into the
global duplicate set (src/fastmailProc.js lines 646-654). -/
def collectFrom (s0 : List Str) (content : Str) : List Str :=
  (splitNl content).foldl
    (fun s line => if isEntryLine line then setAdd s (splitKey line) else s) s0

/-- One line of the per-label subject-map scan (src/fastmailProc.js lines
668-680): header lines toggle whether the scan is inside a section of the
current label; entry lines inside record the first line seen for each key. -/
def scanMapStep (label : Str) (st : Bool × List (Str × Str)) (line : Str) :
    Bool × List (Str × Str) :=
  if isHeaderLine line then (extractLabel line == label, st.2)
  else if st.1 && jsTrimTruthy line && containsSub line sepStr then
    let k := splitKey line
    if optTruthy (jsGet st.2 k) then st else (st.1, objSet st.2 k line)
  else st

/-- The subject map for one label, rebuilt from the subjects-file content. -/
def subjectMapFor (subjectsContent : Str) (label : Str) : List (Str × Str) :=
  ((splitNl subjectsContent).foldl (scanMapStep label) (false, [])).2

/-- Process the new lines of one label against the global duplicate set
(src/fastmailProc.js lines 683-694): a line whose key is not yet known is
entered into the subject map and its key added to the set; known keys are
skipped. -/
def newLinesFold : List (Str × Str) × List Str → Str → List (Str × Str) × List Str
  | (mp, ex), line =>
    if ex.contains (splitKey line) then (mp, ex)
    else (objSet mp (splitKey line) line, setAdd ex (splitKey line))

/-- Process one label of the merge (src/fastmailProc.js lines 659-702),
threading the global duplicate set and the accumulated sections.  A label
whose from-name set is empty contributes nothing (the `fromNames.length > 0`
guard). -/
def processLabel (subjectsContent : Str) (acc : LedgerAcc)
    (st : List Str × List (Str × List Str)) (label : Str) :
    List Str × List (Str × List Str) :=
  let fromNames := sortKeys ((jsGet acc.byLabel label).getD [])
  if fromNames.isEmpty then st
  else
    let scanned := subjectMapFor subjectsContent label
    let folded := ((jsGet acc.linesByLabel label).getD []).foldl newLinesFold (scanned, st.1)
    let allSubjects :=
      (fromNames.filterMap (fun fn => jsGet folded.1 fn)).filter (fun v => !(v == []))
    (folded.2, st.2 ++ [(label, allSubjects)])

/-- The header line written for a label: `======= ${label} =======`. -/
def renderHeader (lab : Str) : Str := sevens ++ ' ' :: lab ++ ' ' :: sevens

/-- Render one section: `======= ${label} =======\n${allSubjects.join('\n')}`. -/
def renderSection (p : Str × List Str) : Str :=
  renderHeader p.1 ++ '\n' :: List.intercalate ['\n'] p.2

/-- Render the whole subjects file: `sections.join('\n\n') + '\n'`. -/
def renderAll (secs : List (Str × List Str)) : Str :=
  List.intercalate (str "\n\n") (secs.map renderSection) ++ ['\n']

/-- The merge-and-rewrite phase of the batch script (src/fastmailProc.js
lines 634-714): build the global duplicate set from both ledger files, walk
the labels alphabetically building their output sections, and rewrite the
subjects file when any section was produced.  Returns the subjects-file
content after the run (unchanged when nothing is written).  The exclusions
file is only read, never written. -/
def mergeAndPersist (subjectsContent exclusionsContent : Str) (acc : LedgerAcc) : Str :=
  if acc.byLabel.isEmpty then subjectsContent
  else
    let existing0 := collectFrom (collectFrom [] subjectsContent) exclusionsContent
    let allLabels := sortLabs (acc.byLabel.map (fun p => p.1))
    let folded := allLabels.foldl (processLabel subjectsContent acc) (existing0, [])
    if folded.2.isEmpty then subjectsContent else renderAll folded.2

/-- One full ledger pass: load the subjects file, record the run's
candidates, and merge (src/fastmailProc.js lines 420-440 and 634-714). -/
def runMerge (subjectsContent exclusionsContent : Str) (cands : List Candidate) : Str :=
  mergeAndPersist subjectsContent exclusionsContent
    (cands.foldl accumStep (loadSubjects subjectsContent))

/-- The per-message update object `{ mailboxIds: {...}, keywords: {...} }`:
both dictionaries map ids to `true`, so they are modelled as key sets. -/
structure MsgUpdates where
  mailboxIds : List Str
  keywords : List Str
deriving DecidableEq

/-- Remove a key from a key set (`delete obj[k]`). -/
def setDelete (s : List Str) (k : Str) : List Str := s.filter (fun x => !(x == k))

/-- The state threaded through the message-processing loop of
src/fastmailProc.js lines 532-608: the batched `updates` object, the global
`stopProcessing` flag, the ledger accumulation dictionaries, and the
`labelsAdded`/`labelsRemoved` tallies. -/
structure EngSt where
  updates : List (Str × MsgUpdates) := []
  stopProcessing : Bool := false
  ledger : LedgerAcc := ⟨[], []⟩
  labelsAdded : List (Str × Nat) := []
  labelsRemoved : List (Str × Nat) := []
deriving DecidableEq

/-- `labels[name] = (labels[name] || 0) + 1`. -/
def bump (m : List (Str × Nat)) (k : Str) : List (Str × Nat) :=
  objSet m k (((jsGet m k).getD 0) + 1)

/-- `message.from?.[0]?.name || message.from?.[0]?.email || 'Unknown'`. -/
def fromNameOf (m : Message) : Str :=
  match m.fromA.head? with
  | some a => if !(a.name == []) then a.name else if !(a.email == []) then a.email else str "Unknown"
  | none => str "Unknown"

/-- Truthy lookup of a mailbox id: `const mailboxId = mailboxNameToId[labelName];
if (mailboxId) ...` — the id must exist and be a non-empty string. -/
def truthyGet (m : List (Str × Str)) (k : Str) : Option Str :=
  match jsGet m k with
  | some v => if v == [] then none else some v
  | none => none

/-- The `add-label` branch of a matched rule (src/fastmailProc.js lines
551-577), parameterised by the two configuration booleans.  Returns the
updated per-message state and engine state. -/
def applyAddLabel (sv pl : Bool) (nameToId : List (Str × Str)) (m : Message)
    (r : Rule) (mu : MsgUpdates) (modified : Bool) (g : EngSt) :
    MsgUpdates × Bool × EngSt :=
  if r.addLabel == [] then (mu, modified, g)
  else
    match truthyGet nameToId r.addLabel with
    | none => (mu, modified, g)
    | some mid =>
      let step1 :=
        if pl then
          (⟨setAdd mu.mailboxIds mid, mu.keywords⟩, true,
           { g with labelsAdded := bump g.labelsAdded r.addLabel })
        else (mu, modified, g)
      if sv && !(m.subject == []) then
        (step1.1, step1.2.1,
         { step1.2.2 with
            ledger := accumStep step1.2.2.ledger
              ⟨r.addLabel, fromNameOf m, m.subject, m.id⟩ })
      else step1

/-- The `remove-label` branch of a matched rule (src/fastmailProc.js lines
579-596). -/
def applyRemoveLabel (pl : Bool) (nameToId : List (Str × Str)) (r : Rule)
    (mu : MsgUpdates) (modified : Bool) (g : EngSt) :
    MsgUpdates × Bool × EngSt :=
  if r.removeLabel == [] then (mu, modified, g)
  else
    let lab := r.removeLabel
    let step1 :=
      match truthyGet nameToId lab with
      | some mid =>
        if pl then
          (⟨setDelete mu.mailboxIds mid, mu.keywords⟩, true,
           { g with labelsRemoved := bump g.labelsRemoved lab })
        else (mu, modified, g)
      | none => (mu, modified, g)
    let mu1 := step1.1
    let step2 :=
      if pl && mu1.keywords.contains lab then
        (⟨mu1.mailboxIds, setDelete mu1.keywords lab⟩, true, step1.2.2)
      else step1
    let mu2 := step2.1
    if pl && mu2.keywords.contains (jsToLower lab) then
      (⟨mu2.mailboxIds, setDelete mu2.keywords (jsToLower lab)⟩, true, step2.2.2)
    else step2

/-- Apply the rule list to one message (src/fastmailProc.js lines 547-603):
for each rule in order, compose the text and test the rule; on a match run
the add-label and remove-label branches and stop at a `stop` action.  The
final component reports whether `stopProcessing` was set; `none` models the
`TypeError` that aborts the whole run (see `getTextString`). -/
def applyRules (rx : Str → Str → Bool) (sv pl : Bool)
    (nameToId : List (Str × Str)) (m : Message) :
    List Rule → MsgUpdates → Bool → EngSt → Option (MsgUpdates × Bool × EngSt × Bool)
  | [], mu, modified, g => some (mu, modified, g, false)
  | r :: rest, mu, modified, g =>
    match getTextString m r with
    | none => none
    | some t =>
      if testRule rx t r then
        let s1 := applyAddLabel sv pl nameToId m r mu modified g
        let s2 := applyRemoveLabel pl nameToId r s1.1 s1.2.1 s1.2.2
        if r.stop then some (s2.1, s2.2.1, s2.2.2, true)
        else applyRules rx sv pl nameToId m rest s2.1 s2.2.1 s2.2.2
      else applyRules rx sv pl nameToId m rest mu modified g

/-- Process one message (src/fastmailProc.js lines 537-607): start from a
copy of its mailbox ids and keywords, apply the rules, and record the
per-message update when anything was modified. -/
def processOne (rx : Str → Str → Bool) (sv pl : Bool)
    (nameToId : List (Str × Str)) (ruleList : List Rule) (g : EngSt)
    (m : Message) : Option EngSt :=
  match applyRules rx sv pl nameToId m ruleList ⟨m.mailboxIds, m.keywords⟩ false g with
  | none => none
  | some (mu, modified, g1, stopped) =>
    some { g1 with
            updates := if modified then objSet g1.updates m.id mu else g1.updates,
            stopProcessing := stopped }

/-- The message loop (src/fastmailProc.js lines 536-608): `if
(stopProcessing) break` at the top of the loop body ends the loop for all
remaining messages once the flag is set. -/
def procMsgs (rx : Str → Str → Bool) (sv pl : Bool)
    (nameToId : List (Str × Str)) (ruleList : List Rule) :
    EngSt → List Message → Option EngSt
  | g, [] => some g
  | g, m :: ms =>
    if g.stopProcessing then some g
    else
      match processOne rx sv pl nameToId ruleList g m with
      | none => none
      | some g1 => procMsgs rx sv pl nameToId ruleList g1 ms

/-- The full processing pass over a fetched message batch, in the script's
own configuration, starting from the ledger state loaded from the subjects
file.  After the loop the script issues one batched `Email/set` exactly when
`updates` is non-empty (line 611). -/
def processBatch (rx : Str → Str → Bool) (nameToId : List (Str × Str))
    (ruleList : List Rule) (subjectsContent : Str) (msgs : List Message) :
    Option EngSt :=
  procMsgs rx SAVE_SUBJECTS PROCESS_LABELS nameToId ruleList
    { ledger := loadSubjects subjectsContent } msgs

/-- Whether the batched `Email/set` call is issued
(`if (Object.keys(updates).length > 0)`, line 611). -/
def emailSetIssued (g : EngSt) : Bool := !g.updates.isEmpty

/-- The advisory lock state of fastmail-host.js (lines 15-16):
`clientHasLock` and the acquisition timestamp (`null` as `none`). -/
structure LockSrv where
  clientHasLock : Bool
  lockTimestamp : Option Int
deriving DecidableEq

/-- `LOCK_TIMEOUT_MS = 300000` (fastmail-host.js line 17). -/
def LOCK_TIMEOUT_MS : Int := 300000

/-- JavaScript truthiness of the numeric `lockTimestamp` (`null` and `0` are
both falsy). -/
def tsTruthy : Option Int → Bool
  | some n => !(n == 0)
  | none => false

/-- `checkLockTimeout()` (fastmail-host.js lines 34-40): while locked with a
truthy timestamp, strictly more than `LOCK_TIMEOUT_MS` elapsed milliseconds
release the lock. -/
def checkLockTimeout (now : Int) (s : LockSrv) : LockSrv :=
  if s.clientHasLock && tsTruthy s.lockTimestamp &&
      decide (now - (s.lockTimestamp.getD 0) > LOCK_TIMEOUT_MS) then
    ⟨false, none⟩
  else s

/-- The state after a successful `/api/data` save acquires the lock
(fastmail-host.js lines 109-110). -/
def acquiredAt (t : Int) : LockSrv := ⟨true, some t⟩

/-- `GET /api/lock-status` (fastmail-host.js lines 128-131): run the lazy
expiry, then report `clientHasLock`; returns the reported flag and the lock
state the server keeps. -/
def lockStatus (now : Int) (s : LockSrv) : Bool × LockSrv :=
  let s1 := checkLockTimeout now s
  (s1.clientHasLock, s1)

/-- The body of a `POST /api/data` request: the optional `type` and
`content` fields (`none` models an absent field). -/
structure PostReq where
  reqType : Option Str := none
  content : Option Str := none
deriving DecidableEq

/-- The `type` validation shared by both data endpoints:
`if (!type || !['subjects', 'exclusions'].includes(type))`. -/
def validType : Option Str → Bool
  | some t => !(t == []) && (t == str "subjects" || t == str "exclusions")
  | none => false

/-- Result of a data-endpoint request: HTTP status, lock state after the
request, and the file writes performed (filename, content). -/
structure DataResult where
  status : Nat
  lock : LockSrv
  writes : List (Str × Str)
deriving DecidableEq

/-- `POST /api/data` (fastmail-host.js lines 89-117): lazy lock expiry, then
validation (invalid `type` or missing `content` return 400 without writing),
then the write of `${type}.txt` and lock acquisition.  The handler is a
total function: every request produces a response and the server keeps
serving (errors are caught and converted to a 500 response; the validation
paths modelled here throw nothing). -/
def postData (now : Int) (s : LockSrv) (req : PostReq) : DataResult :=
  let s1 := checkLockTimeout now s
  if !(validType req.reqType) then ⟨400, s1, []⟩
  else
    match req.content with
    | none => ⟨400, s1, []⟩
    | some body =>
      ⟨200, acquiredAt now, [((req.reqType.getD []) ++ str ".txt", body)]⟩

/-- `GET /api/data` (fastmail-host.js lines 64-86): lazy lock expiry, then
validation; an invalid `type` returns 400 and nothing is written by this
endpoint in any path. -/
def getData (now : Int) (s : LockSrv) (reqType : Option Str) : DataResult :=
  let s1 := checkLockTimeout now s
  if !(validType reqType) then ⟨400, s1, []⟩
  else ⟨200, s1, []⟩

/-- `POST /api/release-lock` (fastmail-host.js lines 120-125). -/
def releaseLock (_ : LockSrv) : LockSrv := ⟨false, none⟩

/-- Case-insensitive string equality, the comparison named by the
specification for the `exact` and `not-exact` conditions. -/
def ciEq (a b : Str) : Bool := jsToLower a == jsToLower b

/-- Modelled from the specification's Field Composer contract (§4.1), for
comparison with `getTextString`: one part per selector flag in the fixed
order header, from, to, subject, body; a selector whose underlying value is
absent contributes the empty string; parts joined with `'|'`; the result
lower-cased.  The body part resolves the first plain-text body part. -/
def composeSpec (m : Message) (r : Rule) : Str :=
  let bodyVal : Str :=
    match m.textBody.head? with
    | some pid => if pid == [] then [] else (jsGet m.bodyValues pid).getD []
    | none => []
  let parts0 : List Str := if !(r.header == []) then [headerValueOf m r.header] else []
  let parts1 := parts0 ++ (if r.fromSel then [((m.fromA.head?).map (fun a => a.email)).getD []] else [])
  let parts2 := parts1 ++ (if r.toSel then [joinSpace (m.toA.map (fun a => a.email))] else [])
  let parts3 := parts2 ++ (if r.subjectSel then [m.subject] else [])
  let parts4 := parts3 ++ (if r.bodySel then [bodyVal] else [])
  jsToLower (List.intercalate ['|'] parts4)

/-- A string without newline characters survives `split('\n')` unsplit. -/
def nlFree (s : Str) : Bool := !(s.contains '\n')

/-- The lines of the rendered file belonging to one section: the header line
followed by the entry lines; a section with no lines contributes one empty
line (the `\n` after its header meets the following separator or the final
newline). -/
def sectionLines (p : Str × List Str) : List Str :=
  renderHeader p.1 :: (if p.2.isEmpty then [[]] else p.2)

/-- The line list of the whole rendered file: sections separated by one
blank line, with one trailing empty line from the final `\n`. -/
def sectionsLines (secs : List (Str × List Str)) : List Str :=
  List.intercalate [[]] (secs.map sectionLines) ++ [[]]

/-- Tag every non-header line of a line list with the label extracted from
the most recent header line before it (`none` before the first header).
This is the governing-label notion shared by the load loop, the duplicate
collection, and the per-label subject-map scan. -/
def tagStep (st : Option Str × List (Option Str × Str)) (line : Str) :
    Option Str × List (Option Str × Str) :=
  if isHeaderLine line then (some (extractLabel line), st.2)
  else (st.1, st.2 ++ [(st.1, line)])

/-- The tagged non-header lines of a line list. -/
def taggedOf (lines : List Str) : List (Option Str × Str) :=
  (lines.foldl tagStep (none, [])).2

/-- The sender keys of one rendered section (its entry lines only). -/
def secEntryKeys (sec : Str × List Str) : List Str :=
  (sec.2.filter isEntryLine).map splitKey

/-- The sender keys of a rendered section list. -/
def outEntryKeys (secs : List (Str × List Str)) : List Str :=
  (secs.map secEntryKeys).join

/-- The sorted from names of one label (the section's key list). -/
def labFromNames (acc : LedgerAcc) (lab : Str) : List Str :=
  sortKeys ((jsGet acc.byLabel lab).getD [])

/-- The subject map and duplicate set of one label after folding in the
label's new lines. -/
def labFolded (S : Str) (acc : LedgerAcc) (ex : List Str) (lab : Str) :
    List (Str × Str) × List Str :=
  ((jsGet acc.linesByLabel lab).getD []).foldl newLinesFold (subjectMapFor S lab, ex)

/-- The entry lines emitted for one label, in from-name sort order. -/
def labAllSubjects (S : Str) (acc : LedgerAcc) (ex : List Str) (lab : Str) : List Str :=
  ((labFromNames acc lab).filterMap
    (fun fn => jsGet (labFolded S acc ex lab).1 fn)).filter (fun v => !(v == []))

/-- The state of the merge after the fold over all labels. -/
def mergeFold (S E : Str) (acc : LedgerAcc) : List Str × List (Str × List Str) :=
  (sortLabs (acc.byLabel.map (fun p => p.1))).foldl (processLabel S acc)
    (collectFrom (collectFrom [] S) E, [])

/-- The from-name set accumulated while loading one rendered section. -/
def keySetOf (sec : Str × List Str) : List Str :=
  sec.2.foldl (fun t l => setAdd t (splitKey l)) []

/-- A candidate whose label and ledger line survive the file round trip:
the label re-extracts from its own header, label and line hold no newline,
the line's key is the from name, and the line is not header-shaped. -/
structure CleanCand (c : Candidate) : Prop where
  labClean : extractLabel (renderHeader c.label) = c.label
  labNl : nlFree c.label = true
  lineNl : nlFree (subjectLineOf c) = true
  lineKey : splitKey (subjectLineOf c) = c.fromName
  lineNoHdr : isHeaderLine (subjectLineOf c) = false

/-- The shape of a rendered subjects file that re-parses to itself: sorted
distinct round-tripping labels and nonempty bodies of newline-free entry
lines with distinct sorted keys per section. -/
structure CleanSecs (secs : List (Str × List Str)) : Prop where
  ne : secs ≠ []
  labNd : (secs.map (fun sec => sec.1)).Nodup
  labSorted : (secs.map (fun sec => sec.1)).Sorted LeLab
  labClean : ∀ sec ∈ secs, extractLabel (renderHeader sec.1) = sec.1
  labNl : ∀ sec ∈ secs, nlFree sec.1 = true
  bodyNe : ∀ sec ∈ secs, sec.2 ≠ []
  lineEnt : ∀ sec ∈ secs, ∀ l ∈ sec.2, isEntryLine l = true
  lineNl : ∀ sec ∈ secs, ∀ l ∈ sec.2, nlFree l = true
  keyNd : ∀ sec ∈ secs, (sec.2.map splitKey).Nodup
  keySorted : ∀ sec ∈ secs, (sec.2.map splitKey).Sorted LeKey

/-- Every candidate's from name already sits under its own label's section. -/
def CandCovered (secs : List (Str × List Str)) (C : List Candidate) : Prop :=
  ∀ c ∈ C, ∃ sec ∈ secs, sec.1 = c.label ∧ c.fromName ∈ sec.2.map splitKey

/-- The invariant threaded through the per-label merge fold: the global
duplicate set only grows past the initial collection, every emitted key is
recorded in it, emitted keys are unique across sections and against the
exclusions file, every emitted key traces to a tagged entry occurrence of
its own section's label in the subjects file or is fresh in both files, and
every emitted line is an entry line of the subjects file or a new candidate
line whose key was fresh. -/
structure MergeInv (S E : Str) (acc : LedgerAcc)
    (st : List Str × List (Str × List Str)) : Prop where
  exSup : collectFrom (collectFrom [] S) E ⊆ st.1
  keysEx : ∀ k ∈ outEntryKeys st.2, k ∈ st.1
  keysNd : (outEntryKeys st.2 ++ entryKeys E).Nodup
  keysTag : ∀ sec ∈ st.2, ∀ k ∈ secEntryKeys sec,
      (∃ w, (some sec.1, w) ∈ taggedOf (splitNl S) ∧ isEntryLine w = true ∧
        splitKey w = k) ∨ (k ∉ entryKeys S ∧ k ∉ entryKeys E)
  lineSrc : ∀ sec ∈ st.2, ∀ v ∈ sec.2, v ∈ entryLines S ∨
      (splitKey v ∉ collectFrom (collectFrom [] S) E ∧ ∃ p ∈ acc.linesByLabel, v ∈ p.2)

/-- Claim C5, as stated, is false: `testRule` compares the text against the
lower-cased condition string with plain equality, not case-insensitively.
For the text `"A"` and the condition `exact: "A"`, case-insensitive
full-string comparison holds, so the claim says the condition passes, but
the rule (whose only condition is this `exact`) does not match. -/
theorem c5_counterexample :
    testRule (fun _ _ => true) (str "A") { exact := some (str "A") } = false ∧
      ciEq (str "A") (str "A") = true := by
  constructor
  · decide
  · decide

/-- Claim C5 amended: for text strings that are invariant under
lower-casing — which is every text the engine tests, since `getTextString`
lower-cases its result — a present `exact` condition passes iff the text
equals the condition string case-insensitively (full-string, not
substring), and a present `not-exact` condition passes iff it does not. -/
theorem c5_amended (rx : Str → Str → Bool) (t s : Str) (h : jsToLower t = t) :
    testRule rx t { exact := some s } = ciEq t s ∧
      testRule rx t { notExact := some s } = !(ciEq t s) := by
  constructor
  · simp only [testRule, Bool.true_and, Bool.and_true]
    rw [ciEq, h]
  · simp only [testRule, Bool.true_and, Bool.and_true]
    rw [ciEq, h]

/-- Witness for `c5_amended` at the lower-case text `"abc"` and the
condition string `"ABC"`. -/
theorem c5_amended_witness :
    testRule (fun _ _ => true) (str "abc") { exact := some (str "ABC") } =
        ciEq (str "abc") (str "ABC") ∧
      testRule (fun _ _ => true) (str "abc") { notExact := some (str "ABC") } =
        !(ciEq (str "abc") (str "ABC")) :=
  c5_amended (fun _ _ => true) (str "abc") (str "ABC") (by decide)

/-- Claim C6: a rule whose `contains` condition carries a list matches
exactly when the rule carrying the same list as its `one-of` condition
matches — both are the case-insensitive substring test OR-ed across the
entries (src/fastmailProc.js lines 389-401), for any surrounding rule. -/
theorem c6_contains_list_eq_one_of (rx : Str → Str → Bool) (t : Str)
    (l : List Str) (r : Rule) :
    testRule rx t { r with contains := some (ContainsArg.list l), oneOf := none } =
      testRule rx t { r with contains := none, oneOf := some l } := by
  simp only [testRule, Bool.and_true, Bool.true_and, Bool.and_assoc]

/-- Claim C7, as stated, is false: when the message's `bodyValues` has a
truthy value under the literal key `'body'` and `textBody` is empty, the
body expression of `getTextString` throws a `TypeError` (the `||` in
`bodyValues?.['body']?.value || textBody?.[0]?.partId ? ... : ''` binds
tighter than `?:`, and the then-branch indexes `textBody[0]` without
optional chaining), so no composed string is produced at all instead of the
body selector contributing the empty string. -/
theorem c7_counterexample :
    getTextString { textBody := [], bodyValues := [(str "body", str "x")] }
        { bodySel := true } = none ∧
      composeSpec { textBody := [], bodyValues := [(str "body", str "x")] }
        { bodySel := true } = str "" := by
  constructor
  · decide
  · decide

/-- Claim C7 amended: provided the message's `bodyValues` carries no truthy
value under the literal key `'body'` (true of every real JMAP response,
where `bodyValues` is keyed by part ids), `getTextString` produces exactly
the specification's composition: one part per selector flag in the fixed
order header, from, to, subject, body, an absent underlying value
contributing the empty string, all parts joined with `'|'` and the whole
result lower-cased. -/
theorem c7_amended (m : Message) (r : Rule)
    (h : optTruthy (jsGet m.bodyValues (str "body")) = false) :
    getTextString m r = some (composeSpec m r) := by
  unfold getTextString composeSpec bodyPart
  cases hb : r.bodySel with
  | false => simp
  | true =>
    cases ht : m.textBody.head? with
    | none => simp [h]
    | some pid =>
      cases hp : pid == [] with
      | false => simp [h, ht, hp]
      | true => simp [h, ht, hp]

/-- Witness for `c7_amended` at a message selecting every field. -/
theorem c7_amended_witness :
    getTextString
        { id := str "1", subject := str "Hi", fromA := [{ email := str "a@b" }],
          toA := [{ email := str "c@d" }],
          headers := [{ name := str "X-H", value := str "V" }],
          textBody := [str "p1"], bodyValues := [(str "p1", str "Body")] }
        { header := str "x-h", fromSel := true, toSel := true,
          subjectSel := true, bodySel := true } =
      some (composeSpec
        { id := str "1", subject := str "Hi", fromA := [{ email := str "a@b" }],
          toA := [{ email := str "c@d" }],
          headers := [{ name := str "X-H", value := str "V" }],
          textBody := [str "p1"], bodyValues := [(str "p1", str "Body")] }
        { header := str "x-h", fromSel := true, toSel := true,
          subjectSel := true, bodySel := true }) :=
  c7_amended _ _ (by decide)

/-- Claim C8, as stated, is false: `checkLockTimeout` uses a strict
comparison (`now - lockTimestamp > LOCK_TIMEOUT_MS`, fastmail-host.js line
35), so a status query exactly `LOCK_TIMEOUT_MS` milliseconds after
acquisition — an elapsed time that satisfies the claim's `≥` — still
reports `Locked`. -/
theorem c8_counterexample :
    (lockStatus (1 + LOCK_TIMEOUT_MS) (acquiredAt 1)).1 = true := by
  decide

/-- Claim C8 amended: for a lock acquired at any non-zero time `t` (a
timestamp of exactly `0` is falsy in JavaScript and such a lock never
expires lazily), a status query at time `t'` reports `Unlocked` and clears
the lock state iff strictly more than `LOCK_TIMEOUT_MS` has elapsed, and
reports `Locked` leaving the state unchanged iff at most `LOCK_TIMEOUT_MS`
has elapsed. -/
theorem c8_amended (t tq : Int) (h : t ≠ 0) :
    lockStatus tq (acquiredAt t) =
      if tq - t > LOCK_TIMEOUT_MS then (false, ⟨false, none⟩)
      else (true, acquiredAt t) := by
  by_cases he : tq - t > LOCK_TIMEOUT_MS
  · simp [lockStatus, checkLockTimeout, acquiredAt, tsTruthy, h, he]
  · simp [lockStatus, checkLockTimeout, acquiredAt, tsTruthy, h, he]

/-- Witness for `c8_amended`: a lock acquired at time 5 queried at time
400000 (expired) reports `Unlocked`. -/
theorem c8_amended_witness :
    lockStatus 400000 (acquiredAt 5) =
      if (400000 : Int) - 5 > LOCK_TIMEOUT_MS then (false, ⟨false, none⟩)
      else (true, acquiredAt 5) :=
  c8_amended 5 400000 (by decide)

/-- Claim C9, as stated, is false in one respect: an invalid request does
return a client-error response without writing any ledger file, but the
handler runs `checkLockTimeout()` before validating, so a request with an
invalid `type` arriving after the lock timeout has elapsed does change the
lock state (lazy expiry).  Here the lock acquired at time 1 is released by
the invalid request at time 300002. -/
theorem c9_counterexample :
    postData 300002 (acquiredAt 1) { reqType := some (str "bogus") } =
        ⟨400, ⟨false, none⟩, []⟩ ∧
      (⟨false, none⟩ : LockSrv) ≠ acquiredAt 1 := by
  constructor
  · decide
  · decide

/-- Claim C9 amended: a data request whose `type` is missing or not one of
`subjects`/`exclusions`, or a save whose `content` is missing, returns
status 400 and writes no ledger file; the only lock-state change is the
lazy timeout expiry that every data request performs first — in particular
the lock is never acquired.  Both handlers are total functions of the
request, so the process keeps serving subsequent requests. -/
theorem c9_amended (now : Int) (s : LockSrv) (req : PostReq) (rt : Option Str)
    (hpost : validType req.reqType = false ∨ req.content = none)
    (hget : validType rt = false) :
    postData now s req = ⟨400, checkLockTimeout now s, []⟩ ∧
      getData now s rt = ⟨400, checkLockTimeout now s, []⟩ := by
  constructor
  · rcases hpost with h | h
    · simp [postData, h]
    · unfold postData
      cases hv : validType req.reqType with
      | false => simp
      | true => simp [h]
  · simp [getData, hget]

/-- Witness for `c9_amended`: an unlocked server at time 10 receiving a
request with type `"bogus"` and a read for a missing type. -/
theorem c9_amended_witness :
    postData 10 ⟨false, none⟩ { reqType := some (str "bogus") } =
        ⟨400, checkLockTimeout 10 ⟨false, none⟩, []⟩ ∧
      getData 10 ⟨false, none⟩ none =
        ⟨400, checkLockTimeout 10 ⟨false, none⟩, []⟩ :=
  c9_amended 10 ⟨false, none⟩ { reqType := some (str "bogus") } none
    (Or.inl (by decide)) (by decide)

theorem applyAddLabel_pl_false (sv : Bool) (nameToId : List (Str × Str))
    (m : Message) (r : Rule) (mu : MsgUpdates) (modified : Bool) (g : EngSt) :
    (applyAddLabel sv false nameToId m r mu modified g).1 = mu ∧
      (applyAddLabel sv false nameToId m r mu modified g).2.1 = modified ∧
      (applyAddLabel sv false nameToId m r mu modified g).2.2.updates = g.updates := by
  unfold applyAddLabel
  cases h1 : r.addLabel == [] with
  | true => simp
  | false =>
    cases h2 : truthyGet nameToId r.addLabel with
    | none => simp
    | some mid =>
      cases h3 : sv && !(m.subject == []) with
      | true => simp [h3]
      | false => simp [h3]

theorem applyRemoveLabel_pl_false (nameToId : List (Str × Str)) (r : Rule)
    (mu : MsgUpdates) (modified : Bool) (g : EngSt) :
    applyRemoveLabel false nameToId r mu modified g = (mu, modified, g) := by
  unfold applyRemoveLabel
  by_cases h1 : (r.removeLabel == []) = true
  · simp [h1]
  · simp only [Bool.not_eq_true] at h1
    simp only [h1, Bool.false_eq_true, if_false, Bool.false_and]
    cases truthyGet nameToId r.removeLabel <;> simp

theorem applyRules_pl_false (rx : Str → Str → Bool) (sv : Bool)
    (nameToId : List (Str × Str)) (m : Message) (rules : List Rule)
    (mu : MsgUpdates) (modified : Bool) (g : EngSt)
    (out : MsgUpdates × Bool × EngSt × Bool)
    (h : applyRules rx sv false nameToId m rules mu modified g = some out) :
    out.2.1 = modified ∧ out.2.2.1.updates = g.updates := by
  induction rules generalizing mu modified g with
  | nil =>
    simp only [applyRules, Option.some.injEq] at h
    rw [← h]
    exact ⟨rfl, rfl⟩
  | cons r rest ih =>
    rw [applyRules] at h
    cases ht : getTextString m r with
    | none => simp [ht] at h
    | some t =>
      simp only [ht] at h
      by_cases hm : testRule rx t r = true
      · rw [if_pos hm] at h
        obtain ⟨ha1, ha2, ha3⟩ := applyAddLabel_pl_false sv nameToId m r mu modified g
        rw [applyRemoveLabel_pl_false] at h
        by_cases hs : r.stop = true
        · rw [if_pos hs] at h
          simp only [Option.some.injEq] at h
          rw [← h]
          exact ⟨ha2, ha3⟩
        · rw [if_neg hs] at h
          obtain ⟨h1, h2⟩ := ih _ _ _ h
          rw [h1, h2, ha2, ha3]
          exact ⟨rfl, rfl⟩
      · rw [if_neg hm] at h
        exact ih _ _ _ h

theorem procMsgs_pl_false_updates (rx : Str → Str → Bool) (sv : Bool)
    (nameToId : List (Str × Str)) (ruleList : List Rule) (msgs : List Message)
    (g gOut : EngSt)
    (h : procMsgs rx sv false nameToId ruleList g msgs = some gOut) :
    gOut.updates = g.updates := by
  induction msgs generalizing g with
  | nil =>
    simp only [procMsgs, Option.some.injEq] at h
    rw [← h]
  | cons m ms ih =>
    rw [procMsgs] at h
    by_cases hstop : g.stopProcessing = true
    · rw [if_pos hstop] at h
      simp only [Option.some.injEq] at h
      rw [← h]
    · rw [if_neg hstop] at h
      cases hp : processOne rx sv false nameToId ruleList g m with
      | none => simp [hp] at h
      | some g1 =>
        simp only [hp] at h
        have hg1 : g1.updates = g.updates := by
          unfold processOne at hp
          cases ha : applyRules rx sv false nameToId m ruleList ⟨m.mailboxIds, m.keywords⟩ false g with
          | none => simp [ha] at hp
          | some out =>
            simp only [ha, Option.some.injEq] at hp
            obtain ⟨h1, h2⟩ := applyRules_pl_false rx sv nameToId m ruleList _ _ _ _ ha
            rw [← hp]
            simp only [h1, Bool.false_eq_true, if_false]
            exact h2
        rw [ih g1 h, hg1]

/-- Claim C10: in the script's configuration (`SAVE_SUBJECTS = true`,
`PROCESS_LABELS = false`), every assignment of `messageModified = true` is
guarded by `PROCESS_LABELS`, so for every message batch and rule list no
per-message update is accumulated, and the batched `Email/set` mutation is
never issued: the run leaves remote mailbox membership and keyword state
untouched even while ledger candidates are recorded. -/
theorem c10_no_email_set (rx : Str → Str → Bool) (nameToId : List (Str × Str))
    (ruleList : List Rule) (subjectsContent : Str) (msgs : List Message)
    (g : EngSt)
    (h : processBatch rx nameToId ruleList subjectsContent msgs = some g) :
    g.updates = [] ∧ emailSetIssued g = false := by
  have hu : g.updates = [] := by
    have := procMsgs_pl_false_updates rx SAVE_SUBJECTS nameToId ruleList msgs
      { ledger := loadSubjects subjectsContent } g h
    simpa using this
  exact ⟨hu, by simp [emailSetIssued, hu]⟩

/-- Witness for `c10_no_email_set`: a batch of one message matched by an
`add-label` rule records its ledger candidate but issues no update. -/
theorem c10_no_email_set_witness :
    processBatch (fun _ _ => false) [(str "L", str "M1")]
        [{ subjectSel := true, contains := some (ContainsArg.scalar (str "x")),
           addLabel := str "L" }] (str "")
        [{ id := str "1", subject := str "x",
           fromA := [{ name := str "n", email := str "n@e" }] }] ≠ none ∧
      ∀ g, processBatch (fun _ _ => false) [(str "L", str "M1")]
        [{ subjectSel := true, contains := some (ContainsArg.scalar (str "x")),
           addLabel := str "L" }] (str "")
        [{ id := str "1", subject := str "x",
           fromA := [{ name := str "n", email := str "n@e" }] }] = some g →
        g.updates = [] ∧ emailSetIssued g = false := by
  constructor
  · decide
  · intro g h
    exact c10_no_email_set _ _ _ _ _ _ h

/-- Claim C1, as stated, is false: `stopProcessing` is declared outside the
message loop and `if (stopProcessing) break` heads the loop body
(src/fastmailProc.js lines 534-538, 598-600), so a matching `stop` rule on
one message halts processing of every remaining message in the batch.  With
rules `[match "x" with stop, match "y" with add-label L]`, message 1
(subject `"x"`) triggers the stop and message 2 (subject `"y"`) — which
alone would record a ledger candidate under `L` — is never evaluated. -/
theorem c1_counterexample :
    (processBatch (fun _ _ => false) [(str "L", str "M1")]
        [{ subjectSel := true, contains := some (ContainsArg.scalar (str "x")),
           stop := true },
         { subjectSel := true, contains := some (ContainsArg.scalar (str "y")),
           addLabel := str "L" }] (str "")
        [{ id := str "1", subject := str "x", fromA := [{ name := str "ax" }] },
         { id := str "2", subject := str "y", fromA := [{ name := str "by" }] }]).map
        (fun g => g.ledger.linesByLabel) = some [] ∧
      (processBatch (fun _ _ => false) [(str "L", str "M1")]
        [{ subjectSel := true, contains := some (ContainsArg.scalar (str "x")),
           stop := true },
         { subjectSel := true, contains := some (ContainsArg.scalar (str "y")),
           addLabel := str "L" }] (str "")
        [{ id := str "2", subject := str "y", fromA := [{ name := str "by" }] }]).map
        (fun g => g.ledger.linesByLabel) =
        some [(str "L", [str "by | y | 2"])] := by
  constructor
  · decide
  · decide

/-- Claim C1 amended: a matching rule carrying `stop` halts rule evaluation
for the current message and also skips every remaining message of the
batch — the `stopProcessing` flag is global to the run, not per-message;
the batched update call and the ledger merge still run afterwards on what
was accumulated up to that point. -/
theorem c1_amended (rx : Str → Str → Bool) (sv pl : Bool)
    (nameToId : List (Str × Str)) (ruleList : List Rule) (g gOut : EngSt)
    (ms1 ms2 : List Message)
    (h : procMsgs rx sv pl nameToId ruleList g ms1 = some gOut)
    (hstop : gOut.stopProcessing = true) :
    procMsgs rx sv pl nameToId ruleList g (ms1 ++ ms2) = some gOut := by
  induction ms1 generalizing g with
  | nil =>
    simp only [procMsgs, Option.some.injEq] at h
    subst h
    cases ms2 with
    | nil => rfl
    | cons m ms => simp [procMsgs, hstop]
  | cons m ms ih =>
    simp only [procMsgs] at h ⊢
    by_cases hg : g.stopProcessing = true
    · rw [if_pos hg] at h ⊢
      exact h
    · rw [if_neg hg] at h ⊢
      cases hp : processOne rx sv pl nameToId ruleList g m with
      | none => simp [hp] at h
      | some g1 =>
        simp only [hp] at h ⊢
        exact ih g1 h

/-- Witness for `c1_amended` at the counterexample's inputs: the run that
stopped on message 1 is unchanged by appending message 2. -/
theorem c1_amended_witness :
    procMsgs (fun _ _ => false) SAVE_SUBJECTS PROCESS_LABELS
        [(str "L", str "M1")]
        [{ subjectSel := true, contains := some (ContainsArg.scalar (str "x")),
           stop := true }]
        { ledger := ⟨[], []⟩ }
        ([{ id := str "1", subject := str "x" }] ++ [{ id := str "2", subject := str "y" }]) =
      procMsgs (fun _ _ => false) SAVE_SUBJECTS PROCESS_LABELS
        [(str "L", str "M1")]
        [{ subjectSel := true, contains := some (ContainsArg.scalar (str "x")),
           stop := true }]
        { ledger := ⟨[], []⟩ }
        [{ id := str "1", subject := str "x" }] := by
  have h := c1_amended (fun _ _ => false) SAVE_SUBJECTS PROCESS_LABELS
    [(str "L", str "M1")]
    [{ subjectSel := true, contains := some (ContainsArg.scalar (str "x")),
       stop := true }]
    { ledger := ⟨[], []⟩ }
    (Option.get
      (procMsgs (fun _ _ => false) SAVE_SUBJECTS PROCESS_LABELS
        [(str "L", str "M1")]
        [{ subjectSel := true, contains := some (ContainsArg.scalar (str "x")),
           stop := true }]
        { ledger := ⟨[], []⟩ }
        [{ id := str "1", subject := str "x" }]) (by decide))
    [{ id := str "1", subject := str "x" }] [{ id := str "2", subject := str "y" }]
    (by decide) (by decide)
  rw [h]
  decide

/-- Claim C4: a label section that exists in the subjects file with an empty
body is dropped by the rewrite — `if (fromNames.length > 0)` guards section
emission (src/fastmailProc.js line 663) — contradicting the repository's
own README ("A label section is never removed, it can be empty").  On a
file holding an empty section `A` and a populated section `B`, a run with
no candidates rewrites the file without `A`'s header. -/
theorem c4_empty_section_dropped :
    runMerge (str "======= A =======\n\n======= B =======\nx | s | 1\n")
        (str "") [] = str "======= B =======\nx | s | 1\n" := by
  decide

theorem mem_setAdd {s : List Str} {x y : Str} : x ∈ setAdd s y ↔ x ∈ s ∨ x = y := by
  unfold setAdd
  by_cases h : s.contains y = true
  · rw [if_pos h]
    have hy : y ∈ s := List.elem_iff.mp h
    constructor
    · exact Or.inl
    · rintro (hx | rfl)
      · exact hx
      · exact hy
  · rw [if_neg h]
    simp [List.mem_append]

theorem setAdd_subset {s : List Str} {y : Str} : s ⊆ setAdd s y := by
  intro x hx
  exact mem_setAdd.mpr (Or.inl hx)

theorem startsWithL_iff_prefix {l s : Str} : startsWithL l s = true ↔ s <+: l := by
  induction l generalizing s with
  | nil =>
    cases s with
    | nil => simp [startsWithL]
    | cons c cs => simp [startsWithL]
  | cons c cs ih =>
    cases s with
    | nil => simp [startsWithL]
    | cons p ps =>
      simp only [startsWithL, Bool.and_eq_true, beq_iff_eq, List.cons_prefix_cons, ih]
      constructor
      · rintro ⟨h1, h2⟩
        exact ⟨h1.symm, h2⟩
      · rintro ⟨h1, h2⟩
        exact ⟨h1.symm, h2⟩

theorem containsSub_iff_infix {l s : Str} : containsSub l s = true ↔ s <:+: l := by
  induction l with
  | nil =>
    simp only [containsSub, List.isEmpty_iff]
    constructor
    · rintro rfl
      exact List.infix_rfl
    · intro h
      exact List.eq_nil_of_infix_nil h
  | cons c cs ih =>
    simp only [containsSub, Bool.or_eq_true, startsWithL_iff_prefix, ih,
      List.infix_cons_iff]

theorem startsWithL_append_self (s t : Str) : startsWithL (s ++ t) s = true :=
  startsWithL_iff_prefix.mpr ⟨t, rfl⟩

theorem containsSub_middle (x s y : Str) : containsSub (x ++ s ++ y) s = true :=
  containsSub_iff_infix.mpr ⟨x, y, by simp⟩

theorem jsTrimTruthy_of_sep {line : Str} (h : containsSub line sepStr = true) :
    jsTrimTruthy line = true := by
  have hinf : sepStr <:+: line := containsSub_iff_infix.mp h
  have hmem : '|' ∈ line := hinf.subset (by decide)
  exact List.any_eq_true.mpr ⟨'|', hmem, by decide⟩

theorem isEntryLine_subjectLineOf {c : Candidate}
    (hh : isHeaderLine (subjectLineOf c) = false) :
    isEntryLine (subjectLineOf c) = true := by
  have hsep : containsSub (subjectLineOf c) sepStr = true := by
    have : subjectLineOf c = c.fromName ++ sepStr ++ (c.subject ++ sepStr ++ c.msgId) := by
      simp [subjectLineOf, List.append_assoc]
    rw [this]
    exact containsSub_middle _ _ _
  simp [isEntryLine, hsep, jsTrimTruthy_of_sep hsep, hh]

theorem nlFree_iff {s : Str} : nlFree s = true ↔ ∀ c ∈ s, c ≠ '\n' := by
  unfold nlFree
  rw [Bool.not_eq_true']
  constructor
  · intro h c hc he
    subst he
    have : s.elem '\n' = true := List.elem_iff.mpr hc
    rw [show s.contains '\n' = s.elem '\n' from rfl, this] at h
    cases h
  · intro h
    by_contra hb
    rw [Bool.not_eq_false] at hb
    exact h '\n' (List.elem_iff.mp hb) rfl

theorem splitNl_nlfree {a : Str} (h : ∀ c ∈ a, c ≠ '\n') : splitNl a = [a] := by
  induction a with
  | nil => rfl
  | cons c cs ih =>
    have hc : c ≠ '\n' := h c (List.mem_cons_self c cs)
    have hrest := ih (fun x hx => h x (List.mem_cons_of_mem c hx))
    simp [splitNl, hc, hrest]

theorem splitNl_append_nl {a r : Str} (h : ∀ c ∈ a, c ≠ '\n') :
    splitNl (a ++ '\n' :: r) = a :: splitNl r := by
  induction a with
  | nil => simp [splitNl]
  | cons c cs ih =>
    have hc : c ≠ '\n' := h c (List.mem_cons_self c cs)
    have hrest := ih (fun x hx => h x (List.mem_cons_of_mem c hx))
    rw [List.cons_append, splitNl, if_neg hc, hrest]

theorem jsGet_append_single {α : Type} (m : List (Str × α)) (k : Str) (v : α) (k2 : Str) :
    jsGet (m ++ [(k, v)]) k2 =
      match jsGet m k2 with
      | some w => some w
      | none => if k2 = k then some v else none := by
  unfold jsGet
  rw [List.find?_append]
  cases hf : m.find? (fun p => p.1 == k2) with
  | some p => simp
  | none =>
    by_cases hk : k2 = k
    · subst hk
      simp [List.find?]
    · have hne : (k == k2) = false := by
        rw [beq_eq_false_iff_ne]
        exact Ne.symm hk
      simp [List.find?, hne, hk]

/-- When the key is absent, `obj[k] = v` appends. -/
theorem objSet_of_not_mem {α : Type} (m : List (Str × α)) (k : Str) (v : α)
    (h : jsGet m k = none) : objSet m k v = m ++ [(k, v)] := by
  unfold objSet
  rw [h]
  rfl

theorem setAdd_nodup {s : List Str} {x : Str} (h : s.Nodup) : (setAdd s x).Nodup := by
  unfold setAdd
  by_cases hc : s.contains x = true
  · rw [if_pos hc]
    exact h
  · rw [if_neg hc]
    have hx : x ∉ s := fun hm => hc (List.elem_iff.mpr hm)
    rw [List.nodup_append]
    exact ⟨h, List.nodup_singleton x, List.disjoint_singleton.mpr hx⟩

theorem mem_collect_fold {k : Str} (lines : List Str) (s0 : List Str) :
    (k ∈ lines.foldl
        (fun s line => if isEntryLine line then setAdd s (splitKey line) else s) s0) ↔
      k ∈ s0 ∨ k ∈ (lines.filter isEntryLine).map splitKey := by
  induction lines generalizing s0 with
  | nil => simp
  | cons l ls ih =>
    by_cases hl : isEntryLine l = true
    · simp only [List.foldl_cons, if_pos hl, List.filter_cons_of_pos hl, List.map_cons]
      rw [ih]
      simp only [mem_setAdd, List.mem_cons]
      tauto
    · simp only [List.foldl_cons, if_neg hl,
        List.filter_cons_of_neg (by simpa using hl)]
      exact ih s0

theorem mem_collectFrom {k : Str} {s0 : List Str} {content : Str} :
    k ∈ collectFrom s0 content ↔ k ∈ s0 ∨ k ∈ entryKeys content := by
  unfold collectFrom entryKeys entryLines
  exact mem_collect_fold (splitNl content) s0

theorem orderedInsert_of_forall_rel {r : Str → Str → Prop} [DecidableRel r]
    {a : Str} {l : List Str} (h : ∀ b ∈ l, r a b) :
    List.orderedInsert r a l = a :: l := by
  cases l with
  | nil => rfl
  | cons b bs =>
    exact List.orderedInsert_of_le r bs (h b (List.mem_cons_self b bs))

theorem filter_orderedInsert {r : Str → Str → Prop} [DecidableRel r] [IsTrans Str r]
    (p : Str → Bool) (a : Str) (l : List Str) (hs : l.Sorted r) :
    (List.orderedInsert r a l).filter p =
      if p a then List.orderedInsert r a (l.filter p) else l.filter p := by
  induction l with
  | nil =>
    by_cases hp : p a = true <;> simp [List.orderedInsert, hp]
  | cons b bs ih =>
    have hb : ∀ x ∈ bs, r b x := List.rel_of_sorted_cons hs
    have hs' : bs.Sorted r := hs.of_cons
    rw [List.orderedInsert]
    by_cases hr : r a b
    · rw [if_pos hr]
      by_cases hp : p a = true
      · rw [if_pos hp, List.filter_cons_of_pos hp]
        have hall : ∀ x ∈ (b :: bs).filter p, r a x := by
          intro x hx
          have hx' := List.mem_of_mem_filter hx
          rcases List.mem_cons.mp hx' with rfl | hxs
          · exact hr
          · exact Trans.trans hr (hb x hxs)
        rw [orderedInsert_of_forall_rel hall]
      · rw [if_neg hp, List.filter_cons_of_neg (by simpa using hp)]
    · rw [if_neg hr]
      by_cases hpb : p b = true
      · rw [List.filter_cons_of_pos hpb, List.filter_cons_of_pos hpb, ih hs']
        by_cases hp : p a = true
        · rw [if_pos hp, if_pos hp, List.orderedInsert, if_neg hr]
        · rw [if_neg hp, if_neg hp]
      · rw [List.filter_cons_of_neg (by simpa using hpb),
          List.filter_cons_of_neg (by simpa using hpb), ih hs']

theorem filter_insertionSort {r : Str → Str → Prop} [DecidableRel r]
    [IsTotal Str r] [IsTrans Str r] (p : Str → Bool) (l : List Str) :
    (l.insertionSort r).filter p = (l.filter p).insertionSort r := by
  induction l with
  | nil => rfl
  | cons a l ih =>
    rw [List.insertionSort,
      filter_orderedInsert p a (l.insertionSort r) (List.sorted_insertionSort r l), ih]
    by_cases hp : p a = true
    · rw [if_pos hp, List.filter_cons_of_pos hp, List.insertionSort]
    · rw [if_neg hp, List.filter_cons_of_neg (by simpa using hp)]

theorem nodup_insertionSort {r : Str → Str → Prop} [DecidableRel r] {l : List Str}
    (h : l.Nodup) : (l.insertionSort r).Nodup :=
  (List.perm_insertionSort r l).nodup_iff.mpr h

theorem isEntryLine_nonempty {v : Str} (h : isEntryLine v = true) : v ≠ [] := by
  intro he
  subst he
  simp [isEntryLine, jsTrimTruthy] at h

theorem endsWithL_append_self (x s : Str) : endsWithL (x ++ s) s = true := by
  unfold endsWithL
  rw [List.reverse_append]
  exact startsWithL_append_self s.reverse x.reverse

theorem renderHeader_split (lab : Str) :
    renderHeader lab = (sevens ++ ' ' :: lab ++ [' ']) ++ sevens := by
  simp [renderHeader, List.append_assoc]

theorem isHeaderLine_renderHeader (lab : Str) : isHeaderLine (renderHeader lab) = true := by
  have h7 : sevens.length = 7 := rfl
  unfold isHeaderLine
  rw [Bool.and_eq_true, Bool.and_eq_true]
  refine ⟨⟨?_, ?_⟩, ?_⟩
  · have hlen : (renderHeader lab).length = 16 + lab.length := by
      simp [renderHeader, h7]
      omega
    rw [hlen]
    simp
    omega
  · unfold renderHeader
    exact startsWithL_append_self sevens _
  · rw [renderHeader_split]
    exact endsWithL_append_self _ _

theorem isEntryLine_of_header {l : Str} (h : isHeaderLine l = true) :
    isEntryLine l = false := by
  simp [isEntryLine, h]

theorem isEntryLine_nil : isEntryLine [] = false := by decide

theorem nlFree_renderHeader {lab : Str} (h : nlFree lab = true) :
    nlFree (renderHeader lab) = true := by
  rw [nlFree_iff]
  intro c hc he
  subst he
  unfold renderHeader at hc
  have hsev2 : ('\n' : Char) ∉ sevens := by decide
  have hlab2 : ('\n' : Char) ∉ lab := fun hm => nlFree_iff.mp h '\n' hm rfl
  rcases List.mem_append.mp hc with h1 | h1
  · rcases List.mem_append.mp h1 with h2 | h2
    · exact hsev2 h2
    · rcases List.mem_cons.mp h2 with h3 | h3
      · exact absurd h3 (by decide)
      · exact hlab2 h3
  · rcases List.mem_cons.mp h1 with h3 | h3
    · exact absurd h3 (by decide)
    · exact hsev2 h3

theorem splitNl_intercalate_append {ls : List Str} {rest : Str}
    (h : ∀ l ∈ ls, nlFree l = true) (hne : ls ≠ []) :
    splitNl (List.intercalate ['\n'] ls ++ '\n' :: rest) = ls ++ splitNl rest := by
  induction ls with
  | nil => cases hne rfl
  | cons l ls ih =>
    cases ls with
    | nil =>
      have h1 : List.intercalate ['\n'] [l] = l := by simp [List.intercalate]
      rw [h1, List.cons_append, List.nil_append,
        splitNl_append_nl (nlFree_iff.mp (h l (List.mem_cons_self l [])))]
    | cons l2 ls2 =>
      have h1 : List.intercalate ['\n'] (l :: l2 :: ls2) =
          l ++ '\n' :: List.intercalate ['\n'] (l2 :: ls2) := by
        simp [List.intercalate, List.intersperse]
      rw [h1, List.append_assoc, List.cons_append,
        splitNl_append_nl (nlFree_iff.mp (h l (List.mem_cons_self l _)))]
      rw [ih (fun x hx => h x (List.mem_cons_of_mem l hx)) (List.cons_ne_nil _ _)]
      rfl

theorem splitNl_renderSection {sec : Str × List Str} {rest : Str}
    (hlab : nlFree sec.1 = true) (hlines : ∀ l ∈ sec.2, nlFree l = true) :
    splitNl (renderSection sec ++ '\n' :: rest) = sectionLines sec ++ splitNl rest := by
  unfold renderSection sectionLines
  rw [List.append_assoc, List.cons_append,
    splitNl_append_nl (nlFree_iff.mp (nlFree_renderHeader hlab))]
  cases hsec : sec.2 with
  | nil =>
    simp only [List.isEmpty_nil, if_pos]
    rw [show List.intercalate ['\n'] ([] : List Str) = [] from rfl]
    rw [List.nil_append]
    rw [show splitNl ('\n' :: rest) = [] :: splitNl rest from by rw [splitNl]; simp]
    rfl
  | cons l0 ls0 =>
    simp only [List.isEmpty_cons, if_neg]
    rw [splitNl_intercalate_append (fun x hx => hlines x (hsec ▸ hx)) (by simp)]
    rfl

theorem sectionsLines_cons₂ (sec sec2 : Str × List Str) (more : List (Str × List Str)) :
    sectionsLines (sec :: sec2 :: more) =
      sectionLines sec ++ [[]] ++ sectionsLines (sec2 :: more) := by
  unfold sectionsLines
  simp [List.intercalate, List.intersperse, List.append_assoc]

theorem splitNl_renderAll {secs : List (Str × List Str)} (hne : secs ≠ [])
    (hlabs : ∀ sec ∈ secs, nlFree sec.1 = true)
    (hlines : ∀ sec ∈ secs, ∀ l ∈ sec.2, nlFree l = true) :
    splitNl (renderAll secs) = sectionsLines secs := by
  induction secs with
  | nil => cases hne rfl
  | cons sec secs ih =>
    cases secs with
    | nil =>
      unfold renderAll sectionsLines
      simp only [List.map_cons, List.map_nil]
      rw [show List.intercalate (str "\n\n") [renderSection sec] = renderSection sec from by
        simp [List.intercalate]]
      rw [splitNl_renderSection (hlabs sec (List.mem_cons_self _ _))
        (hlines sec (List.mem_cons_self _ _))]
      rw [show splitNl [] = [[]] from rfl]
      simp [List.intercalate]
    | cons sec2 more =>
      have h1 : renderAll (sec :: sec2 :: more) =
          renderSection sec ++ '\n' :: ('\n' :: renderAll (sec2 :: more)) := by
        unfold renderAll
        rw [show List.intercalate (str "\n\n") (List.map renderSection (sec :: sec2 :: more)) =
            renderSection sec ++ str "\n\n" ++
              List.intercalate (str "\n\n") (List.map renderSection (sec2 :: more)) from by
          simp [List.intercalate, List.intersperse, List.append_assoc]]
        simp [str, List.append_assoc]
      rw [h1, splitNl_renderSection (hlabs sec (List.mem_cons_self _ _))
        (hlines sec (List.mem_cons_self _ _))]
      rw [show splitNl ('\n' :: renderAll (sec2 :: more)) =
          [] :: splitNl (renderAll (sec2 :: more)) from by rw [splitNl]; simp]
      rw [ih (by simp) (fun s hs => hlabs s (List.mem_cons_of_mem _ hs))
        (fun s hs => hlines s (List.mem_cons_of_mem _ hs))]
      rw [sectionsLines_cons₂]
      simp

theorem filter_sectionLines (sec : Str × List Str) :
    (sectionLines sec).filter isEntryLine = sec.2.filter isEntryLine := by
  unfold sectionLines
  rw [List.filter_cons_of_neg
    (by simp [isEntryLine_of_header (isHeaderLine_renderHeader sec.1)])]
  cases hsec : sec.2 with
  | nil => simp [isEntryLine_nil]
  | cons l0 ls0 => simp

theorem filter_sectionsLines (secs : List (Str × List Str)) :
    (sectionsLines secs).filter isEntryLine =
      (secs.map (fun sec => sec.2.filter isEntryLine)).join := by
  induction secs with
  | nil =>
    rw [show sectionsLines [] = [[]] from rfl]
    simp [isEntryLine_nil]
  | cons sec secs ih =>
    cases secs with
    | nil =>
      rw [show sectionsLines [sec] = sectionLines sec ++ [[]] from by
        simp [sectionsLines, List.intercalate]]
      rw [List.filter_append, filter_sectionLines]
      simp [isEntryLine_nil]
    | cons sec2 more =>
      rw [sectionsLines_cons₂, List.filter_append, List.filter_append,
        filter_sectionLines,
        show (([[]] : List Str).filter isEntryLine) = [] from by
          simp [isEntryLine_nil],
        ih]
      simp

theorem tagStep_snd (lines : List Str) :
    ∀ st : Option Str × List (Option Str × Str),
      ((lines.foldl tagStep st).2).map (fun pr => pr.2) =
        st.2.map (fun pr => pr.2) ++ lines.filter (fun l => !(isHeaderLine l)) := by
  induction lines with
  | nil => intro st; simp
  | cons l ls ih =>
    intro st
    by_cases hh : isHeaderLine l = true
    · rw [List.foldl_cons, show tagStep st l = (some (extractLabel l), st.2) from by
        simp [tagStep, hh], ih, List.filter_cons_of_neg (by simp [hh])]
    · rw [List.foldl_cons, show tagStep st l = (st.1, st.2 ++ [(st.1, l)]) from by
        simp [tagStep, hh], ih, List.filter_cons_of_pos (by simp [hh])]
      simp

theorem mem_entryLines_of_tagged {S : Str} {lab : Str} {v : Str}
    (h : (some lab, v) ∈ taggedOf (splitNl S)) (he : isEntryLine v = true) :
    v ∈ entryLines S := by
  have h2 : v ∈ (taggedOf (splitNl S)).map (fun pr => pr.2) :=
    List.mem_map_of_mem _ h
  rw [taggedOf, tagStep_snd] at h2
  simp only [List.map_nil, List.nil_append] at h2
  exact List.mem_filter.mpr ⟨(List.mem_filter.mp h2).1, he⟩

theorem scan_tag_fold (lab : Str) (lines : List Str) :
    ∀ (cur : Option Str) (mp : List (Str × Str)) (tl : List (Option Str × Str)),
      (∀ fn v, jsGet mp fn = some v →
        (some lab, v) ∈ tl ∧ isEntryLine v = true ∧ splitKey v = fn) →
      ∀ fn v,
        jsGet ((lines.foldl (scanMapStep lab) ((cur == some lab), mp)).2) fn = some v →
          (some lab, v) ∈ (lines.foldl tagStep (cur, tl)).2 ∧ isEntryLine v = true ∧
            splitKey v = fn := by
  induction lines with
  | nil =>
    intro cur mp tl hinv fn v hget
    exact hinv fn v hget
  | cons l ls ih =>
    intro cur mp tl hinv fn v hget
    by_cases hh : isHeaderLine l = true
    · rw [List.foldl_cons,
        show scanMapStep lab ((cur == some lab), mp) l = ((extractLabel l == lab), mp) from by
          simp [scanMapStep, hh]] at hget
      rw [List.foldl_cons, show tagStep (cur, tl) l = (some (extractLabel l), tl) from by
        simp [tagStep, hh]]
      rw [show ((extractLabel l == lab) : Bool) = ((some (extractLabel l) : Option Str) == some lab)
        from rfl] at hget
      exact ih (some (extractLabel l)) mp tl hinv fn v hget
    · rw [List.foldl_cons, show tagStep (cur, tl) l = (cur, tl ++ [(cur, l)]) from by
        simp [tagStep, hh]]
      have htlmono : ∀ fn v, jsGet mp fn = some v →
          (some lab, v) ∈ tl ++ [(cur, l)] ∧ isEntryLine v = true ∧ splitKey v = fn := by
        intro fn v hg
        obtain ⟨hm, he, hk⟩ := hinv fn v hg
        exact ⟨List.mem_append_left _ hm, he, hk⟩
      by_cases hcond : ((cur == some lab) && jsTrimTruthy l && containsSub l sepStr) = true
      · have hcond1 := hcond
        rw [Bool.and_eq_true, Bool.and_eq_true] at hcond1
        have hb : (cur == some lab) = true := hcond1.1.1
        have hcur : cur = some lab := eq_of_beq hb
        by_cases htr : optTruthy (jsGet mp (splitKey l)) = true
        · rw [List.foldl_cons,
            show scanMapStep lab ((cur == some lab), mp) l = ((cur == some lab), mp) from by
              simp only [scanMapStep, if_neg (by simp [hh] : ¬(isHeaderLine l = true))]
              rw [if_pos hcond, if_pos htr]] at hget
          exact ih cur mp (tl ++ [(cur, l)]) htlmono fn v hget
        · have hnone : jsGet mp (splitKey l) = none := by
            cases hg : jsGet mp (splitKey l) with
            | none => rfl
            | some v0 =>
              obtain ⟨_, he0, _⟩ := hinv _ _ hg
              have : optTruthy (jsGet mp (splitKey l)) = true := by
                rw [hg]
                simp [optTruthy, isEntryLine_nonempty he0]
              exact absurd this htr
          have hobj : objSet mp (splitKey l) l = mp ++ [(splitKey l, l)] :=
            objSet_of_not_mem _ _ _ hnone
          rw [List.foldl_cons,
            show scanMapStep lab ((cur == some lab), mp) l =
                ((cur == some lab), mp ++ [(splitKey l, l)]) from by
              simp only [scanMapStep, if_neg (by simp [hh] : ¬(isHeaderLine l = true))]
              rw [if_pos hcond, if_neg (by simp [htr]), hobj]] at hget
          have hentry : isEntryLine l = true := by
            have hcond2 := hcond
            rw [Bool.and_eq_true, Bool.and_eq_true] at hcond2
            simp [isEntryLine, hcond2.1.2, hcond2.2, hh]
          have hinv' : ∀ fn v, jsGet (mp ++ [(splitKey l, l)]) fn = some v →
              (some lab, v) ∈ tl ++ [(cur, l)] ∧ isEntryLine v = true ∧ splitKey v = fn := by
            intro fn v hg
            rw [jsGet_append_single] at hg
            cases hg0 : jsGet mp fn with
            | some w =>
              simp only [hg0, Option.some.injEq] at hg
              exact htlmono fn v (hg ▸ hg0)
            | none =>
              simp only [hg0] at hg
              by_cases hfk : fn = splitKey l
              · rw [if_pos hfk] at hg
                simp only [Option.some.injEq] at hg
                subst hg
                refine ⟨?_, hentry, hfk.symm⟩
                rw [hcur]
                exact List.mem_append_right _ (by simp)
              · rw [if_neg hfk] at hg
                cases hg
          exact ih cur (mp ++ [(splitKey l, l)]) (tl ++ [(cur, l)]) hinv' fn v hget
      · rw [List.foldl_cons,
          show scanMapStep lab ((cur == some lab), mp) l = ((cur == some lab), mp) from by
            simp only [scanMapStep, if_neg (by simp [hh] : ¬(isHeaderLine l = true))]
            rw [if_neg hcond]] at hget
        exact ih cur mp (tl ++ [(cur, l)]) htlmono fn v hget

theorem subjectMapFor_char (S : Str) (lab : Str) :
    ∀ fn v, jsGet (subjectMapFor S lab) fn = some v →
      (some lab, v) ∈ taggedOf (splitNl S) ∧ isEntryLine v = true ∧ splitKey v = fn := by
  intro fn v hget
  have h0 : ∀ fn v, jsGet ([] : List (Str × Str)) fn = some v →
      (some lab, v) ∈ ([] : List (Option Str × Str)) ∧ isEntryLine v = true ∧
        splitKey v = fn := by
    intro fn v hg
    cases hg
  exact scan_tag_fold lab (splitNl S) none [] [] h0 fn v hget

theorem newFold_char (L : List Str) :
    ∀ (mp : List (Str × Str)) (ex : List Str),
      (∀ fn v, jsGet mp fn = some v → fn ∈ ex ∧ splitKey v = fn) →
      (∀ fn v, jsGet (L.foldl newLinesFold (mp, ex)).1 fn = some v →
          (jsGet mp fn = some v ∨ (v ∈ L ∧ splitKey v = fn ∧ fn ∉ ex))) ∧
      (∀ fn v, jsGet (L.foldl newLinesFold (mp, ex)).1 fn = some v →
          fn ∈ (L.foldl newLinesFold (mp, ex)).2 ∧ splitKey v = fn) ∧
      (∀ k ∈ ex, k ∈ (L.foldl newLinesFold (mp, ex)).2) := by
  induction L with
  | nil =>
    intro mp ex hinv
    refine ⟨fun fn v h => Or.inl h, hinv, fun k hk => hk⟩
  | cons l L ih =>
    intro mp ex hinv
    by_cases hc : ex.contains (splitKey l) = true
    · rw [List.foldl_cons, show newLinesFold (mp, ex) l = (mp, ex) from by
        simp only [newLinesFold]
        rw [if_pos hc]]
      obtain ⟨c1, c2, c3⟩ := ih mp ex hinv
      refine ⟨?_, c2, c3⟩
      intro fn v h
      rcases c1 fn v h with h1 | ⟨hv, hk, hex⟩
      · exact Or.inl h1
      · exact Or.inr ⟨List.mem_cons_of_mem l hv, hk, hex⟩
    · have hknotex : splitKey l ∉ ex := fun hm => hc (List.elem_iff.mpr hm)
      have hget_none : jsGet mp (splitKey l) = none := by
        cases hg : jsGet mp (splitKey l) with
        | none => rfl
        | some v0 => exact absurd (hinv _ _ hg).1 hknotex
      have hobj : objSet mp (splitKey l) l = mp ++ [(splitKey l, l)] :=
        objSet_of_not_mem _ _ _ hget_none
      rw [List.foldl_cons, show newLinesFold (mp, ex) l =
          (mp ++ [(splitKey l, l)], setAdd ex (splitKey l)) from by
        simp only [newLinesFold]
        rw [if_neg hc, hobj]]
      have hinv' : ∀ fn v, jsGet (mp ++ [(splitKey l, l)]) fn = some v →
          fn ∈ setAdd ex (splitKey l) ∧ splitKey v = fn := by
        intro fn v hg
        rw [jsGet_append_single] at hg
        cases hg0 : jsGet mp fn with
        | some w =>
          simp only [hg0, Option.some.injEq] at hg
          obtain ⟨h1, h2⟩ := hinv fn v (hg ▸ hg0)
          exact ⟨mem_setAdd.mpr (Or.inl h1), h2⟩
        | none =>
          simp only [hg0] at hg
          by_cases hfk : fn = splitKey l
          · rw [if_pos hfk] at hg
            simp only [Option.some.injEq] at hg
            subst hg
            exact ⟨mem_setAdd.mpr (Or.inr hfk), hfk.symm⟩
          · rw [if_neg hfk] at hg
            cases hg
      obtain ⟨c1, c2, c3⟩ := ih _ _ hinv'
      refine ⟨?_, c2, ?_⟩
      · intro fn v h
        rcases c1 fn v h with h1 | ⟨hv, hk, hex⟩
        · rw [jsGet_append_single] at h1
          cases hg0 : jsGet mp fn with
          | some w =>
            simp only [hg0] at h1
            exact Or.inl h1
          | none =>
            simp only [hg0] at h1
            by_cases hfk : fn = splitKey l
            · rw [if_pos hfk] at h1
              simp only [Option.some.injEq] at h1
              subst h1
              exact Or.inr ⟨List.mem_cons_self l L, hfk.symm, hfk ▸ hknotex⟩
            · rw [if_neg hfk] at h1
              cases h1
        · refine Or.inr ⟨List.mem_cons_of_mem l hv, hk, fun hm => hex (mem_setAdd.mpr (Or.inl hm))⟩
      · intro k hk
        exact c3 k (mem_setAdd.mpr (Or.inl hk))

theorem keys_filterMap_sublist (mp : List (Str × Str)) (p : Str → Bool) (fns : List Str)
    (hmp : ∀ fn v, jsGet mp fn = some v → splitKey v = fn) :
    (((fns.filterMap (fun fn => jsGet mp fn)).filter p).map splitKey).Sublist fns := by
  induction fns with
  | nil => simp
  | cons fn fns ih =>
    rw [List.filterMap_cons]
    cases hg : jsGet mp fn with
    | none => exact ih.cons fn
    | some v =>
      by_cases hp : p v = true
      · rw [List.filter_cons_of_pos hp, List.map_cons, hmp fn v hg]
        exact ih.cons₂ fn
      · rw [List.filter_cons_of_neg (by simpa using hp)]
        exact ih.cons fn

theorem mem_filterMap_values {mp : List (Str × Str)} {fns : List Str} {p : Str → Bool}
    {v : Str} (h : v ∈ (fns.filterMap (fun fn => jsGet mp fn)).filter p) :
    ∃ fn, fn ∈ fns ∧ jsGet mp fn = some v := by
  have hv := List.mem_of_mem_filter h
  rcases List.mem_filterMap.mp hv with ⟨fn, hfn, hg⟩
  exact ⟨fn, hfn, hg⟩

theorem countP_add_le_of_disjoint {α : Type} (p q r : α → Bool) (l : List α)
    (hp : ∀ x ∈ l, p x = true → r x = true) (hq : ∀ x ∈ l, q x = true → r x = true)
    (hdisj : ∀ x ∈ l, ¬(p x = true ∧ q x = true)) :
    List.countP p l + List.countP q l ≤ List.countP r l := by
  induction l with
  | nil => simp
  | cons a l ih =>
    rw [List.countP_cons, List.countP_cons, List.countP_cons]
    have hih := ih (fun x hx => hp x (List.mem_cons_of_mem a hx))
      (fun x hx => hq x (List.mem_cons_of_mem a hx))
      (fun x hx => hdisj x (List.mem_cons_of_mem a hx))
    have hpa := hp a (List.mem_cons_self a l)
    have hqa := hq a (List.mem_cons_self a l)
    have hda := hdisj a (List.mem_cons_self a l)
    by_cases h1 : p a = true
    · have hr := hpa h1
      by_cases h2 : q a = true
      · exact absurd ⟨h1, h2⟩ hda
      · simp only [h1, hr, if_true]
        rw [if_neg h2]
        omega
    · by_cases h2 : q a = true
      · have hr := hqa h2
        simp only [h2, hr, if_true]
        rw [if_neg h1]
        omega
      · rw [if_neg h1, if_neg h2]
        cases h3 : r a
        · rw [if_neg (by simp)]
          omega
        · rw [if_pos rfl]
          omega

theorem count_entryKeys_eq (S : Str) (k : Str) :
    List.count k (entryKeys S) =
      List.countP (fun pr => isEntryLine pr.2 && (splitKey pr.2 == k))
        (taggedOf (splitNl S)) := by
  have h1 : List.countP (fun pr => isEntryLine pr.2 && (splitKey pr.2 == k))
      (taggedOf (splitNl S)) =
      List.countP (fun l => isEntryLine l && (splitKey l == k))
        ((taggedOf (splitNl S)).map (fun pr => pr.2)) := by
    rw [List.countP_map]
    rfl
  rw [h1, taggedOf, tagStep_snd]
  simp only [List.map_nil, List.nil_append]
  rw [List.countP_filter]
  unfold entryKeys entryLines
  rw [List.count_eq_countP, List.countP_map, List.countP_filter]
  apply List.countP_congr
  intro l _
  cases hH : isHeaderLine l with
  | true =>
    simp [Function.comp, isEntryLine_of_header hH]
  | false =>
    cases hE : isEntryLine l with
    | true => simp [Function.comp, hE, hH, Bool.and_comm]
    | false => simp [Function.comp, hE, hH]

theorem jsGet_none_iff {α : Type} {m : List (Str × α)} {k : Str} :
    jsGet m k = none ↔ k ∉ m.map (fun p => p.1) := by
  unfold jsGet
  constructor
  · intro h hm
    rcases List.mem_map.mp hm with ⟨p, hp, he⟩
    cases hf : m.find? (fun p => p.1 == k) with
    | some q =>
      rw [hf] at h
      simp at h
    | none =>
      have h2 := List.find?_eq_none.mp hf p hp
      exact h2 (by simp [he])
  · intro h
    cases hf : m.find? (fun p => p.1 == k) with
    | none => rfl
    | some q =>
      have hq := List.mem_of_find?_eq_some hf
      have hk := List.find?_some hf
      exact absurd (List.mem_map.mpr ⟨q, hq, eq_of_beq hk⟩) h

theorem keys_mapAdd (m : List (Str × List Str)) (k v : Str) :
    (mapAdd m k v).map (fun p => p.1) = m.map (fun p => p.1) := by
  unfold mapAdd
  rw [List.map_map]
  apply List.map_congr_left
  intro p _
  by_cases h : p.1 = k
  · simp [Function.comp, h]
  · simp [Function.comp, h]

theorem keys_mapPush (m : List (Str × List Str)) (k v : Str) :
    (mapPush m k v).map (fun p => p.1) = m.map (fun p => p.1) := by
  unfold mapPush
  rw [List.map_map]
  apply List.map_congr_left
  intro p _
  by_cases h : p.1 = k
  · simp [Function.comp, h]
  · simp [Function.comp, h]

theorem values_mapAdd {m : List (Str × List Str)} {k v : Str}
    (h : ∀ p ∈ m, p.2.Nodup) : ∀ p ∈ mapAdd m k v, p.2.Nodup := by
  intro p hp
  rcases List.mem_map.mp hp with ⟨q, hq, he⟩
  by_cases hqk : (q.1 == k) = true
  · rw [if_pos hqk] at he
    rw [← he]
    exact setAdd_nodup (h q hq)
  · rw [if_neg hqk] at he
    rw [← he]
    exact h q hq

theorem keys_mapAdd_pres (P : Str → Prop) {m : List (Str × List Str)} {k v : Str}
    (h : ∀ p ∈ m, P p.1) : ∀ p ∈ mapAdd m k v, P p.1 := by
  intro p hp
  rcases List.mem_map.mp hp with ⟨q, hq, he⟩
  by_cases hqk : (q.1 == k) = true
  · rw [if_pos hqk] at he
    rw [← he]
    exact h q hq
  · rw [if_neg hqk] at he
    rw [← he]
    exact h q hq

theorem values_mapPush (P : Str → Prop) {m : List (Str × List Str)} {k x : Str}
    (h : ∀ p ∈ m, ∀ v ∈ p.2, P v) (hx : P x) :
    ∀ p ∈ mapPush m k x, ∀ v ∈ p.2, P v := by
  intro p hp v hv
  rcases List.mem_map.mp hp with ⟨q, hq, he⟩
  by_cases hqk : (q.1 == k) = true
  · rw [if_pos hqk] at he
    rw [← he] at hv
    have hv2 : v ∈ q.2 ++ [x] := hv
    rcases List.mem_append.mp hv2 with h1 | h1
    · exact h q hq v h1
    · simp only [List.mem_singleton] at h1
      rw [h1]
      exact hx
  · rw [if_neg hqk] at he
    rw [← he] at hv
    exact h q hq v hv

theorem accumStep_new_skip {acc : LedgerAcc} {c : Candidate}
    (hnew : (jsGet acc.byLabel c.label).isNone = true)
    (hhas : ((jsGet (acc.byLabel ++ [(c.label, [])]) c.label).getD []).contains
      c.fromName = true) :
    accumStep acc c =
      ⟨acc.byLabel ++ [(c.label, [])], acc.linesByLabel ++ [(c.label, [])]⟩ := by
  simp [accumStep, hnew, hhas]
  intro hmem
  exact absurd (List.elem_iff.mp hhas) hmem

theorem accumStep_new_push {acc : LedgerAcc} {c : Candidate}
    (hnew : (jsGet acc.byLabel c.label).isNone = true)
    (hhas : ¬((jsGet (acc.byLabel ++ [(c.label, [])]) c.label).getD []).contains
      c.fromName = true) :
    accumStep acc c =
      ⟨mapAdd (acc.byLabel ++ [(c.label, [])]) c.label c.fromName,
        mapPush (acc.linesByLabel ++ [(c.label, [])]) c.label (subjectLineOf c)⟩ := by
  simp [accumStep, hnew, hhas]
  intro hmem
  exact absurd (List.elem_iff.mpr hmem) hhas

theorem accumStep_old_skip {acc : LedgerAcc} {c : Candidate}
    (hnew : ¬(jsGet acc.byLabel c.label).isNone = true)
    (hhas : ((jsGet acc.byLabel c.label).getD []).contains c.fromName = true) :
    accumStep acc c = acc := by
  simp [accumStep, hnew, hhas]
  intro hmem
  exact absurd (List.elem_iff.mp hhas) hmem

theorem accumStep_old_push {acc : LedgerAcc} {c : Candidate}
    (hnew : ¬(jsGet acc.byLabel c.label).isNone = true)
    (hhas : ¬((jsGet acc.byLabel c.label).getD []).contains c.fromName = true) :
    accumStep acc c =
      ⟨mapAdd acc.byLabel c.label c.fromName,
        mapPush acc.linesByLabel c.label (subjectLineOf c)⟩ := by
  simp [accumStep, hnew, hhas]
  intro hmem
  exact absurd (List.elem_iff.mpr hmem) hhas

theorem loadStep_header_old {st : Option Str × LedgerAcc} {l : Str}
    (hh : isHeaderLine l = true)
    (hex : (jsGet st.2.byLabel (extractLabel l)).isSome = true) :
    loadStep st l = (some (extractLabel l), st.2) := by
  simp [loadStep, hh, hex]

theorem loadStep_header_new {st : Option Str × LedgerAcc} {l : Str}
    (hh : isHeaderLine l = true)
    (hex : ¬(jsGet st.2.byLabel (extractLabel l)).isSome = true) :
    loadStep st l = (some (extractLabel l),
      ⟨st.2.byLabel ++ [(extractLabel l, [])],
        st.2.linesByLabel ++ [(extractLabel l, [])]⟩) := by
  simp [loadStep, hh, hex]

theorem loadStep_entry {cur : Option Str} {a : LedgerAcc} {lab : Str} {l : Str}
    (hh : ¬isHeaderLine l = true) (hcur : cur = some lab)
    (hcond : (jsTrimTruthy l && containsSub l sepStr) = true) :
    loadStep (cur, a) l =
      (some lab, ⟨mapAdd a.byLabel lab (splitKey l), a.linesByLabel⟩) := by
  subst hcur
  simp [loadStep, hh, hcond]

theorem loadStep_entry_skip {cur : Option Str} {a : LedgerAcc} {lab : Str} {l : Str}
    (hh : ¬isHeaderLine l = true) (hcur : cur = some lab)
    (hcond : ¬(jsTrimTruthy l && containsSub l sepStr) = true) :
    loadStep (cur, a) l = (cur, a) := by
  subst hcur
  simp [loadStep, hh, hcond]

theorem loadStep_none {a : LedgerAcc} {l : Str} (hh : ¬isHeaderLine l = true) :
    loadStep (none, a) l = (none, a) := by
  simp [loadStep, hh]

theorem loadStep_inv (lines : List Str) :
    ∀ st : Option Str × LedgerAcc,
      ((st.2.byLabel.map (fun p => p.1)).Nodup ∧ (∀ p ∈ st.2.byLabel, p.2.Nodup) ∧
        (∀ p ∈ st.2.linesByLabel, p.2 = [])) →
      (((lines.foldl loadStep st).2.byLabel.map (fun p => p.1)).Nodup ∧
        (∀ p ∈ (lines.foldl loadStep st).2.byLabel, p.2.Nodup) ∧
        (∀ p ∈ (lines.foldl loadStep st).2.linesByLabel, p.2 = [])) := by
  induction lines with
  | nil => intro st h; exact h
  | cons l ls ih =>
    intro st h
    obtain ⟨hknd, hvnd, hempty⟩ := h
    rw [List.foldl_cons]
    apply ih
    by_cases hh : isHeaderLine l = true
    · by_cases hex : (jsGet st.2.byLabel (extractLabel l)).isSome = true
      · rw [loadStep_header_old hh hex]
        exact ⟨hknd, hvnd, hempty⟩
      · have hkeys : ((st.2.byLabel ++ [(extractLabel l, [])]).map
            (fun p : Str × List Str => p.1)).Nodup := by
          rw [List.map_append, List.nodup_append]
          refine ⟨hknd, by simp, ?_⟩
          intro a ha hb
          simp only [List.map_cons, List.map_nil, List.mem_singleton] at hb
          subst hb
          have hnone : jsGet st.2.byLabel (extractLabel l) = none := by
            cases hg : jsGet st.2.byLabel (extractLabel l) with
            | none => rfl
            | some v => rw [hg] at hex; simp at hex
          exact absurd ha (jsGet_none_iff.mp hnone)
        have hvals : ∀ p ∈ st.2.byLabel ++ [(extractLabel l, [])], p.2.Nodup := by
          intro p hp
          rcases List.mem_append.mp hp with h1 | h1
          · exact hvnd p h1
          · simp only [List.mem_singleton] at h1
            rw [h1]
            exact List.nodup_nil
        have hemp : ∀ p ∈ st.2.linesByLabel ++ [(extractLabel l, [])], p.2 = [] := by
          intro p hp
          rcases List.mem_append.mp hp with h1 | h1
          · exact hempty p h1
          · simp only [List.mem_singleton] at h1
            rw [h1]
        rw [loadStep_header_new hh hex]
        exact ⟨hkeys, hvals, hemp⟩
    · obtain ⟨cur, a2⟩ := st
      cases cur with
      | some lab =>
        by_cases hcond : (jsTrimTruthy l && containsSub l sepStr) = true
        · have hkeys : ((mapAdd a2.byLabel lab (splitKey l)).map (fun p => p.1)).Nodup := by
            rw [keys_mapAdd]
            exact hknd
          rw [loadStep_entry hh rfl hcond]
          exact ⟨hkeys, values_mapAdd hvnd, hempty⟩
        · rw [loadStep_entry_skip hh rfl hcond]
          exact ⟨hknd, hvnd, hempty⟩
      | none =>
        rw [loadStep_none hh]
        exact ⟨hknd, hvnd, hempty⟩

theorem accumStep_inv (cands : List Candidate) :
    ∀ acc : LedgerAcc,
      ((acc.byLabel.map (fun p => p.1)).Nodup ∧ (∀ p ∈ acc.byLabel, p.2.Nodup)) →
      (((cands.foldl accumStep acc).byLabel.map (fun p => p.1)).Nodup ∧
        (∀ p ∈ (cands.foldl accumStep acc).byLabel, p.2.Nodup)) := by
  induction cands with
  | nil => intro acc h; exact h
  | cons c cs ih =>
    intro acc h
    obtain ⟨hknd, hvnd⟩ := h
    rw [List.foldl_cons]
    apply ih
    by_cases hnew : (jsGet acc.byLabel c.label).isNone = true
    · have hkeys : ((acc.byLabel ++ [(c.label, [])]).map
          (fun p : Str × List Str => p.1)).Nodup := by
        rw [List.map_append, List.nodup_append]
        refine ⟨hknd, by simp, ?_⟩
        intro a ha hb
        simp only [List.map_cons, List.map_nil, List.mem_singleton] at hb
        subst hb
        exact absurd ha (jsGet_none_iff.mp (Option.isNone_iff_eq_none.mp hnew))
      have hvals : ∀ p ∈ acc.byLabel ++ [(c.label, [])], p.2.Nodup := by
        intro p hp
        rcases List.mem_append.mp hp with h1 | h1
        · exact hvnd p h1
        · simp only [List.mem_singleton] at h1
          rw [h1]
          exact List.nodup_nil
      by_cases hhas : ((jsGet (acc.byLabel ++ [(c.label, [])]) c.label).getD []).contains
          c.fromName = true
      · rw [accumStep_new_skip hnew hhas]
        exact ⟨hkeys, hvals⟩
      · have hkeys2 : ((mapAdd (acc.byLabel ++ [(c.label, [])]) c.label
            c.fromName).map (fun p => p.1)).Nodup := by
          rw [keys_mapAdd]
          exact hkeys
        rw [accumStep_new_push hnew hhas]
        exact ⟨hkeys2, values_mapAdd hvals⟩
    · by_cases hhas : ((jsGet acc.byLabel c.label).getD []).contains c.fromName = true
      · rw [accumStep_old_skip hnew hhas]
        exact ⟨hknd, hvnd⟩
      · have hkeys2 : ((mapAdd acc.byLabel c.label c.fromName).map (fun p => p.1)).Nodup := by
          rw [keys_mapAdd]
          exact hknd
        rw [accumStep_old_push hnew hhas]
        exact ⟨hkeys2, values_mapAdd hvnd⟩

theorem accum_lines_src (P : Str → Prop) (cands : List Candidate) :
    (∀ c ∈ cands, P (subjectLineOf c)) →
    ∀ acc : LedgerAcc, (∀ p ∈ acc.linesByLabel, ∀ v ∈ p.2, P v) →
      ∀ p ∈ (cands.foldl accumStep acc).linesByLabel, ∀ v ∈ p.2, P v := by
  induction cands with
  | nil => intro _ acc h; exact h
  | cons c cs ih =>
    intro hc acc h
    rw [List.foldl_cons]
    apply ih (fun c' hc' => hc c' (List.mem_cons_of_mem c hc'))
    have hext : ∀ p ∈ acc.linesByLabel ++ [(c.label, [])], ∀ v ∈ p.2, P v := by
      intro p hp v hv
      rcases List.mem_append.mp hp with h1 | h1
      · exact h p h1 v hv
      · simp only [List.mem_singleton] at h1
        rw [h1] at hv
        cases hv
    by_cases hnew : (jsGet acc.byLabel c.label).isNone = true
    · by_cases hhas : ((jsGet (acc.byLabel ++ [(c.label, [])]) c.label).getD []).contains
          c.fromName = true
      · rw [accumStep_new_skip hnew hhas]
        exact hext
      · rw [accumStep_new_push hnew hhas]
        exact values_mapPush P hext (hc c (List.mem_cons_self c cs))
    · by_cases hhas : ((jsGet acc.byLabel c.label).getD []).contains c.fromName = true
      · rw [accumStep_old_skip hnew hhas]
        exact h
      · rw [accumStep_old_push hnew hhas]
        exact values_mapPush P h (hc c (List.mem_cons_self c cs))

theorem keys_accum (P : Str → Prop) (cands : List Candidate) :
    (∀ c ∈ cands, P c.label) →
    ∀ acc : LedgerAcc, (∀ p ∈ acc.byLabel, P p.1) →
      ∀ p ∈ (cands.foldl accumStep acc).byLabel, P p.1 := by
  induction cands with
  | nil => intro _ acc h; exact h
  | cons c cs ih =>
    intro hc acc h
    rw [List.foldl_cons]
    apply ih (fun c' hc' => hc c' (List.mem_cons_of_mem c hc'))
    have hext : ∀ p ∈ acc.byLabel ++ [(c.label, [])], P p.1 := by
      intro p hp
      rcases List.mem_append.mp hp with h1 | h1
      · exact h p h1
      · simp only [List.mem_singleton] at h1
        rw [h1]
        exact hc c (List.mem_cons_self c cs)
    by_cases hnew : (jsGet acc.byLabel c.label).isNone = true
    · by_cases hhas : ((jsGet (acc.byLabel ++ [(c.label, [])]) c.label).getD []).contains
          c.fromName = true
      · rw [accumStep_new_skip hnew hhas]
        exact hext
      · rw [accumStep_new_push hnew hhas]
        exact keys_mapAdd_pres P hext
    · by_cases hhas : ((jsGet acc.byLabel c.label).getD []).contains c.fromName = true
      · rw [accumStep_old_skip hnew hhas]
        exact h
      · rw [accumStep_old_push hnew hhas]
        exact keys_mapAdd_pres P h

theorem keys_load (P : Str → Prop) (lines : List Str) :
    (∀ l ∈ lines, P (extractLabel l)) →
    ∀ st : Option Str × LedgerAcc, (∀ p ∈ st.2.byLabel, P p.1) →
      ∀ p ∈ (lines.foldl loadStep st).2.byLabel, P p.1 := by
  induction lines with
  | nil => intro _ st h; exact h
  | cons l ls ih =>
    intro hl st h
    rw [List.foldl_cons]
    apply ih (fun l' hl' => hl l' (List.mem_cons_of_mem l hl'))
    by_cases hh : isHeaderLine l = true
    · by_cases hex : (jsGet st.2.byLabel (extractLabel l)).isSome = true
      · rw [loadStep_header_old hh hex]
        exact h
      · have hres : ∀ p ∈ st.2.byLabel ++ [(extractLabel l, [])], P p.1 := by
          intro p hp
          rcases List.mem_append.mp hp with h1 | h1
          · exact h p h1
          · simp only [List.mem_singleton] at h1
            rw [h1]
            exact hl l (List.mem_cons_self l ls)
        rw [loadStep_header_new hh hex]
        exact hres
    · obtain ⟨cur, a2⟩ := st
      cases cur with
      | some lab =>
        by_cases hcond : (jsTrimTruthy l && containsSub l sepStr) = true
        · rw [loadStep_entry hh rfl hcond]
          exact keys_mapAdd_pres P h
        · rw [loadStep_entry_skip hh rfl hcond]
          exact h
      | none =>
        rw [loadStep_none hh]
        exact h

theorem splitNl_lines_nlFree (s : Str) : ∀ l ∈ splitNl s, nlFree l = true := by
  induction s with
  | nil =>
    intro l hl
    rw [show splitNl [] = [[]] from rfl] at hl
    simp only [List.mem_singleton] at hl
    rw [hl]
    decide
  | cons c cs ih =>
    intro l hl
    by_cases hc : c = '\n'
    · rw [show splitNl (c :: cs) = [] :: splitNl cs from by
        rw [splitNl, if_pos hc]] at hl
      rcases List.mem_cons.mp hl with h1 | h1
      · rw [h1]
        decide
      · exact ih l h1
    · cases hcs : splitNl cs with
      | nil =>
        rw [show splitNl (c :: cs) = [[c]] from by
          rw [splitNl, if_neg hc, hcs]] at hl
        simp only [List.mem_singleton] at hl
        rw [hl, nlFree_iff]
        intro x hx
        simp only [List.mem_singleton] at hx
        rw [hx]
        exact hc
      | cons l0 ls0 =>
        rw [show splitNl (c :: cs) = (c :: l0) :: ls0 from by
          rw [splitNl, if_neg hc, hcs]] at hl
        rcases List.mem_cons.mp hl with h1 | h1
        · rw [h1, nlFree_iff]
          intro x hx
          rcases List.mem_cons.mp hx with h2 | h2
          · rw [h2]
            exact hc
          · have hl0 := ih l0 (hcs ▸ List.mem_cons_self l0 ls0)
            exact nlFree_iff.mp hl0 x h2
        · exact ih l (hcs ▸ List.mem_cons_of_mem l0 h1)

theorem extractLabel_subset {l : Str} : ∀ c ∈ extractLabel l, c ∈ l := by
  intro c hc
  unfold extractLabel trimRightWs dropRightN at hc
  have h1 := List.mem_reverse.mp hc
  have h2 := (List.dropWhile_sublist _).subset h1
  have h3 := List.mem_reverse.mp h2
  have h4 := (List.take_sublist _ _).subset h3
  have h5 := (List.dropWhile_sublist _).subset h4
  exact (List.drop_sublist _ _).subset h5

theorem nlFree_extractLabel {l : Str} (h : nlFree l = true) :
    nlFree (extractLabel l) = true := by
  rw [nlFree_iff]
  intro c hc
  exact nlFree_iff.mp h c (extractLabel_subset c hc)

theorem jsGet_mem {α : Type} {m : List (Str × α)} {k : Str} {v : α}
    (h : jsGet m k = some v) : (k, v) ∈ m := by
  unfold jsGet at h
  cases hf : m.find? (fun p => p.1 == k) with
  | none => rw [hf] at h; cases h
  | some p =>
    rw [hf] at h
    simp at h
    have hp := List.mem_of_find?_eq_some hf
    have hk := List.find?_some hf
    have hpk : p.1 = k := eq_of_beq hk
    have hpe : p = (k, v) := by
      cases p with
      | mk a b =>
        rw [show ((a, b) : Str × α).1 = a from rfl] at hpk
        rw [show ((a, b) : Str × α).2 = b from rfl] at h
        rw [hpk, h]
    rw [← hpe]
    exact hp

theorem mem_outEntryKeys {k : Str} {secs : List (Str × List Str)} :
    k ∈ outEntryKeys secs ↔ ∃ sec ∈ secs, k ∈ secEntryKeys sec := by
  unfold outEntryKeys
  rw [List.mem_join]
  constructor
  · rintro ⟨l, hl, hkl⟩
    rcases List.mem_map.mp hl with ⟨sec, hsec, rfl⟩
    exact ⟨sec, hsec, hkl⟩
  · rintro ⟨sec, hsec, hk⟩
    exact ⟨secEntryKeys sec, List.mem_map_of_mem _ hsec, hk⟩

theorem outEntryKeys_append (secs : List (Str × List Str)) (sec : Str × List Str) :
    outEntryKeys (secs ++ [sec]) = outEntryKeys secs ++ secEntryKeys sec := by
  unfold outEntryKeys
  show (List.map secEntryKeys (secs ++ [sec])).flatten =
    (List.map secEntryKeys secs).flatten ++ secEntryKeys sec
  rw [List.map_append, List.flatten_append]
  simp

theorem entryKeys_sub_ex0_S {S E : Str} {k : Str} (h : k ∈ entryKeys S) :
    k ∈ collectFrom (collectFrom [] S) E :=
  mem_collectFrom.mpr (Or.inl (mem_collectFrom.mpr (Or.inr h)))

theorem entryKeys_sub_ex0_E {S E : Str} {k : Str} (h : k ∈ entryKeys E) :
    k ∈ collectFrom (collectFrom [] S) E :=
  mem_collectFrom.mpr (Or.inr h)

theorem not_entryKeys_of_not_ex0 {S E : Str} {k : Str}
    (h : k ∉ collectFrom (collectFrom [] S) E) :
    k ∉ entryKeys S ∧ k ∉ entryKeys E :=
  ⟨fun hm => h (entryKeys_sub_ex0_S hm), fun hm => h (entryKeys_sub_ex0_E hm)⟩

theorem countP_two_of_mem {α : Type} [DecidableEq α] {l : List α} {a b : α}
    (p : α → Bool) (ha : a ∈ l) (hb : b ∈ l) (hne : a ≠ b)
    (hpa : p a = true) (hpb : p b = true) : 2 ≤ l.countP p := by
  have hle := countP_add_le_of_disjoint (fun x => decide (x = a))
    (fun x => decide (x = b)) p l
    (by
      intro x _ hx
      rw [decide_eq_true_iff] at hx
      rw [hx]
      exact hpa)
    (by
      intro x _ hx
      rw [decide_eq_true_iff] at hx
      rw [hx]
      exact hpb)
    (by
      intro x _ hx
      obtain ⟨h1, h2⟩ := hx
      rw [decide_eq_true_iff] at h1 h2
      exact hne (h1 ▸ h2))
  have hpa2 : 0 < l.countP (fun x => decide (x = a)) :=
    List.countP_pos_iff.mpr ⟨a, ha, by simp⟩
  have hpb2 : 0 < l.countP (fun x => decide (x = b)) :=
    List.countP_pos_iff.mpr ⟨b, hb, by simp⟩
  omega

theorem count_le_one_of_nodup {l : List Str} (h : l.Nodup) (k : Str) :
    List.count k l ≤ 1 := by
  induction l with
  | nil => simp
  | cons a l ih =>
    have hnd := List.nodup_cons.mp h
    rw [List.count_cons]
    by_cases hak : k = a
    · subst hak
      have hz : List.count k l = 0 := List.count_eq_zero.mpr hnd.1
      simp [hz]
    · have hne : (a == k) = false := beq_eq_false_iff_ne.mpr (Ne.symm hak)
      rw [hne]
      simpa using ih hnd.2

theorem tagged_key_unique {S : Str} (hnd : (entryKeys S).Nodup)
    {pr1 pr2 : Option Str × Str}
    (h1 : pr1 ∈ taggedOf (splitNl S)) (h2 : pr2 ∈ taggedOf (splitNl S))
    (he1 : isEntryLine pr1.2 = true) (he2 : isEntryLine pr2.2 = true)
    (hk : splitKey pr1.2 = splitKey pr2.2) (hne : pr1 ≠ pr2) : False := by
  have hcount : 2 ≤ List.countP
      (fun pr => isEntryLine pr.2 && (splitKey pr.2 == splitKey pr1.2))
      (taggedOf (splitNl S)) :=
    countP_two_of_mem _ h1 h2 hne (by simp [he1]) (by simp [he2, hk])
  have hle := count_le_one_of_nodup hnd (splitKey pr1.2)
  rw [count_entryKeys_eq] at hle
  omega

theorem processLabel_empty {S : Str} {acc : LedgerAcc}
    {st : List Str × List (Str × List Str)} {lab : Str}
    (h : (labFromNames acc lab).isEmpty = true) :
    processLabel S acc st lab = st := by
  unfold labFromNames at h
  simp only [processLabel]
  rw [if_pos h]

theorem processLabel_pos {S : Str} {acc : LedgerAcc}
    {st : List Str × List (Str × List Str)} {lab : Str}
    (h : ¬(labFromNames acc lab).isEmpty = true) :
    processLabel S acc st lab =
      ((labFolded S acc st.1 lab).2,
        st.2 ++ [(lab, labAllSubjects S acc st.1 lab)]) := by
  unfold labFromNames at h
  simp only [processLabel, labFromNames, labFolded, labAllSubjects]
  rw [if_neg h]

theorem processLabel_step {S E : Str} {acc : LedgerAcc}
    {st : List Str × List (Str × List Str)} {lab : Str}
    (hndSE : (entryKeys S ++ entryKeys E).Nodup)
    (hvnd : ∀ p ∈ acc.byLabel, p.2.Nodup)
    (hfresh : ∀ sec ∈ st.2, sec.1 ≠ lab)
    (hinv : MergeInv S E acc st) :
    MergeInv S E acc (processLabel S acc st lab) ∧
      ∀ sec ∈ (processLabel S acc st lab).2, sec ∈ st.2 ∨ sec.1 = lab := by
  by_cases hemp : (labFromNames acc lab).isEmpty = true
  · rw [processLabel_empty hemp]
    exact ⟨hinv, fun sec hsec => Or.inl hsec⟩
  · have hndS : (entryKeys S).Nodup := (List.nodup_append.mp hndSE).1
    have hdisjSE : (entryKeys S).Disjoint (entryKeys E) := (List.nodup_append.mp hndSE).2.2
    have hinit : ∀ fn v, jsGet (subjectMapFor S lab) fn = some v →
        fn ∈ st.1 ∧ splitKey v = fn := by
      intro fn v hget
      obtain ⟨htag, hent, hkey⟩ := subjectMapFor_char S lab fn v hget
      have hvS : v ∈ entryLines S := mem_entryLines_of_tagged htag hent
      have hfnS : fn ∈ entryKeys S := by
        rw [← hkey]
        exact List.mem_map_of_mem _ hvS
      exact ⟨hinv.exSup (entryKeys_sub_ex0_S hfnS), hkey⟩
    obtain ⟨hc1, hc2, hc3⟩ := newFold_char ((jsGet acc.linesByLabel lab).getD [])
      (subjectMapFor S lab) st.1 hinit
    have hline : ∀ v ∈ labAllSubjects S acc st.1 lab,
        ∃ fn, splitKey v = fn ∧ fn ∈ (labFolded S acc st.1 lab).2 ∧
          (((some lab, v) ∈ taggedOf (splitNl S) ∧ isEntryLine v = true ∧
              v ∈ entryLines S) ∨
            (fn ∉ st.1 ∧ ∃ p ∈ acc.linesByLabel, v ∈ p.2)) := by
      intro v hv
      obtain ⟨fn, hfn, hget⟩ := mem_filterMap_values hv
      obtain ⟨hfolded2, hkey⟩ := hc2 fn v hget
      refine ⟨fn, hkey, hfolded2, ?_⟩
      rcases hc1 fn v hget with hsc | ⟨hvL, hkey2, hnotex⟩
      · obtain ⟨htag, hent, _⟩ := subjectMapFor_char S lab fn v hsc
        exact Or.inl ⟨htag, hent, mem_entryLines_of_tagged htag hent⟩
      · refine Or.inr ⟨hnotex, ?_⟩
        cases hgl : jsGet acc.linesByLabel lab with
        | none =>
          rw [hgl] at hvL
          cases hvL
        | some L =>
          rw [hgl] at hvL
          exact ⟨(lab, L), jsGet_mem hgl, hvL⟩
    have e1 : collectFrom (collectFrom [] S) E ⊆ (labFolded S acc st.1 lab).2 :=
      fun k hk => hc3 k (hinv.exSup hk)
    have e2 : ∀ k ∈ outEntryKeys (st.2 ++ [(lab, labAllSubjects S acc st.1 lab)]),
        k ∈ (labFolded S acc st.1 lab).2 := by
      intro k hk
      rw [outEntryKeys_append] at hk
      rcases List.mem_append.mp hk with h1 | h1
      · exact hc3 k (hinv.keysEx k h1)
      · obtain ⟨v, hv, hkeq⟩ := List.mem_map.mp h1
        obtain ⟨fn, hkey, hfold, _⟩ := hline v (List.mem_of_mem_filter hv)
        rw [← hkeq, hkey]
        exact hfold
    have hBchar : ∀ k ∈ ((labAllSubjects S acc st.1 lab).filter isEntryLine).map splitKey,
        (∃ v, (some lab, v) ∈ taggedOf (splitNl S) ∧ isEntryLine v = true ∧
            splitKey v = k) ∨ (k ∉ st.1) := by
      intro k hk
      obtain ⟨v, hv, hkeq⟩ := List.mem_map.mp hk
      obtain ⟨fn, hkey, _, hcase⟩ := hline v (List.mem_of_mem_filter hv)
      rcases hcase with ⟨htag, hent, _⟩ | ⟨hnotex, _⟩
      · exact Or.inl ⟨v, htag, hent, hkeq⟩
      · rw [← hkeq, hkey]
        exact Or.inr hnotex
    have hBsub : (((labAllSubjects S acc st.1 lab).filter isEntryLine).map splitKey).Sublist
        (labFromNames acc lab) := by
      have hmp : ∀ fn v, jsGet (labFolded S acc st.1 lab).1 fn = some v → splitKey v = fn :=
        fun fn v h => (hc2 fn v h).2
      have heq : (labAllSubjects S acc st.1 lab).filter isEntryLine =
          ((labFromNames acc lab).filterMap
            (fun fn => jsGet (labFolded S acc st.1 lab).1 fn)).filter
            (fun v => isEntryLine v && !(v == [])) := by
        unfold labAllSubjects
        rw [List.filter_filter]
      rw [heq]
      exact keys_filterMap_sublist _ _ _ hmp
    have hfns_nd : (labFromNames acc lab).Nodup := by
      unfold labFromNames
      cases hget : jsGet acc.byLabel lab with
      | none => exact nodup_insertionSort List.nodup_nil
      | some fset => exact nodup_insertionSort (hvnd (lab, fset) (jsGet_mem hget))
    have hB_nd : (((labAllSubjects S acc st.1 lab).filter isEntryLine).map splitKey).Nodup :=
      hBsub.nodup hfns_nd
    have hnd_old := hinv.keysNd
    rw [List.nodup_append] at hnd_old
    obtain ⟨hA_nd, hC_nd, hAC⟩ := hnd_old
    have hBA : ∀ k ∈ ((labAllSubjects S acc st.1 lab).filter isEntryLine).map splitKey,
        k ∉ outEntryKeys st.2 := by
      intro k hkB hkA
      rcases hBchar k hkB with ⟨v, htag, hent, hkv⟩ | hnot
      · obtain ⟨sec, hsec, hksec⟩ := mem_outEntryKeys.mp hkA
        rcases hinv.keysTag sec hsec k hksec with ⟨w, hwt, hwe, hwk⟩ | ⟨hkS, _⟩
        · exact tagged_key_unique hndS hwt htag hwe hent (hwk.trans hkv.symm)
            (fun heq => hfresh sec hsec (Option.some.inj (congrArg Prod.fst heq)))
        · apply hkS
          rw [← hkv]
          exact List.mem_map_of_mem _ (mem_entryLines_of_tagged htag hent)
      · exact hnot (hinv.keysEx k hkA)
    have hBC : ∀ k ∈ ((labAllSubjects S acc st.1 lab).filter isEntryLine).map splitKey,
        k ∉ entryKeys E := by
      intro k hkB hkC
      rcases hBchar k hkB with ⟨v, htag, hent, hkv⟩ | hnot
      · have hkS : k ∈ entryKeys S := by
          rw [← hkv]
          exact List.mem_map_of_mem _ (mem_entryLines_of_tagged htag hent)
        exact hdisjSE hkS hkC
      · exact hnot (hinv.exSup (entryKeys_sub_ex0_E hkC))
    have e3 : (outEntryKeys (st.2 ++ [(lab, labAllSubjects S acc st.1 lab)]) ++
        entryKeys E).Nodup := by
      rw [outEntryKeys_append, List.append_assoc, List.nodup_append]
      refine ⟨hA_nd, ?_, ?_⟩
      · rw [List.nodup_append]
        refine ⟨hB_nd, hC_nd, ?_⟩
        intro k hkB hkC
        exact hBC k hkB hkC
      · intro k hkA hmem
        rcases List.mem_append.mp hmem with hkB | hkC
        · exact hBA k hkB hkA
        · exact hAC hkA hkC
    have e4 : ∀ sec ∈ st.2 ++ [(lab, labAllSubjects S acc st.1 lab)],
        ∀ k ∈ secEntryKeys sec,
        (∃ w, (some sec.1, w) ∈ taggedOf (splitNl S) ∧ isEntryLine w = true ∧
          splitKey w = k) ∨ (k ∉ entryKeys S ∧ k ∉ entryKeys E) := by
      intro sec hsec k hk
      rcases List.mem_append.mp hsec with h1 | h1
      · exact hinv.keysTag sec h1 k hk
      · simp only [List.mem_singleton] at h1
        subst h1
        rcases hBchar k hk with ⟨v, htag, hent, hkv⟩ | hnot
        · exact Or.inl ⟨v, htag, hent, hkv⟩
        · exact Or.inr (not_entryKeys_of_not_ex0 (fun hm => hnot (hinv.exSup hm)))
    have e5 : ∀ sec ∈ st.2 ++ [(lab, labAllSubjects S acc st.1 lab)], ∀ v ∈ sec.2,
        v ∈ entryLines S ∨
          (splitKey v ∉ collectFrom (collectFrom [] S) E ∧
            ∃ p ∈ acc.linesByLabel, v ∈ p.2) := by
      intro sec hsec v hv
      rcases List.mem_append.mp hsec with h1 | h1
      · exact hinv.lineSrc sec h1 v hv
      · simp only [List.mem_singleton] at h1
        subst h1
        obtain ⟨fn, hkey, _, hcase⟩ := hline v hv
        rcases hcase with ⟨_, _, hvS⟩ | ⟨hnotex, hsrc⟩
        · exact Or.inl hvS
        · refine Or.inr ⟨?_, hsrc⟩
          rw [hkey]
          exact fun hm => hnotex (hinv.exSup hm)
    have hmain : MergeInv S E acc ((labFolded S acc st.1 lab).2,
        st.2 ++ [(lab, labAllSubjects S acc st.1 lab)]) := ⟨e1, e2, e3, e4, e5⟩
    rw [processLabel_pos hemp]
    refine ⟨hmain, ?_⟩
    intro sec hsec
    rcases List.mem_append.mp hsec with h1 | h1
    · exact Or.inl h1
    · simp only [List.mem_singleton] at h1
      rw [h1]
      exact Or.inr rfl

theorem processLabel_fold (S E : Str) (acc : LedgerAcc)
    (hndSE : (entryKeys S ++ entryKeys E).Nodup)
    (hvnd : ∀ p ∈ acc.byLabel, p.2.Nodup) :
    ∀ labs : List Str, labs.Nodup →
    ∀ st, MergeInv S E acc st → (∀ sec ∈ st.2, sec.1 ∉ labs) →
      MergeInv S E acc (labs.foldl (processLabel S acc) st) ∧
        ∀ sec ∈ (labs.foldl (processLabel S acc) st).2,
          sec ∈ st.2 ∨ sec.1 ∈ labs := by
  intro labs
  induction labs with
  | nil =>
    intro _ st hinv _
    exact ⟨hinv, fun sec hsec => Or.inl hsec⟩
  | cons lab labs ih =>
    intro hnd st hinv hfr
    rw [List.foldl_cons]
    have hfresh : ∀ sec ∈ st.2, sec.1 ≠ lab := fun sec hsec heq =>
      hfr sec hsec (heq ▸ List.mem_cons_self lab labs)
    obtain ⟨hinv', hsec'⟩ := processLabel_step hndSE hvnd hfresh hinv
    have hnd' : labs.Nodup := (List.nodup_cons.mp hnd).2
    have hlab_not : lab ∉ labs := (List.nodup_cons.mp hnd).1
    have hfr' : ∀ sec ∈ (processLabel S acc st lab).2, sec.1 ∉ labs := by
      intro sec hsec hm
      rcases hsec' sec hsec with h1 | h1
      · exact hfr sec h1 (List.mem_cons_of_mem lab hm)
      · rw [h1] at hm
        exact hlab_not hm
    obtain ⟨hinv2, hsec2⟩ := ih hnd' (processLabel S acc st lab) hinv' hfr'
    refine ⟨hinv2, ?_⟩
    intro sec hsec
    rcases hsec2 sec hsec with h1 | h1
    · rcases hsec' sec h1 with h2 | h2
      · exact Or.inl h2
      · exact Or.inr (h2 ▸ List.mem_cons_self lab labs)
    · exact Or.inr (List.mem_cons_of_mem lab h1)

theorem mergeAndPersist_empty {S E : Str} {acc : LedgerAcc}
    (h : acc.byLabel.isEmpty = true) : mergeAndPersist S E acc = S := by
  simp [mergeAndPersist, h]

theorem mergeAndPersist_nosec {S E : Str} {acc : LedgerAcc}
    (h : ¬acc.byLabel.isEmpty = true)
    (h2 : (mergeFold S E acc).2.isEmpty = true) :
    mergeAndPersist S E acc = S := by
  unfold mergeFold at h2
  simp only [mergeAndPersist]
  rw [if_neg h, if_pos h2]

theorem mergeAndPersist_render {S E : Str} {acc : LedgerAcc}
    (h : ¬acc.byLabel.isEmpty = true)
    (h2 : ¬(mergeFold S E acc).2.isEmpty = true) :
    mergeAndPersist S E acc = renderAll (mergeFold S E acc).2 := by
  unfold mergeFold at h2
  simp only [mergeAndPersist, mergeFold]
  rw [if_neg h, if_neg h2]

theorem entryLines_renderAll {secs : List (Str × List Str)} (hne : secs ≠ [])
    (hlabs : ∀ sec ∈ secs, nlFree sec.1 = true)
    (hlines : ∀ sec ∈ secs, ∀ l ∈ sec.2, nlFree l = true) :
    entryLines (renderAll secs) =
      (secs.map (fun sec => sec.2.filter isEntryLine)).join := by
  unfold entryLines
  rw [splitNl_renderAll hne hlabs hlines, filter_sectionsLines]

theorem entryKeys_renderAll {secs : List (Str × List Str)} (hne : secs ≠ [])
    (hlabs : ∀ sec ∈ secs, nlFree sec.1 = true)
    (hlines : ∀ sec ∈ secs, ∀ l ∈ sec.2, nlFree l = true) :
    entryKeys (renderAll secs) = outEntryKeys secs := by
  unfold entryKeys
  rw [entryLines_renderAll hne hlabs hlines]
  show ((secs.map (fun sec => sec.2.filter isEntryLine)).flatten).map splitKey =
    outEntryKeys secs
  rw [List.map_flatten, List.map_map]
  rfl

theorem merge_main (S E : Str) (acc : LedgerAcc)
    (hknd : (acc.byLabel.map (fun p => p.1)).Nodup)
    (hvnd : ∀ p ∈ acc.byLabel, p.2.Nodup)
    (hlabNl : ∀ p ∈ acc.byLabel, nlFree p.1 = true)
    (hlinesNl : ∀ p ∈ acc.linesByLabel, ∀ v ∈ p.2, nlFree v = true)
    (hnd : (entryKeys S ++ entryKeys E).Nodup) :
    (∀ v ∈ entryLines (mergeAndPersist S E acc),
        v ∈ entryLines S ∨ (splitKey v ∉ entryKeys S ∧ splitKey v ∉ entryKeys E)) ∧
    (entryKeys (mergeAndPersist S E acc) ++ entryKeys E).Nodup := by
  by_cases hempty : acc.byLabel.isEmpty = true
  · rw [mergeAndPersist_empty hempty]
    exact ⟨fun v hv => Or.inl hv, hnd⟩
  · have hlabs_nd : (sortLabs (acc.byLabel.map (fun p => p.1))).Nodup :=
      nodup_insertionSort hknd
    have hinv0 : MergeInv S E acc (collectFrom (collectFrom [] S) E, []) := by
      refine ⟨fun k hk => hk, ?_, ?_, ?_, ?_⟩
      · intro k hk
        exact absurd hk (List.not_mem_nil k)
      · rw [show outEntryKeys ([] : List (Str × List Str)) = [] from rfl, List.nil_append]
        exact (List.nodup_append.mp hnd).2.1
      · intro sec hsec
        exact absurd hsec (List.not_mem_nil sec)
      · intro sec hsec
        exact absurd hsec (List.not_mem_nil sec)
    have hfold := processLabel_fold S E acc hnd hvnd
      (sortLabs (acc.byLabel.map (fun p => p.1))) hlabs_nd
      (collectFrom (collectFrom [] S) E, []) hinv0
      (fun sec hsec => absurd hsec (List.not_mem_nil sec))
    have hinvF : MergeInv S E acc (mergeFold S E acc) := hfold.1
    have hsecF : ∀ sec ∈ (mergeFold S E acc).2,
        sec ∈ ([] : List (Str × List Str)) ∨
          sec.1 ∈ sortLabs (acc.byLabel.map (fun p => p.1)) := hfold.2
    have hlabsNl : ∀ sec ∈ (mergeFold S E acc).2, nlFree sec.1 = true := by
      intro sec hsec
      rcases hsecF sec hsec with h1 | h1
      · exact absurd h1 (List.not_mem_nil sec)
      · have h2 : sec.1 ∈ acc.byLabel.map (fun p => p.1) :=
          (List.perm_insertionSort LeLab _).mem_iff.mp h1
        obtain ⟨p, hp, hpe⟩ := List.mem_map.mp h2
        rw [← hpe]
        exact hlabNl p hp
    have hlinesF : ∀ sec ∈ (mergeFold S E acc).2, ∀ v ∈ sec.2, nlFree v = true := by
      intro sec hsec v hv
      rcases hinvF.lineSrc sec hsec v hv with h1 | ⟨_, p, hp, hvp⟩
      · exact splitNl_lines_nlFree S v (List.mem_of_mem_filter h1)
      · exact hlinesNl p hp v hvp
    by_cases hsec_emp : (mergeFold S E acc).2.isEmpty = true
    · rw [mergeAndPersist_nosec hempty hsec_emp]
      exact ⟨fun v hv => Or.inl hv, hnd⟩
    · rw [mergeAndPersist_render hempty hsec_emp]
      have hne : (mergeFold S E acc).2 ≠ [] := by
        intro h
        rw [h] at hsec_emp
        exact hsec_emp rfl
      constructor
      · intro v hv
        rw [entryLines_renderAll hne hlabsNl hlinesF, List.mem_join] at hv
        obtain ⟨l, hl, hvl⟩ := hv
        obtain ⟨sec, hsec, rfl⟩ := List.mem_map.mp hl
        have hv2 : v ∈ sec.2 := List.mem_of_mem_filter hvl
        rcases hinvF.lineSrc sec hsec v hv2 with h1 | ⟨hnot, _⟩
        · exact Or.inl h1
        · exact Or.inr (not_entryKeys_of_not_ex0 hnot)
      · rw [entryKeys_renderAll hne hlabsNl hlinesF]
        exact hinvF.keysNd

/-- Claim C2, as stated, is false: `mergeAndPersist` preserves a sender
identity that already occurs in both ledger files, so after a merge a sender
can still occur twice across the two ledgers combined.  With the subjects
file holding `x` under label `A`, the exclusions file holding `x` under
label `B`, and no candidates, the rewrite keeps `x` in the subjects file
while `x` also remains in the (never written) exclusions file. -/
theorem c2_counterexample :
    ¬(entryKeys (runMerge (str "======= A =======\nx | s | 1\n")
        (str "======= B =======\nx | t | 2\n") []) ++
      entryKeys (str "======= B =======\nx | t | 2\n")).Nodup := by decide

/-- Claim C2, amended: provided the sender keys already present across the
two ledger files are pairwise distinct (the invariant the merge itself
maintains) and the candidates' labels and ledger lines are newline-free,
`mergeAndPersist` never adds an entry whose sender identity already appears
in either ledger file — every entry line of the rewritten subjects file is
either an entry line that was already in the subjects file or has a sender
key occurring in neither file — and afterwards each sender identity occurs
at most once across both ledgers combined. -/
theorem c2_amended (S E : Str) (cands : List Candidate)
    (hclab : ∀ c ∈ cands, nlFree c.label = true)
    (hcline : ∀ c ∈ cands, nlFree (subjectLineOf c) = true)
    (hnd : (entryKeys S ++ entryKeys E).Nodup) :
    (∀ v ∈ entryLines (runMerge S E cands),
        v ∈ entryLines S ∨ (splitKey v ∉ entryKeys S ∧ splitKey v ∉ entryKeys E)) ∧
    (entryKeys (runMerge S E cands) ++ entryKeys E).Nodup := by
  have hload := loadStep_inv (splitNl S) (none, ⟨[], []⟩)
    ⟨List.nodup_nil, fun p hp => absurd hp (List.not_mem_nil p),
      fun p hp => absurd hp (List.not_mem_nil p)⟩
  obtain ⟨hk0, hv0, he0⟩ := hload
  have haccinv := accumStep_inv cands (loadSubjects S) ⟨hk0, hv0⟩
  have hlinesNl : ∀ p ∈ (cands.foldl accumStep (loadSubjects S)).linesByLabel,
      ∀ v ∈ p.2, nlFree v = true :=
    accum_lines_src (fun v => nlFree v = true) cands hcline (loadSubjects S)
      (by
        intro p hp v hv
        rw [he0 p hp] at hv
        cases hv)
  have hlabNl : ∀ p ∈ (cands.foldl accumStep (loadSubjects S)).byLabel,
      nlFree p.1 = true :=
    keys_accum (fun s => nlFree s = true) cands hclab (loadSubjects S)
      (keys_load (fun s => nlFree s = true) (splitNl S)
        (fun l hl => nlFree_extractLabel (splitNl_lines_nlFree S l hl))
        (none, ⟨[], []⟩) (fun p hp => absurd hp (List.not_mem_nil p)))
  exact merge_main S E (cands.foldl accumStep (loadSubjects S))
    haccinv.1 haccinv.2 hlabNl hlinesNl hnd

/-- Witness for the amended claim C2 at a concrete input: a subjects file
with one entry under one label, an empty exclusions file and no candidates
satisfy the hypotheses, and the conclusions hold there. -/
theorem c2_amended_witness :
    (∀ c ∈ ([] : List Candidate), nlFree c.label = true) ∧
    (∀ c ∈ ([] : List Candidate), nlFree (subjectLineOf c) = true) ∧
    (entryKeys (str "======= A =======\nx | s | 1\n") ++ entryKeys (str "")).Nodup ∧
    ((∀ v ∈ entryLines (runMerge (str "======= A =======\nx | s | 1\n") (str "") []),
        v ∈ entryLines (str "======= A =======\nx | s | 1\n") ∨
          (splitKey v ∉ entryKeys (str "======= A =======\nx | s | 1\n") ∧
            splitKey v ∉ entryKeys (str ""))) ∧
      (entryKeys (runMerge (str "======= A =======\nx | s | 1\n") (str "") []) ++
        entryKeys (str "")).Nodup) :=
  ⟨by decide, by decide, by decide,
    c2_amended _ _ _ (by decide) (by decide) (by decide)⟩

theorem entry_not_header {l : Str} (h : isEntryLine l = true) : ¬isHeaderLine l = true := by
  unfold isEntryLine at h
  rw [Bool.and_eq_true] at h
  have h2 := h.2
  rw [Bool.not_eq_true'] at h2
  rw [h2]
  simp

theorem entry_trimsep {l : Str} (h : isEntryLine l = true) :
    (jsTrimTruthy l && containsSub l sepStr) = true := by
  unfold isEntryLine at h
  rw [Bool.and_eq_true] at h
  exact h.1

theorem foldl_setAdd_eq (ks : List Str) :
    ks.Nodup → ∀ s : List Str, (∀ k ∈ ks, k ∉ s) →
      ks.foldl setAdd s = s ++ ks := by
  induction ks with
  | nil => intro _ s _; simp
  | cons k ks ih =>
    intro hnd s hdisj
    rw [List.foldl_cons]
    have hk : k ∉ s := hdisj k (List.mem_cons_self k ks)
    have hsa : setAdd s k = s ++ [k] := by
      unfold setAdd
      rw [if_neg (fun hc => hk (List.elem_iff.mp hc))]
    have hd2 : ∀ k' ∈ ks, k' ∉ s ++ [k] := by
      intro k' hk' hmem
      rcases List.mem_append.mp hmem with h1 | h1
      · exact hdisj k' (List.mem_cons_of_mem k hk') h1
      · simp only [List.mem_singleton] at h1
        subst h1
        exact (List.nodup_cons.mp hnd).1 hk'
    rw [hsa, ih (List.nodup_cons.mp hnd).2 (s ++ [k]) hd2]
    simp

theorem keySetOf_eq {sec : Str × List Str} (hnd : (sec.2.map splitKey).Nodup) :
    keySetOf sec = sec.2.map splitKey := by
  unfold keySetOf
  have h1 : ∀ L : List Str, L.foldl (fun t l => setAdd t (splitKey l)) [] =
      (L.map splitKey).foldl setAdd [] := by
    intro L
    rw [List.foldl_map]
  rw [h1, foldl_setAdd_eq _ hnd [] (fun k _ hk => (List.not_mem_nil k) hk)]
  simp

theorem sectionsLines_singleton (sec : Str × List Str) :
    sectionsLines [sec] = sectionLines sec ++ [[]] := by
  simp [sectionsLines, List.intercalate]

theorem loadStep_blank (st : Option Str × LedgerAcc) : loadStep st [] = st := by
  obtain ⟨cur, a⟩ := st
  cases cur with
  | none => exact loadStep_none (by decide)
  | some lab => exact loadStep_entry_skip (by decide) rfl (by decide)

theorem mapAdd_last {m : List (Str × List Str)} {lab : Str} {s : List Str} (k : Str)
    (hnot : lab ∉ m.map (fun p => p.1)) :
    mapAdd (m ++ [(lab, s)]) lab k = m ++ [(lab, setAdd s k)] := by
  unfold mapAdd
  rw [List.map_append]
  have h2 : ∀ p ∈ m, (if p.1 == lab then (p.1, setAdd p.2 k) else p) = id p := by
    intro p hp
    have hne : ¬(p.1 == lab) = true := by
      intro hb
      exact hnot (List.mem_map.mpr ⟨p, hp, eq_of_beq hb⟩)
    rw [if_neg hne]
    rfl
  rw [List.map_congr_left h2, List.map_id]
  congr 1
  simp

theorem load_body {lab : Str} (L : List Str) :
    (∀ l ∈ L, isEntryLine l = true) →
    ∀ (m ml : List (Str × List Str)) (s : List Str),
      lab ∉ m.map (fun p => p.1) →
      L.foldl loadStep (some lab, ⟨m ++ [(lab, s)], ml⟩) =
        (some lab, ⟨m ++ [(lab, L.foldl (fun t l => setAdd t (splitKey l)) s)], ml⟩) := by
  induction L with
  | nil => intro _ m ml s _; rfl
  | cons l L ih =>
    intro hent m ml s hnot
    rw [List.foldl_cons]
    have he := hent l (List.mem_cons_self l L)
    have hh : ¬isHeaderLine l = true := entry_not_header he
    have hcond : (jsTrimTruthy l && containsSub l sepStr) = true := entry_trimsep he
    have hstep : loadStep (some lab, (⟨m ++ [(lab, s)], ml⟩ : LedgerAcc)) l =
        (some lab, ⟨mapAdd (m ++ [(lab, s)]) lab (splitKey l), ml⟩) :=
      loadStep_entry hh rfl hcond
    rw [hstep, mapAdd_last (splitKey l) hnot]
    rw [ih (fun l' h' => hent l' (List.mem_cons_of_mem l h')) m ml
      (setAdd s (splitKey l)) hnot]
    rfl

theorem load_section {sec : Str × List Str} (hne : sec.2 ≠ [])
    (hent : ∀ l ∈ sec.2, isEntryLine l = true)
    (hclean : extractLabel (renderHeader sec.1) = sec.1) :
    ∀ (cur : Option Str) (m ml : List (Str × List Str)),
      sec.1 ∉ m.map (fun p => p.1) →
      (sectionLines sec ++ [[]]).foldl loadStep (cur, ⟨m, ml⟩) =
        (some sec.1, ⟨m ++ [(sec.1, keySetOf sec)], ml ++ [(sec.1, [])]⟩) := by
  intro cur m ml hnot
  unfold sectionLines
  rw [if_neg (by rw [List.isEmpty_iff]; exact hne)]
  rw [List.cons_append, List.foldl_cons]
  have hhdr : isHeaderLine (renderHeader sec.1) = true := isHeaderLine_renderHeader sec.1
  have hnotsome : ¬(jsGet m (extractLabel (renderHeader sec.1))).isSome = true := by
    rw [hclean]
    intro hs
    cases hg : jsGet m sec.1 with
    | none => rw [hg] at hs; simp at hs
    | some v => exact hnot (List.mem_map.mpr ⟨(sec.1, v), jsGet_mem hg, rfl⟩)
  have hstep : loadStep (cur, (⟨m, ml⟩ : LedgerAcc)) (renderHeader sec.1) =
      (some sec.1, ⟨m ++ [(sec.1, [])], ml ++ [(sec.1, [])]⟩) := by
    have h0 := @loadStep_header_new (cur, (⟨m, ml⟩ : LedgerAcc)) (renderHeader sec.1)
      hhdr hnotsome
    rw [hclean] at h0
    exact h0
  rw [hstep, List.foldl_append]
  rw [load_body sec.2 hent m (ml ++ [(sec.1, [])]) [] hnot]
  simp only [List.foldl_cons, List.foldl_nil, loadStep_blank]
  rfl

theorem load_sections (secs : List (Str × List Str)) :
    (∀ sec ∈ secs, sec.2 ≠ []) →
    (∀ sec ∈ secs, ∀ l ∈ sec.2, isEntryLine l = true) →
    (∀ sec ∈ secs, extractLabel (renderHeader sec.1) = sec.1) →
    (secs.map (fun sec => sec.1)).Nodup →
    secs ≠ [] →
    ∀ (cur : Option Str) (m ml : List (Str × List Str)),
      (∀ sec ∈ secs, sec.1 ∉ m.map (fun p => p.1)) →
      ∃ cur', (sectionsLines secs).foldl loadStep (cur, ⟨m, ml⟩) =
        (cur', ⟨m ++ secs.map (fun sec => (sec.1, keySetOf sec)),
          ml ++ secs.map (fun sec => (sec.1, []))⟩) := by
  induction secs with
  | nil => intro _ _ _ _ hne; cases hne rfl
  | cons sec rest ih =>
    intro hne hent hclean hnd _ cur m ml hnotin
    have hs1 := load_section (hne sec (List.mem_cons_self sec rest))
      (hent sec (List.mem_cons_self sec rest)) (hclean sec (List.mem_cons_self sec rest))
      cur m ml (hnotin sec (List.mem_cons_self sec rest))
    cases rest with
    | nil =>
      rw [sectionsLines_singleton, hs1]
      exact ⟨some sec.1, by simp⟩
    | cons sec2 more =>
      rw [sectionsLines_cons₂, List.foldl_append, hs1]
      have hnotin2 : ∀ s ∈ sec2 :: more,
          s.1 ∉ (m ++ [(sec.1, keySetOf sec)]).map (fun p => p.1) := by
        intro s hs hmem
        rw [List.map_append, List.mem_append] at hmem
        rcases hmem with h1 | h1
        · exact hnotin s (List.mem_cons_of_mem sec hs) h1
        · simp only [List.map_cons, List.map_nil, List.mem_singleton] at h1
          have : s.1 ∈ (sec2 :: more).map (fun q => q.1) :=
            List.mem_map_of_mem _ hs
          rw [h1] at this
          exact (List.nodup_cons.mp hnd).1 this
      obtain ⟨cur', hc⟩ := ih
        (fun s hs => hne s (List.mem_cons_of_mem sec hs))
        (fun s hs => hent s (List.mem_cons_of_mem sec hs))
        (fun s hs => hclean s (List.mem_cons_of_mem sec hs))
        (List.nodup_cons.mp hnd).2
        (List.cons_ne_nil sec2 more)
        (some sec.1) (m ++ [(sec.1, keySetOf sec)])
        (ml ++ [(sec.1, [])]) hnotin2
      refine ⟨cur', ?_⟩
      rw [hc]
      simp [List.append_assoc]

theorem scanStep_header {lab : Str} {st : Bool × List (Str × Str)} {l : Str}
    (hh : isHeaderLine l = true) :
    scanMapStep lab st l = ((extractLabel l == lab), st.2) := by
  simp [scanMapStep, hh]

theorem scanStep_skip {lab : Str} {st : Bool × List (Str × Str)} {l : Str}
    (hh : ¬isHeaderLine l = true)
    (hc : ¬(st.1 && jsTrimTruthy l && containsSub l sepStr) = true) :
    scanMapStep lab st l = st := by
  simp only [scanMapStep, if_neg hh]
  rw [if_neg hc]

theorem scanStep_flagoff {lab : Str} {mp : List (Str × Str)} {l : Str}
    (hh : ¬isHeaderLine l = true) :
    scanMapStep lab (false, mp) l = (false, mp) :=
  scanStep_skip hh (by simp)

theorem scanStep_entry_new {lab : Str} {mp : List (Str × Str)} {l : Str}
    (hh : ¬isHeaderLine l = true) (hc : (jsTrimTruthy l && containsSub l sepStr) = true)
    (hg : ¬optTruthy (jsGet mp (splitKey l)) = true) :
    scanMapStep lab (true, mp) l = (true, objSet mp (splitKey l) l) := by
  rw [Bool.and_eq_true] at hc
  simp only [scanMapStep, if_neg hh]
  rw [if_pos (by rw [Bool.and_eq_true, Bool.and_eq_true]; exact ⟨⟨rfl, hc.1⟩, hc.2⟩)]
  rw [if_neg hg]

theorem scanStep_blank {lab : Str} (st : Bool × List (Str × Str)) :
    scanMapStep lab st [] = st :=
  scanStep_skip (by decide) (by
    intro h
    rw [Bool.and_eq_true, Bool.and_eq_true] at h
    exact absurd h.1.2 (by decide))

theorem scan_body_off {lab : Str} (L : List Str) :
    (∀ l ∈ L, ¬isHeaderLine l = true) →
    ∀ mp, L.foldl (scanMapStep lab) (false, mp) = (false, mp) := by
  induction L with
  | nil => intro _ mp; rfl
  | cons l L ih =>
    intro hh mp
    rw [List.foldl_cons, scanStep_flagoff (hh l (List.mem_cons_self l L))]
    exact ih (fun l' h' => hh l' (List.mem_cons_of_mem l h')) mp

theorem scan_body_on {lab : Str} (L : List Str) :
    (∀ l ∈ L, isEntryLine l = true) →
    ((L.map splitKey).Nodup) →
    ∀ mp, (∀ l ∈ L, jsGet mp (splitKey l) = none) →
      L.foldl (scanMapStep lab) (true, mp) =
        (true, mp ++ L.map (fun l => (splitKey l, l))) := by
  induction L with
  | nil => intro _ _ mp _; simp
  | cons l L ih =>
    intro hent hnd mp hfresh
    rw [List.foldl_cons]
    have he := hent l (List.mem_cons_self l L)
    have hg0 : jsGet mp (splitKey l) = none := hfresh l (List.mem_cons_self l L)
    have hg : ¬optTruthy (jsGet mp (splitKey l)) = true := by
      rw [hg0]
      decide
    rw [scanStep_entry_new (entry_not_header he) (entry_trimsep he) hg,
      objSet_of_not_mem _ _ _ hg0]
    have hfresh2 : ∀ l' ∈ L, jsGet (mp ++ [(splitKey l, l)]) (splitKey l') = none := by
      intro l' hl'
      rw [jsGet_append_single]
      have h1 := hfresh l' (List.mem_cons_of_mem l hl')
      rw [h1]
      have hne : splitKey l' ≠ splitKey l := by
        intro he2
        exact (List.nodup_cons.mp hnd).1 (he2 ▸ List.mem_map_of_mem splitKey hl')
      rw [if_neg hne]
    rw [ih (fun l' h' => hent l' (List.mem_cons_of_mem l h'))
      (List.nodup_cons.mp hnd).2 (mp ++ [(splitKey l, l)]) hfresh2]
    simp

theorem header_not_entry_lines {sec : Str × List Str}
    (hent : ∀ l ∈ sec.2, isEntryLine l = true) :
    ∀ l ∈ sec.2, ¬isHeaderLine l = true :=
  fun l hl => entry_not_header (hent l hl)

theorem scan_section {lab : Str} {sec : Str × List Str} (hne : sec.2 ≠ [])
    (hent : ∀ l ∈ sec.2, isEntryLine l = true)
    (hclean : extractLabel (renderHeader sec.1) = sec.1)
    (hknd : (sec.2.map splitKey).Nodup) :
    ∀ (b : Bool) (mp : List (Str × Str)),
      (sec.1 = lab → ∀ l ∈ sec.2, jsGet mp (splitKey l) = none) →
      (sectionLines sec ++ [[]]).foldl (scanMapStep lab) (b, mp) =
        ((sec.1 == lab),
          if sec.1 = lab then mp ++ sec.2.map (fun l => (splitKey l, l)) else mp) := by
  intro b mp hfresh
  unfold sectionLines
  rw [if_neg (by rw [List.isEmpty_iff]; exact hne)]
  rw [List.cons_append, List.foldl_cons,
    scanStep_header (isHeaderLine_renderHeader sec.1), hclean]
  by_cases hm : sec.1 = lab
  · rw [show ((sec.1 == lab) : Bool) = true from by rw [hm]; simp]
    rw [List.foldl_append, scan_body_on sec.2 hent hknd mp (hfresh hm)]
    simp only [List.foldl_cons, List.foldl_nil, scanStep_blank]
    rw [if_pos hm]
  · rw [show ((sec.1 == lab) : Bool) = false from beq_eq_false_iff_ne.mpr hm]
    rw [List.foldl_append, scan_body_off sec.2 (header_not_entry_lines hent) mp]
    simp only [List.foldl_cons, List.foldl_nil, scanStep_blank]
    rw [if_neg hm]

theorem scan_sections_nomatch {lab : Str} (secs : List (Str × List Str)) :
    (∀ sec ∈ secs, sec.2 ≠ []) →
    (∀ sec ∈ secs, ∀ l ∈ sec.2, isEntryLine l = true) →
    (∀ sec ∈ secs, extractLabel (renderHeader sec.1) = sec.1) →
    (∀ sec ∈ secs, (sec.2.map splitKey).Nodup) →
    (∀ sec ∈ secs, sec.1 ≠ lab) →
    secs ≠ [] →
    ∀ (b : Bool) (mp : List (Str × Str)),
      ∃ b', (sectionsLines secs).foldl (scanMapStep lab) (b, mp) = (b', mp) := by
  induction secs with
  | nil => intro _ _ _ _ _ hne; cases hne rfl
  | cons sec rest ih =>
    intro hne hent hclean hknd hnl _ b mp
    have hs1 := scan_section (hne sec (List.mem_cons_self sec rest))
      (hent sec (List.mem_cons_self sec rest)) (hclean sec (List.mem_cons_self sec rest))
      (hknd sec (List.mem_cons_self sec rest)) b mp
      (fun hm => absurd hm (hnl sec (List.mem_cons_self sec rest)))
    rw [if_neg (hnl sec (List.mem_cons_self sec rest))] at hs1
    cases rest with
    | nil =>
      rw [sectionsLines_singleton, hs1]
      exact ⟨_, rfl⟩
    | cons sec2 more =>
      rw [sectionsLines_cons₂, List.foldl_append, hs1]
      exact ih (fun s hs => hne s (List.mem_cons_of_mem sec hs))
        (fun s hs => hent s (List.mem_cons_of_mem sec hs))
        (fun s hs => hclean s (List.mem_cons_of_mem sec hs))
        (fun s hs => hknd s (List.mem_cons_of_mem sec hs))
        (fun s hs => hnl s (List.mem_cons_of_mem sec hs))
        (List.cons_ne_nil sec2 more) _ mp

theorem scan_sections_match {lab : Str} (secs : List (Str × List Str)) :
    (∀ s ∈ secs, s.2 ≠ []) →
    (∀ s ∈ secs, ∀ l ∈ s.2, isEntryLine l = true) →
    (∀ s ∈ secs, extractLabel (renderHeader s.1) = s.1) →
    (∀ s ∈ secs, (s.2.map splitKey).Nodup) →
    (secs.map (fun s => s.1)).Nodup →
    ∀ sec ∈ secs, sec.1 = lab →
    ∀ (b : Bool) (mp : List (Str × Str)),
      (∀ l ∈ sec.2, jsGet mp (splitKey l) = none) →
      ∃ b', (sectionsLines secs).foldl (scanMapStep lab) (b, mp) =
        (b', mp ++ sec.2.map (fun l => (splitKey l, l))) := by
  induction secs with
  | nil =>
    intro _ _ _ _ _ sec hsec
    cases hsec
  | cons s0 rest ih =>
    intro hne hent hclean hknd hnd sec hsec hlab b mp hfresh
    rcases List.mem_cons.mp hsec with rfl | hsec'
    · have hs1 := scan_section (hne sec (List.mem_cons_self sec rest))
        (hent sec (List.mem_cons_self sec rest)) (hclean sec (List.mem_cons_self sec rest))
        (hknd sec (List.mem_cons_self sec rest)) b mp (fun _ : sec.1 = lab => hfresh)
      rw [if_pos hlab] at hs1
      cases rest with
      | nil =>
        rw [sectionsLines_singleton, hs1]
        exact ⟨_, rfl⟩
      | cons sec2 more =>
        rw [sectionsLines_cons₂, List.foldl_append, hs1]
        have hnl : ∀ s ∈ sec2 :: more, s.1 ≠ lab := by
          intro s hs he
          have h1 : s.1 ∈ (sec2 :: more).map (fun q => q.1) := List.mem_map_of_mem _ hs
          rw [he, ← hlab] at h1
          exact (List.nodup_cons.mp hnd).1 h1
        exact scan_sections_nomatch (sec2 :: more)
          (fun s hs => hne s (List.mem_cons_of_mem sec hs))
          (fun s hs => hent s (List.mem_cons_of_mem sec hs))
          (fun s hs => hclean s (List.mem_cons_of_mem sec hs))
          (fun s hs => hknd s (List.mem_cons_of_mem sec hs))
          hnl (List.cons_ne_nil sec2 more) _ _
    · have hnl0 : s0.1 ≠ lab := by
        intro he
        have h1 : sec.1 ∈ rest.map (fun q => q.1) := List.mem_map_of_mem _ hsec'
        rw [hlab, ← he] at h1
        exact (List.nodup_cons.mp hnd).1 h1
      have hs1 := scan_section (hne s0 (List.mem_cons_self s0 rest))
        (hent s0 (List.mem_cons_self s0 rest)) (hclean s0 (List.mem_cons_self s0 rest))
        (hknd s0 (List.mem_cons_self s0 rest)) b mp (fun hm : s0.1 = lab => absurd hm hnl0)
      rw [if_neg hnl0] at hs1
      cases rest with
      | nil => cases hsec'
      | cons sec2 more =>
        rw [sectionsLines_cons₂, List.foldl_append, hs1]
        exact ih (fun s hs => hne s (List.mem_cons_of_mem s0 hs))
          (fun s hs => hent s (List.mem_cons_of_mem s0 hs))
          (fun s hs => hclean s (List.mem_cons_of_mem s0 hs))
          (fun s hs => hknd s (List.mem_cons_of_mem s0 hs))
          (List.nodup_cons.mp hnd).2 sec hsec' hlab _ mp hfresh

theorem subjectMapFor_render {secs : List (Str × List Str)} (hcs : CleanSecs secs)
    {sec : Str × List Str} (hsec : sec ∈ secs) :
    subjectMapFor (renderAll secs) sec.1 = sec.2.map (fun l => (splitKey l, l)) := by
  unfold subjectMapFor
  rw [splitNl_renderAll hcs.ne hcs.labNl hcs.lineNl]
  obtain ⟨b', hb⟩ := scan_sections_match secs hcs.bodyNe hcs.lineEnt hcs.labClean
    hcs.keyNd hcs.labNd sec hsec rfl false []
    (fun l _ => rfl)
  rw [hb]
  simp
theorem jsGet_assoc_head (L : List Str) (l : Str) :
    jsGet ((l :: L).map (fun q => (splitKey q, q))) (splitKey l) = some l := by
  unfold jsGet
  rw [List.map_cons, List.find?_cons_of_pos _ (by simp)]
  rfl

theorem jsGet_assoc_tail {L : List Str} {l : Str} {fn : Str} (hne : fn ≠ splitKey l) :
    jsGet ((l :: L).map (fun q => (splitKey q, q))) fn =
      jsGet (L.map (fun q => (splitKey q, q))) fn := by
  unfold jsGet
  rw [List.map_cons, List.find?_cons_of_neg _ (by
    simp only [beq_iff_eq]
    exact fun h => hne h.symm)]

theorem keys_filterMap_assoc (L : List Str) :
    (L.map splitKey).Nodup →
    (L.map splitKey).filterMap
      (fun fn => jsGet (L.map (fun q => (splitKey q, q))) fn) = L := by
  induction L with
  | nil => intro _; rfl
  | cons l L ih =>
    intro hnd
    have h1 : jsGet ((l :: L).map (fun q => (splitKey q, q))) (splitKey l) = some l :=
      jsGet_assoc_head L l
    have hnotin : splitKey l ∉ L.map splitKey := (List.nodup_cons.mp hnd).1
    have h2 : ∀ fn ∈ L.map splitKey,
        jsGet ((l :: L).map (fun q => (splitKey q, q))) fn =
          jsGet (L.map (fun q => (splitKey q, q))) fn := by
      intro fn hfn
      exact jsGet_assoc_tail (fun he => hnotin (he ▸ hfn))
    rw [show (l :: L).map splitKey = splitKey l :: L.map splitKey from rfl]
    rw [List.filterMap_cons, h1]
    show l :: (L.map splitKey).filterMap
        (fun fn => jsGet ((l :: L).map (fun q => (splitKey q, q))) fn) = l :: L
    rw [List.filterMap_congr h2, ih (List.nodup_cons.mp hnd).2]

theorem filter_nonempty_entry {L : List Str} (h : ∀ l ∈ L, isEntryLine l = true) :
    L.filter (fun v => !(v == [])) = L :=
  List.filter_eq_self.mpr (fun a ha => by
    have h2 := isEntryLine_nonempty (h a ha)
    simp [h2])

theorem jsGet_label_map {α : Type} (f : Str × List Str → α) (secs : List (Str × List Str)) :
    (secs.map (fun sec => sec.1)).Nodup →
    ∀ sec ∈ secs, jsGet (secs.map (fun sec => (sec.1, f sec))) sec.1 = some (f sec) := by
  induction secs with
  | nil => intro _ sec hsec; cases hsec
  | cons s0 rest ih =>
    intro hnd sec hsec
    rcases List.mem_cons.mp hsec with rfl | hsec'
    · unfold jsGet
      rw [List.map_cons, List.find?_cons_of_pos _ (by simp)]
      rfl
    · have hne : ¬((s0.1 == sec.1) = true) := by
        intro hb
        have he := eq_of_beq hb
        have h3 : sec.1 ∈ rest.map (fun sec => sec.1) := List.mem_map_of_mem _ hsec'
        rw [← he] at h3
        exact (List.nodup_cons.mp hnd).1 h3
      unfold jsGet
      rw [List.map_cons, List.find?_cons_of_neg _ (by simpa using hne)]
      exact ih (List.nodup_cons.mp hnd).2 sec hsec'

theorem accum_noop (C : List Candidate) :
    ∀ acc : LedgerAcc,
      (∀ c ∈ C, ((jsGet acc.byLabel c.label).getD []).contains c.fromName = true) →
      C.foldl accumStep acc = acc := by
  induction C with
  | nil => intro acc _; rfl
  | cons c cs ih =>
    intro acc h
    rw [List.foldl_cons]
    have hc := h c (List.mem_cons_self c cs)
    have hnn : ¬(jsGet acc.byLabel c.label).isNone = true := by
      cases hg : jsGet acc.byLabel c.label with
      | none =>
        rw [hg] at hc
        simp at hc
      | some v => simp
    rw [accumStep_old_skip hnn hc]
    exact ih acc (fun c' h' => h c' (List.mem_cons_of_mem c h'))

theorem process_section_fixed {secs : List (Str × List Str)} (hcs : CleanSecs secs)
    {sec : Str × List Str} (hsec : sec ∈ secs) :
    ∀ st : List Str × List (Str × List Str),
      processLabel (renderAll secs)
        ⟨secs.map (fun s => (s.1, keySetOf s)), secs.map (fun s => (s.1, []))⟩
        st sec.1 =
      (st.1, st.2 ++ [sec]) := by
  intro st
  have hByGet : jsGet (secs.map (fun s => (s.1, keySetOf s))) sec.1 =
      some (keySetOf sec) := jsGet_label_map keySetOf secs hcs.labNd sec hsec
  have hLinesGet : jsGet (secs.map (fun s => (s.1, ([] : List Str)))) sec.1 =
      some [] := jsGet_label_map (fun _ => []) secs hcs.labNd sec hsec
  have hfn : labFromNames
      ⟨secs.map (fun s => (s.1, keySetOf s)), secs.map (fun s => (s.1, []))⟩ sec.1 =
      sec.2.map splitKey := by
    unfold labFromNames
    show sortKeys ((jsGet (secs.map (fun s => (s.1, keySetOf s))) sec.1).getD []) =
      sec.2.map splitKey
    rw [hByGet, Option.getD_some, keySetOf_eq (hcs.keyNd sec hsec)]
    exact List.Sorted.insertionSort_eq (hcs.keySorted sec hsec)
  have hfolded : labFolded (renderAll secs)
      ⟨secs.map (fun s => (s.1, keySetOf s)), secs.map (fun s => (s.1, []))⟩
      st.1 sec.1 = (sec.2.map (fun q => (splitKey q, q)), st.1) := by
    unfold labFolded
    show ((jsGet (secs.map (fun s => (s.1, ([] : List Str)))) sec.1).getD []).foldl
        newLinesFold (subjectMapFor (renderAll secs) sec.1, st.1) = _
    rw [hLinesGet, Option.getD_some, List.foldl_nil, subjectMapFor_render hcs hsec]
  have hpos : ¬(labFromNames
      ⟨secs.map (fun s => (s.1, keySetOf s)), secs.map (fun s => (s.1, []))⟩
      sec.1).isEmpty = true := by
    rw [hfn, List.isEmpty_iff]
    intro h
    exact hcs.bodyNe sec hsec (List.map_eq_nil_iff.mp h)
  have hall : labAllSubjects (renderAll secs)
      ⟨secs.map (fun s => (s.1, keySetOf s)), secs.map (fun s => (s.1, []))⟩
      st.1 sec.1 = sec.2 := by
    unfold labAllSubjects
    rw [hfn, hfolded]
    show ((sec.2.map splitKey).filterMap
        (fun fn => jsGet (sec.2.map (fun q => (splitKey q, q))) fn)).filter
        (fun v => !(v == [])) = sec.2
    rw [keys_filterMap_assoc sec.2 (hcs.keyNd sec hsec),
      filter_nonempty_entry (hcs.lineEnt sec hsec)]
  rw [processLabel_pos hpos, hfolded, hall]

theorem process_sections_fixed {secs : List (Str × List Str)} (hcs : CleanSecs secs) :
    ∀ (rest : List (Str × List Str)), (∀ s ∈ rest, s ∈ secs) →
    ∀ st : List Str × List (Str × List Str),
      (rest.map (fun s => s.1)).foldl
        (processLabel (renderAll secs)
          ⟨secs.map (fun s => (s.1, keySetOf s)), secs.map (fun s => (s.1, []))⟩) st =
      (st.1, st.2 ++ rest) := by
  intro rest
  induction rest with
  | nil => intro _ st; simp
  | cons sec rest ih =>
    intro hsub st
    rw [List.map_cons, List.foldl_cons,
      process_section_fixed hcs (hsub sec (List.mem_cons_self sec rest)) st]
    rw [ih (fun s hs => hsub s (List.mem_cons_of_mem sec hs)) (st.1, st.2 ++ [sec])]
    simp

theorem rerun_fixed (E : Str) (C : List Candidate) (secs : List (Str × List Str))
    (hcs : CleanSecs secs) (hcov : CandCovered secs C) :
    runMerge (renderAll secs) E C = renderAll secs := by
  have hload : loadSubjects (renderAll secs) =
      ⟨secs.map (fun s => (s.1, keySetOf s)), secs.map (fun s => (s.1, []))⟩ := by
    unfold loadSubjects
    rw [splitNl_renderAll hcs.ne hcs.labNl hcs.lineNl]
    obtain ⟨cur', hc⟩ := load_sections secs hcs.bodyNe hcs.lineEnt hcs.labClean
      hcs.labNd hcs.ne none [] []
      (fun sec _ hmem => (List.not_mem_nil sec.1) hmem)
    rw [hc]
    simp
  have haccarg : ∀ c ∈ C,
      ((jsGet (⟨secs.map (fun s => (s.1, keySetOf s)),
          secs.map (fun s => (s.1, []))⟩ : LedgerAcc).byLabel c.label).getD
        []).contains c.fromName = true := by
    intro c hc
    obtain ⟨sec, hsec, hlab, hmem⟩ := hcov c hc
    have hg : jsGet (secs.map (fun s => (s.1, keySetOf s))) c.label =
        some (keySetOf sec) := by
      rw [← hlab]
      exact jsGet_label_map keySetOf secs hcs.labNd sec hsec
    show ((jsGet (secs.map (fun s => (s.1, keySetOf s))) c.label).getD
        []).contains c.fromName = true
    rw [hg, Option.getD_some, keySetOf_eq (hcs.keyNd sec hsec)]
    exact List.elem_iff.mpr hmem
  have hacc : C.foldl accumStep (loadSubjects (renderAll secs)) =
      ⟨secs.map (fun s => (s.1, keySetOf s)), secs.map (fun s => (s.1, []))⟩ := by
    rw [hload]
    exact accum_noop C _ haccarg
  unfold runMerge
  rw [hacc]
  have hkeys : ((⟨secs.map (fun s => (s.1, keySetOf s)),
      secs.map (fun s => (s.1, []))⟩ : LedgerAcc).byLabel.map (fun p => p.1)) =
      secs.map (fun s => s.1) := by
    show ((secs.map (fun s => (s.1, keySetOf s))).map (fun p => p.1)) = _
    rw [List.map_map]
    rfl
  have hsortid : sortLabs (secs.map (fun s => s.1)) = secs.map (fun s => s.1) :=
    List.Sorted.insertionSort_eq hcs.labSorted
  have hnotempty : ¬(⟨secs.map (fun s => (s.1, keySetOf s)),
      secs.map (fun s => (s.1, []))⟩ : LedgerAcc).byLabel.isEmpty = true := by
    show ¬(secs.map (fun s => (s.1, keySetOf s))).isEmpty = true
    rw [List.isEmpty_iff]
    intro h
    exact hcs.ne (List.map_eq_nil_iff.mp h)
  have hfoldres : mergeFold (renderAll secs) E
      ⟨secs.map (fun s => (s.1, keySetOf s)), secs.map (fun s => (s.1, []))⟩ =
      (collectFrom (collectFrom [] (renderAll secs)) E, secs) := by
    unfold mergeFold
    rw [hkeys, hsortid]
    have h := process_sections_fixed hcs secs (fun s hs => hs)
      (collectFrom (collectFrom [] (renderAll secs)) E, [])
    rw [h]
    simp
  have hsecne : ¬(mergeFold (renderAll secs) E
      ⟨secs.map (fun s => (s.1, keySetOf s)), secs.map (fun s => (s.1, []))⟩).2.isEmpty
      = true := by
    rw [hfoldres]
    show ¬secs.isEmpty = true
    rw [List.isEmpty_iff]
    exact hcs.ne
  rw [mergeAndPersist_render hnotempty hsecne, hfoldres]
theorem dropWhile_eq_self_head {p : Char → Bool} {a : Char} {u : Str}
    (h : (a :: u).dropWhile p = a :: u) : p a = false := by
  cases hpa : p a
  · rfl
  · rw [List.dropWhile_cons, if_pos hpa] at h
    have hle : (u.dropWhile p).length ≤ u.length := (List.dropWhile_sublist _).length_le
    have hlen := congrArg List.length h
    simp at hlen
    omega

theorem dropWhile_prefix_stable {p : Char → Bool} {x u : Str}
    (hx : x.dropWhile p = x) (hu : u <+: x) : u.dropWhile p = u := by
  cases u with
  | nil => rfl
  | cons a u2 =>
    obtain ⟨t, ht⟩ := hu
    have hx2 : (a :: (u2 ++ t)).dropWhile p = a :: (u2 ++ t) := by
      rw [show a :: (u2 ++ t) = (a :: u2) ++ t from rfl, ht]
      exact hx
    have hpa : p a = false := dropWhile_eq_self_head hx2
    rw [List.dropWhile_cons, if_neg (by rw [hpa]; simp)]

theorem trimRightWs_pref (s : Str) : trimRightWs s <+: s := by
  unfold trimRightWs
  have h : s.reverse.dropWhile isJsWs <:+ s.reverse := List.dropWhile_suffix _
  have h2 := List.reverse_prefix.mpr h
  rw [List.reverse_reverse] at h2
  exact h2

theorem dropWhile_idem (p : Char → Bool) (l : Str) :
    (l.dropWhile p).dropWhile p = l.dropWhile p := by
  induction l with
  | nil => rfl
  | cons a l ih =>
    rw [List.dropWhile_cons]
    by_cases hp : p a = true
    · rw [if_pos hp]
      exact ih
    · rw [if_neg hp, List.dropWhile_cons, if_neg hp]

theorem trimRightWs_idem (s : Str) : trimRightWs (trimRightWs s) = trimRightWs s := by
  unfold trimRightWs
  rw [List.reverse_reverse, dropWhile_idem]

theorem extractLabel_left_trimmed (l : Str) :
    (extractLabel l).dropWhile isJsWs = extractLabel l := by
  unfold extractLabel dropRightN
  have hbase : ((l.drop 7).dropWhile isJsWs).dropWhile isJsWs =
      (l.drop 7).dropWhile isJsWs := dropWhile_idem _ _
  have htake : (((l.drop 7).dropWhile isJsWs).take
      (((l.drop 7).dropWhile isJsWs).length - 7)).dropWhile isJsWs =
      ((l.drop 7).dropWhile isJsWs).take (((l.drop 7).dropWhile isJsWs).length - 7) :=
    dropWhile_prefix_stable hbase (List.take_prefix _ _)
  exact dropWhile_prefix_stable htake (trimRightWs_pref _)

theorem trimRightWs_extractLabel (l : Str) :
    trimRightWs (extractLabel l) = extractLabel l := by
  unfold extractLabel
  rw [trimRightWs_idem]

theorem trimRightWs_append_ws {s : Str} {c : Char} (hc : isJsWs c = true) :
    trimRightWs (s ++ [c]) = trimRightWs s := by
  unfold trimRightWs
  rw [show (s ++ [c]).reverse = c :: s.reverse from by simp]
  rw [List.dropWhile_cons, if_pos hc]

theorem dropWhile_append_split (p : Char → Bool) (l r : Str) :
    (l ++ r).dropWhile p =
      if (l.dropWhile p).isEmpty then r.dropWhile p else l.dropWhile p ++ r := by
  induction l with
  | nil => simp
  | cons a l ih =>
    rw [List.cons_append, List.dropWhile_cons, List.dropWhile_cons]
    by_cases hp : p a = true
    · rw [if_pos hp, if_pos hp, ih]
    · rw [if_neg hp, if_neg hp]
      simp

theorem extractLabel_renderHeader (lab : Str) :
    extractLabel (renderHeader lab) = trimRightWs (lab.dropWhile isJsWs) := by
  unfold extractLabel renderHeader dropRightN
  rw [show List.drop 7 (sevens ++ ' ' :: lab ++ ' ' :: sevens) =
      ' ' :: lab ++ ' ' :: sevens from List.drop_left sevens _]
  rw [List.cons_append, List.dropWhile_cons, if_pos (by decide : isJsWs ' ' = true)]
  rw [dropWhile_append_split]
  by_cases hemp : ((lab.dropWhile isJsWs).isEmpty) = true
  · rw [if_pos hemp]
    rw [show ((' ' :: sevens : Str)).dropWhile isJsWs = sevens from by decide]
    rw [show sevens.length - 7 = 0 from by decide, List.take_zero]
    rw [List.isEmpty_iff] at hemp
    rw [hemp]
  · rw [if_neg hemp]
    have hlen : ((lab.dropWhile isJsWs) ++ ' ' :: sevens).length - 7 =
        (lab.dropWhile isJsWs).length + 1 := by
      rw [List.length_append]
      rw [show (' ' :: sevens : Str).length = 8 from rfl]
      omega
    rw [hlen, List.take_append_eq_append_take,
      List.take_of_length_le (by omega),
      show (lab.dropWhile isJsWs).length + 1 - (lab.dropWhile isJsWs).length = 1 from by
        omega,
      show ((' ' :: sevens : Str)).take 1 = [' '] from rfl]
    exact trimRightWs_append_ws (by decide)

theorem extractLabel_roundtrip (l : Str) :
    extractLabel (renderHeader (extractLabel l)) = extractLabel l := by
  rw [extractLabel_renderHeader, extractLabel_left_trimmed, trimRightWs_extractLabel]
theorem jsGet_key_map {α β : Type} (g : Str → α → β) (m : List (Str × α)) (k : Str) :
    jsGet (m.map (fun p => (p.1, g p.1 p.2))) k = (jsGet m k).map (g k) := by
  induction m with
  | nil => rfl
  | cons p m ih =>
    unfold jsGet at ih ⊢
    rw [List.map_cons]
    by_cases hp : (p.1 == k) = true
    · have hpe := eq_of_beq hp
      rw [show List.find? (fun q => q.1 == k)
          ((p.1, g p.1 p.2) :: m.map (fun p => (p.1, g p.1 p.2))) =
          some (p.1, g p.1 p.2) from List.find?_cons_of_pos _ (by simpa using hp)]
      rw [show List.find? (fun q => q.1 == k) (p :: m) = some p from
        List.find?_cons_of_pos _ hp]
      simp [hpe]
    · rw [show List.find? (fun q => q.1 == k)
          ((p.1, g p.1 p.2) :: m.map (fun p => (p.1, g p.1 p.2))) =
          List.find? (fun q => q.1 == k) (m.map (fun p => (p.1, g p.1 p.2))) from
        List.find?_cons_of_neg _ (by simpa using hp)]
      rw [show List.find? (fun q => q.1 == k) (p :: m) =
          List.find? (fun q => q.1 == k) m from
        List.find?_cons_of_neg _ (by simpa using hp)]
      exact ih

theorem mapAdd_eq_map (m : List (Str × List Str)) (k v : Str) :
    mapAdd m k v = m.map (fun p => (p.1, if p.1 == k then setAdd p.2 v else p.2)) := by
  unfold mapAdd
  apply List.map_congr_left
  intro p _
  by_cases hp : (p.1 == k) = true
  · rw [if_pos hp, if_pos hp]
  · rw [if_neg hp, if_neg hp]

theorem mapPush_eq_map (m : List (Str × List Str)) (k v : Str) :
    mapPush m k v = m.map (fun p => (p.1, if p.1 == k then p.2 ++ [v] else p.2)) := by
  unfold mapPush
  apply List.map_congr_left
  intro p _
  by_cases hp : (p.1 == k) = true
  · rw [if_pos hp, if_pos hp]
  · rw [if_neg hp, if_neg hp]

theorem jsGet_mapAdd (m : List (Str × List Str)) (k v k2 : Str) :
    jsGet (mapAdd m k v) k2 =
      (jsGet m k2).map (fun s => if k2 == k then setAdd s v else s) := by
  rw [mapAdd_eq_map]
  exact jsGet_key_map (fun k3 s => if k3 == k then setAdd s v else s) m k2

theorem jsGet_mapPush (m : List (Str × List Str)) (k v k2 : Str) :
    jsGet (mapPush m k v) k2 =
      (jsGet m k2).map (fun s => if k2 == k then s ++ [v] else s) := by
  rw [mapPush_eq_map]
  exact jsGet_key_map (fun k3 s => if k3 == k then s ++ [v] else s) m k2

theorem mem_jsGet_mapAdd {m : List (Str × List Str)} {k v k2 fn : Str}
    (h : fn ∈ (jsGet (mapAdd m k v) k2).getD []) :
    fn ∈ (jsGet m k2).getD [] ∨ (k2 = k ∧ fn = v) := by
  rw [jsGet_mapAdd] at h
  cases hg : jsGet m k2 with
  | none =>
    rw [hg] at h
    exact absurd h (List.not_mem_nil fn)
  | some s =>
    rw [hg] at h
    have h2 : fn ∈ (if (k2 == k) = true then setAdd s v else s) := h
    by_cases hk : (k2 == k) = true
    · rw [if_pos hk] at h2
      rcases mem_setAdd.mp h2 with h1 | h1
      · exact Or.inl h1
      · exact Or.inr ⟨eq_of_beq hk, h1⟩
    · rw [if_neg hk] at h2
      exact Or.inl h2

theorem mem_jsGet_append_empty {m : List (Str × List Str)} {lab0 k2 fn : Str}
    (h : fn ∈ (jsGet (m ++ [(lab0, [])]) k2).getD []) :
    fn ∈ (jsGet m k2).getD [] := by
  rw [jsGet_append_single] at h
  cases hg : jsGet m k2 with
  | some s =>
    simp only [hg] at h
    exact h
  | none =>
    simp only [hg] at h
    by_cases hk : k2 = lab0
    · rw [if_pos hk] at h
      exact absurd h (List.not_mem_nil fn)
    · rw [if_neg hk] at h
      exact absurd h (List.not_mem_nil fn)

theorem objSet_eq_map_of_isSome {α : Type} {m : List (Str × α)} {k : Str} (v : α)
    (h : (jsGet m k).isSome = true) :
    objSet m k v = m.map (fun p => (p.1, if p.1 == k then v else p.2)) := by
  unfold objSet
  rw [if_pos h]
  apply List.map_congr_left
  intro p _
  by_cases hp : (p.1 == k) = true
  · rw [if_pos hp, if_pos hp]
  · rw [if_neg hp, if_neg hp]

theorem jsGet_objSet_isSome {α : Type} {mp : List (Str × α)} {k fn : Str} {v : α}
    (h : (jsGet mp fn).isSome = true) :
    (jsGet (objSet mp k v) fn).isSome = true := by
  by_cases hs : (jsGet mp k).isSome = true
  · rw [objSet_eq_map_of_isSome v hs,
      jsGet_key_map (fun k2 x => if k2 == k then v else x) mp fn]
    cases hg : jsGet mp fn with
    | none => rw [hg] at h; simp at h
    | some w => simp
  · have hnone : jsGet mp k = none := by
      cases hg : jsGet mp k with
      | none => rfl
      | some w => rw [hg] at hs; simp at hs
    rw [objSet_of_not_mem _ _ _ hnone, jsGet_append_single]
    cases hg : jsGet mp fn with
    | none => rw [hg] at h; simp at h
    | some w => simp [hg]

theorem jsGet_objSet_self {α : Type} (mp : List (Str × α)) (k : Str) (v : α) :
    (jsGet (objSet mp k v) k).isSome = true := by
  by_cases hs : (jsGet mp k).isSome = true
  · exact jsGet_objSet_isSome hs
  · have hnone : jsGet mp k = none := by
      cases hg : jsGet mp k with
      | none => rfl
      | some w => rw [hg] at hs; simp at hs
    rw [objSet_of_not_mem _ _ _ hnone, jsGet_append_single]
    simp [hnone]

theorem newFold_mono (L : List Str) :
    ∀ (mp : List (Str × Str)) (ex : List Str) (fn : Str),
      (jsGet mp fn).isSome = true →
      (jsGet (L.foldl newLinesFold (mp, ex)).1 fn).isSome = true := by
  induction L with
  | nil => intro mp ex fn h; exact h
  | cons l L ih =>
    intro mp ex fn h
    by_cases hc : ex.contains (splitKey l) = true
    · rw [List.foldl_cons, show newLinesFold (mp, ex) l = (mp, ex) from by
        simp only [newLinesFold]
        rw [if_pos hc]]
      exact ih mp ex fn h
    · rw [List.foldl_cons, show newLinesFold (mp, ex) l =
          (objSet mp (splitKey l) l, setAdd ex (splitKey l)) from by
        simp only [newLinesFold]
        rw [if_neg hc]]
      exact ih _ _ fn (jsGet_objSet_isSome h)

theorem newFold_complete (L : List Str) :
    ∀ (mp : List (Str × Str)) (ex : List Str) (fn : Str),
      ((jsGet mp fn).isSome = true ∨ (∃ l ∈ L, splitKey l = fn ∧ fn ∉ ex)) →
      (jsGet (L.foldl newLinesFold (mp, ex)).1 fn).isSome = true := by
  induction L with
  | nil =>
    intro mp ex fn h
    rcases h with h | ⟨l, hl, _⟩
    · exact h
    · cases hl
  | cons l L ih =>
    intro mp ex fn h
    by_cases hc : ex.contains (splitKey l) = true
    · rw [List.foldl_cons, show newLinesFold (mp, ex) l = (mp, ex) from by
        simp only [newLinesFold]
        rw [if_pos hc]]
      apply ih
      rcases h with h | ⟨l2, hl2, hk, hex⟩
      · exact Or.inl h
      · rcases List.mem_cons.mp hl2 with rfl | hl3
        · rw [hk] at hc
          exact absurd (List.elem_iff.mp hc) hex
        · exact Or.inr ⟨l2, hl3, hk, hex⟩
    · rw [List.foldl_cons, show newLinesFold (mp, ex) l =
          (objSet mp (splitKey l) l, setAdd ex (splitKey l)) from by
        simp only [newLinesFold]
        rw [if_neg hc]]
      apply ih
      rcases h with h | ⟨l2, hl2, hk, hex⟩
      · exact Or.inl (jsGet_objSet_isSome h)
      · rcases List.mem_cons.mp hl2 with rfl | hl3
        · rw [← hk]
          exact Or.inl (jsGet_objSet_self mp _ _)
        · by_cases hfk : fn = splitKey l
          · rw [hfk]
            exact Or.inl (jsGet_objSet_self mp _ _)
          · exact Or.inr ⟨l2, hl3, hk,
              fun hm => (mem_setAdd.mp hm).elim hex hfk⟩
theorem load_tag_fold (lines : List Str) :
    ∀ (cur : Option Str) (acc : LedgerAcc) (tl : List (Option Str × Str)),
      (∀ lab fn, fn ∈ (jsGet acc.byLabel lab).getD [] →
        ∃ w, (some lab, w) ∈ tl ∧ isEntryLine w = true ∧ splitKey w = fn) →
      ∀ lab fn,
        fn ∈ (jsGet ((lines.foldl loadStep (cur, acc)).2).byLabel lab).getD [] →
        ∃ w, (some lab, w) ∈ (lines.foldl tagStep (cur, tl)).2 ∧
          isEntryLine w = true ∧ splitKey w = fn := by
  induction lines with
  | nil =>
    intro cur acc tl hinv lab fn h
    exact hinv lab fn h
  | cons l ls ih =>
    intro cur acc tl hinv lab fn h
    rw [List.foldl_cons] at h ⊢
    by_cases hh : isHeaderLine l = true
    · rw [show tagStep (cur, tl) l = (some (extractLabel l), tl) from by
        simp [tagStep, hh]]
      by_cases hex : (jsGet acc.byLabel (extractLabel l)).isSome = true
      · rw [loadStep_header_old hh hex] at h
        exact ih (some (extractLabel l)) acc tl hinv lab fn h
      · rw [loadStep_header_new hh hex] at h
        have hinv2 : ∀ lab2 fn2,
            fn2 ∈ (jsGet (acc.byLabel ++ [(extractLabel l, [])]) lab2).getD [] →
            ∃ w, (some lab2, w) ∈ tl ∧ isEntryLine w = true ∧ splitKey w = fn2 :=
          fun lab2 fn2 h2 => hinv lab2 fn2 (mem_jsGet_append_empty h2)
        exact ih (some (extractLabel l)) ⟨acc.byLabel ++ [(extractLabel l, [])],
          acc.linesByLabel ++ [(extractLabel l, [])]⟩ tl hinv2 lab fn h
    · rw [show tagStep (cur, tl) l = (cur, tl ++ [(cur, l)]) from by
        simp [tagStep, hh]]
      have hmono : ∀ lab2 fn2, fn2 ∈ (jsGet acc.byLabel lab2).getD [] →
          ∃ w, (some lab2, w) ∈ tl ++ [(cur, l)] ∧ isEntryLine w = true ∧
            splitKey w = fn2 := by
        intro lab2 fn2 h2
        obtain ⟨w, hw, he, hk⟩ := hinv lab2 fn2 h2
        exact ⟨w, List.mem_append_left _ hw, he, hk⟩
      cases cur with
      | none =>
        rw [loadStep_none hh] at h
        exact ih none acc (tl ++ [(none, l)]) hmono lab fn h
      | some lab0 =>
        by_cases hcond : (jsTrimTruthy l && containsSub l sepStr) = true
        · rw [loadStep_entry hh rfl hcond] at h
          have hhf : isHeaderLine l = false := by
            cases hx : isHeaderLine l
            · rfl
            · exact absurd hx hh
          have hent : isEntryLine l = true := by
            unfold isEntryLine
            rw [hcond, hhf]
            rfl
          have hinv3 : ∀ lab2 fn2,
              fn2 ∈ (jsGet (mapAdd acc.byLabel lab0 (splitKey l)) lab2).getD [] →
              ∃ w, (some lab2, w) ∈ tl ++ [(some lab0, l)] ∧ isEntryLine w = true ∧
                splitKey w = fn2 := by
            intro lab2 fn2 h2
            rcases mem_jsGet_mapAdd h2 with h3 | ⟨hl2, hf2⟩
            · exact hmono lab2 fn2 h3
            · subst hl2
              exact ⟨l, List.mem_append_right _ (by simp), hent, hf2.symm⟩
          exact ih (some lab0) ⟨mapAdd acc.byLabel lab0 (splitKey l), acc.linesByLabel⟩
            (tl ++ [(some lab0, l)]) hinv3 lab fn h
        · rw [loadStep_entry_skip hh rfl hcond] at h
          exact ih (some lab0) acc (tl ++ [(some lab0, l)]) hmono lab fn h

theorem load_keys_tagged {S : Str} {lab fn : Str}
    (h : fn ∈ (jsGet (loadSubjects S).byLabel lab).getD []) :
    ∃ w, (some lab, w) ∈ taggedOf (splitNl S) ∧ isEntryLine w = true ∧
      splitKey w = fn := by
  have h0 : ∀ lab2 fn2,
      fn2 ∈ (jsGet ([] : List (Str × List Str)) lab2).getD [] →
      ∃ w, (some lab2, w) ∈ ([] : List (Option Str × Str)) ∧ isEntryLine w = true ∧
        splitKey w = fn2 := by
    intro lab2 fn2 h2
    exact absurd h2 (List.not_mem_nil fn2)
  exact load_tag_fold (splitNl S) none ⟨[], []⟩ [] h0 lab fn h

theorem scan_complete_fold (lab : Str) (lines : List Str) :
    ∀ (cur : Option Str) (mp : List (Str × Str)) (tl : List (Option Str × Str)),
      (∀ fn, (∃ w, (some lab, w) ∈ tl ∧ isEntryLine w = true ∧ splitKey w = fn) →
        (jsGet mp fn).isSome = true) →
      ∀ fn, (∃ w, (some lab, w) ∈ (lines.foldl tagStep (cur, tl)).2 ∧
          isEntryLine w = true ∧ splitKey w = fn) →
        (jsGet ((lines.foldl (scanMapStep lab) ((cur == some lab), mp)).2) fn).isSome
          = true := by
  induction lines with
  | nil =>
    intro cur mp tl hinv fn h
    exact hinv fn h
  | cons l ls ih =>
    intro cur mp tl hinv fn h
    rw [List.foldl_cons] at h ⊢
    by_cases hh : isHeaderLine l = true
    · rw [show tagStep (cur, tl) l = (some (extractLabel l), tl) from by
        simp [tagStep, hh]] at h
      rw [show scanMapStep lab ((cur == some lab), mp) l = ((extractLabel l == lab), mp)
        from by simp [scanMapStep, hh]]
      rw [show ((extractLabel l == lab) : Bool) =
          ((some (extractLabel l) : Option Str) == some lab) from rfl]
      exact ih (some (extractLabel l)) mp tl hinv fn h
    · rw [show tagStep (cur, tl) l = (cur, tl ++ [(cur, l)]) from by
        simp [tagStep, hh]] at h
      by_cases hcl : (cur == some lab) = true
      · by_cases hcond : (jsTrimTruthy l && containsSub l sepStr) = true
        · have hcond2 := hcond
          rw [Bool.and_eq_true] at hcond2
          by_cases htr : optTruthy (jsGet mp (splitKey l)) = true
          · rw [show scanMapStep lab ((cur == some lab), mp) l = ((cur == some lab), mp)
              from by
                simp only [scanMapStep, if_neg hh]
                rw [if_pos (by
                  rw [Bool.and_eq_true, Bool.and_eq_true]
                  exact ⟨⟨hcl, hcond2.1⟩, hcond2.2⟩)]
                rw [if_pos htr]]
            refine ih cur mp (tl ++ [(cur, l)]) ?_ fn h
            intro fn2 hw
            obtain ⟨w, hw2, he2, hk2⟩ := hw
            rcases List.mem_append.mp hw2 with h1 | h1
            · exact hinv fn2 ⟨w, h1, he2, hk2⟩
            · simp only [List.mem_singleton] at h1
              have hw3 : w = l := congrArg Prod.snd h1
              subst hw3
              rw [← hk2]
              cases hjg : jsGet mp (splitKey w) with
              | none => rw [hjg] at htr; simp [optTruthy] at htr
              | some v => simp
          · rw [show scanMapStep lab ((cur == some lab), mp) l =
                ((cur == some lab), objSet mp (splitKey l) l) from by
              simp only [scanMapStep, if_neg hh]
              rw [if_pos (by
                rw [Bool.and_eq_true, Bool.and_eq_true]
                exact ⟨⟨hcl, hcond2.1⟩, hcond2.2⟩)]
              rw [if_neg htr]]
            refine ih cur (objSet mp (splitKey l) l) (tl ++ [(cur, l)]) ?_ fn h
            intro fn2 hw
            obtain ⟨w, hw2, he2, hk2⟩ := hw
            rcases List.mem_append.mp hw2 with h1 | h1
            · exact jsGet_objSet_isSome (hinv fn2 ⟨w, h1, he2, hk2⟩)
            · simp only [List.mem_singleton] at h1
              have hw3 : w = l := congrArg Prod.snd h1
              subst hw3
              rw [← hk2]
              exact jsGet_objSet_self mp _ _
        · rw [show scanMapStep lab ((cur == some lab), mp) l = ((cur == some lab), mp)
            from by
              simp only [scanMapStep, if_neg hh]
              rw [if_neg (by
                intro hx
                rw [Bool.and_eq_true, Bool.and_eq_true] at hx
                exact hcond (by rw [Bool.and_eq_true]; exact ⟨hx.1.2, hx.2⟩))]]
          refine ih cur mp (tl ++ [(cur, l)]) ?_ fn h
          intro fn2 hw
          obtain ⟨w, hw2, he2, hk2⟩ := hw
          rcases List.mem_append.mp hw2 with h1 | h1
          · exact hinv fn2 ⟨w, h1, he2, hk2⟩
          · simp only [List.mem_singleton] at h1
            have hw3 : w = l := congrArg Prod.snd h1
            subst hw3
            exact absurd (entry_trimsep he2) hcond
      · rw [show scanMapStep lab ((cur == some lab), mp) l = ((cur == some lab), mp)
          from by
            simp only [scanMapStep, if_neg hh]
            rw [if_neg (by
              intro hx
              rw [Bool.and_eq_true, Bool.and_eq_true] at hx
              exact hcl hx.1.1)]]
        refine ih cur mp (tl ++ [(cur, l)]) ?_ fn h
        intro fn2 hw
        obtain ⟨w, hw2, he2, hk2⟩ := hw
        rcases List.mem_append.mp hw2 with h1 | h1
        · exact hinv fn2 ⟨w, h1, he2, hk2⟩
        · simp only [List.mem_singleton] at h1
          have hcc : (some lab : Option Str) = cur := congrArg Prod.fst h1
          exact absurd (by rw [← hcc]; simp : (cur == some lab) = true) hcl

theorem scan_complete {S : Str} {lab fn : Str}
    (h : ∃ w, (some lab, w) ∈ taggedOf (splitNl S) ∧ isEntryLine w = true ∧
      splitKey w = fn) :
    (jsGet (subjectMapFor S lab) fn).isSome = true := by
  have h0 : ∀ fn2, (∃ w, (some lab, w) ∈ ([] : List (Option Str × Str)) ∧
      isEntryLine w = true ∧ splitKey w = fn2) →
      (jsGet ([] : List (Str × Str)) fn2).isSome = true := by
    rintro fn2 ⟨w, hw, _, _⟩
    exact absurd hw (List.not_mem_nil _)
  exact scan_complete_fold lab (splitNl S) none [] [] h0 fn h
theorem mem_jsGet_append_mono {m : List (Str × List Str)} {k0 lab fn : Str} {e : List Str}
    (h : fn ∈ (jsGet m lab).getD []) :
    fn ∈ (jsGet (m ++ [(k0, e)]) lab).getD [] := by
  rw [jsGet_append_single]
  cases hg : jsGet m lab with
  | none =>
    rw [hg] at h
    exact absurd h (List.not_mem_nil fn)
  | some s =>
    rw [hg] at h
    exact h

theorem mem_jsGet_mapAdd_mono {m : List (Str × List Str)} {k v lab fn : Str}
    (h : fn ∈ (jsGet m lab).getD []) :
    fn ∈ (jsGet (mapAdd m k v) lab).getD [] := by
  rw [jsGet_mapAdd]
  cases hg : jsGet m lab with
  | none =>
    rw [hg] at h
    exact absurd h (List.not_mem_nil fn)
  | some s =>
    rw [hg] at h
    show fn ∈ (if (lab == k) = true then setAdd s v else s)
    by_cases hk : (lab == k) = true
    · rw [if_pos hk]
      exact mem_setAdd.mpr (Or.inl h)
    · rw [if_neg hk]
      exact h

theorem mem_jsGet_mapPush {m : List (Str × List Str)} {k x k2 v : Str}
    (h : v ∈ (jsGet (mapPush m k x) k2).getD []) :
    v ∈ (jsGet m k2).getD [] ∨ (k2 = k ∧ v = x) := by
  rw [jsGet_mapPush] at h
  cases hg : jsGet m k2 with
  | none =>
    rw [hg] at h
    exact absurd h (List.not_mem_nil v)
  | some s =>
    rw [hg] at h
    have h2 : v ∈ (if (k2 == k) = true then s ++ [x] else s) := h
    by_cases hk : (k2 == k) = true
    · rw [if_pos hk] at h2
      rcases List.mem_append.mp h2 with h1 | h1
      · exact Or.inl h1
      · simp only [List.mem_singleton] at h1
        exact Or.inr ⟨eq_of_beq hk, h1⟩
    · rw [if_neg hk] at h2
      exact Or.inl h2

theorem mem_jsGet_mapPush_mono {m : List (Str × List Str)} {k x lab v : Str}
    (h : v ∈ (jsGet m lab).getD []) :
    v ∈ (jsGet (mapPush m k x) lab).getD [] := by
  rw [jsGet_mapPush]
  cases hg : jsGet m lab with
  | none =>
    rw [hg] at h
    exact absurd h (List.not_mem_nil v)
  | some s =>
    rw [hg] at h
    show v ∈ (if (lab == k) = true then s ++ [x] else s)
    by_cases hk : (lab == k) = true
    · rw [if_pos hk]
      exact List.mem_append_left _ h
    · rw [if_neg hk]
      exact h

theorem mem_jsGet_mapPush_self {m : List (Str × List Str)} {k x : Str}
    (hs : (jsGet m k).isSome = true) :
    x ∈ (jsGet (mapPush m k x) k).getD [] := by
  rw [jsGet_mapPush]
  cases hg : jsGet m k with
  | none =>
    rw [hg] at hs
    simp at hs
  | some s =>
    show x ∈ (if (k == k) = true then s ++ [x] else s)
    rw [if_pos (by simp)]
    exact List.mem_append_right _ (by simp)

theorem accumStep_byLabel_mono {a : LedgerAcc} {c : Candidate} {lab fn : Str}
    (h : fn ∈ (jsGet a.byLabel lab).getD []) :
    fn ∈ (jsGet (accumStep a c).byLabel lab).getD [] := by
  by_cases hnew : (jsGet a.byLabel c.label).isNone = true
  · by_cases hhas : ((jsGet (a.byLabel ++ [(c.label, [])]) c.label).getD []).contains
        c.fromName = true
    · rw [accumStep_new_skip hnew hhas]
      exact mem_jsGet_append_mono h
    · rw [accumStep_new_push hnew hhas]
      exact mem_jsGet_mapAdd_mono (mem_jsGet_append_mono h)
  · by_cases hhas : ((jsGet a.byLabel c.label).getD []).contains c.fromName = true
    · rw [accumStep_old_skip hnew hhas]
      exact h
    · rw [accumStep_old_push hnew hhas]
      exact mem_jsGet_mapAdd_mono h

theorem accum_byLabel_mono_fold (C : List Candidate) :
    ∀ (a : LedgerAcc) (lab fn : Str),
      fn ∈ (jsGet a.byLabel lab).getD [] →
      fn ∈ (jsGet (C.foldl accumStep a).byLabel lab).getD [] := by
  induction C with
  | nil => intro a lab fn h; exact h
  | cons c cs ih =>
    intro a lab fn h
    rw [List.foldl_cons]
    exact ih _ lab fn (accumStep_byLabel_mono h)

theorem accumStep_lines_mono {a : LedgerAcc} {c : Candidate} {lab v : Str}
    (h : v ∈ (jsGet a.linesByLabel lab).getD []) :
    v ∈ (jsGet (accumStep a c).linesByLabel lab).getD [] := by
  by_cases hnew : (jsGet a.byLabel c.label).isNone = true
  · by_cases hhas : ((jsGet (a.byLabel ++ [(c.label, [])]) c.label).getD []).contains
        c.fromName = true
    · rw [accumStep_new_skip hnew hhas]
      exact mem_jsGet_append_mono h
    · rw [accumStep_new_push hnew hhas]
      exact mem_jsGet_mapPush_mono (mem_jsGet_append_mono h)
  · by_cases hhas : ((jsGet a.byLabel c.label).getD []).contains c.fromName = true
    · rw [accumStep_old_skip hnew hhas]
      exact h
    · rw [accumStep_old_push hnew hhas]
      exact mem_jsGet_mapPush_mono h

theorem accum_lines_mono_fold (C : List Candidate) :
    ∀ (a : LedgerAcc) (lab v : Str),
      v ∈ (jsGet a.linesByLabel lab).getD [] →
      v ∈ (jsGet (C.foldl accumStep a).linesByLabel lab).getD [] := by
  induction C with
  | nil => intro a lab v h; exact h
  | cons c cs ih =>
    intro a lab v h
    rw [List.foldl_cons]
    exact ih _ lab v (accumStep_lines_mono h)

theorem accumStep_self {a : LedgerAcc} {c : Candidate} :
    c.fromName ∈ (jsGet (accumStep a c).byLabel c.label).getD [] := by
  by_cases hnew : (jsGet a.byLabel c.label).isNone = true
  · by_cases hhas : ((jsGet (a.byLabel ++ [(c.label, [])]) c.label).getD []).contains
        c.fromName = true
    · rw [accumStep_new_skip hnew hhas]
      exact List.elem_iff.mp hhas
    · rw [accumStep_new_push hnew hhas]
      show c.fromName ∈ (jsGet (mapAdd (a.byLabel ++ [(c.label, [])]) c.label
        c.fromName) c.label).getD []
      rw [jsGet_mapAdd]
      cases hg : jsGet (a.byLabel ++ [(c.label, [])]) c.label with
      | none =>
        exfalso
        rw [jsGet_append_single] at hg
        cases hg2 : jsGet a.byLabel c.label with
        | some s =>
          simp only [hg2] at hg
          cases hg
        | none =>
          simp only [hg2] at hg
          simp at hg
      | some s =>
        show c.fromName ∈ (if (c.label == c.label) = true then setAdd s c.fromName else s)
        rw [if_pos (by simp)]
        exact mem_setAdd.mpr (Or.inr rfl)
  · by_cases hhas : ((jsGet a.byLabel c.label).getD []).contains c.fromName = true
    · rw [accumStep_old_skip hnew hhas]
      exact List.elem_iff.mp hhas
    · rw [accumStep_old_push hnew hhas]
      show c.fromName ∈ (jsGet (mapAdd a.byLabel c.label c.fromName) c.label).getD []
      rw [jsGet_mapAdd]
      cases hg : jsGet a.byLabel c.label with
      | none =>
        rw [hg] at hnew
        simp at hnew
      | some s =>
        show c.fromName ∈ (if (c.label == c.label) = true then setAdd s c.fromName else s)
        rw [if_pos (by simp)]
        exact mem_setAdd.mpr (Or.inr rfl)

theorem accum_contains (C : List Candidate) :
    ∀ acc : LedgerAcc, ∀ c ∈ C,
      c.fromName ∈ (jsGet (C.foldl accumStep acc).byLabel c.label).getD [] := by
  induction C with
  | nil =>
    intro acc c hc
    cases hc
  | cons c0 cs ih =>
    intro acc c hc
    rw [List.foldl_cons]
    rcases List.mem_cons.mp hc with rfl | hc2
    · exact accum_byLabel_mono_fold cs _ _ _ accumStep_self
    · exact ih (accumStep acc c0) c hc2

theorem accumStep_lines_src {a : LedgerAcc} {c : Candidate} {lab v : Str}
    (h : v ∈ (jsGet (accumStep a c).linesByLabel lab).getD []) :
    v ∈ (jsGet a.linesByLabel lab).getD [] ∨ (v = subjectLineOf c ∧ lab = c.label) := by
  by_cases hnew : (jsGet a.byLabel c.label).isNone = true
  · by_cases hhas : ((jsGet (a.byLabel ++ [(c.label, [])]) c.label).getD []).contains
        c.fromName = true
    · rw [accumStep_new_skip hnew hhas] at h
      exact Or.inl (mem_jsGet_append_empty h)
    · rw [accumStep_new_push hnew hhas] at h
      have h2 : v ∈ (jsGet (mapPush (a.linesByLabel ++ [(c.label, [])]) c.label
          (subjectLineOf c)) lab).getD [] := h
      rcases mem_jsGet_mapPush h2 with h1 | ⟨hl, hv⟩
      · exact Or.inl (mem_jsGet_append_empty h1)
      · exact Or.inr ⟨hv, hl⟩
  · by_cases hhas : ((jsGet a.byLabel c.label).getD []).contains c.fromName = true
    · rw [accumStep_old_skip hnew hhas] at h
      exact Or.inl h
    · rw [accumStep_old_push hnew hhas] at h
      have h2 : v ∈ (jsGet (mapPush a.linesByLabel c.label (subjectLineOf c)) lab).getD
          [] := h
      rcases mem_jsGet_mapPush h2 with h1 | ⟨hl, hv⟩
      · exact Or.inl h1
      · exact Or.inr ⟨hv, hl⟩

theorem accum_lines_label (C : List Candidate) :
    ∀ acc : LedgerAcc,
      ∀ lab v, v ∈ (jsGet (C.foldl accumStep acc).linesByLabel lab).getD [] →
        v ∈ (jsGet acc.linesByLabel lab).getD [] ∨
          ∃ c ∈ C, v = subjectLineOf c ∧ c.label = lab := by
  induction C with
  | nil =>
    intro acc lab v h
    exact Or.inl h
  | cons c cs ih =>
    intro acc lab v h
    rw [List.foldl_cons] at h
    rcases ih (accumStep acc c) lab v h with h1 | ⟨c2, hc2, he2, hl2⟩
    · rcases accumStep_lines_src h1 with h2 | ⟨he2, hl2⟩
      · exact Or.inl h2
      · exact Or.inr ⟨c, List.mem_cons_self c cs, he2, hl2.symm⟩
    · exact Or.inr ⟨c2, List.mem_cons_of_mem c hc2, he2, hl2⟩

theorem jsGet_isSome_of_mem_keys {m : List (Str × List Str)} {k : Str}
    (h : k ∈ m.map (fun p => p.1)) : (jsGet m k).isSome = true := by
  cases hg : jsGet m k with
  | some s => rfl
  | none => exact absurd h (jsGet_none_iff.mp hg)

theorem mem_keys_of_not_isNone {m : List (Str × List Str)} {k : Str}
    (h : ¬(jsGet m k).isNone = true) : k ∈ m.map (fun p => p.1) := by
  by_contra hk
  exact h (by rw [jsGet_none_iff.mpr hk]; rfl)

theorem accumStep_sync {a : LedgerAcc} {c : Candidate}
    (h : a.byLabel.map (fun p => p.1) = a.linesByLabel.map (fun p => p.1)) :
    (accumStep a c).byLabel.map (fun p => p.1) =
      (accumStep a c).linesByLabel.map (fun p => p.1) := by
  by_cases hnew : (jsGet a.byLabel c.label).isNone = true
  · by_cases hhas : ((jsGet (a.byLabel ++ [(c.label, [])]) c.label).getD []).contains
        c.fromName = true
    · rw [accumStep_new_skip hnew hhas]
      show (a.byLabel ++ [(c.label, [])]).map (fun p : Str × List Str => p.1) =
        (a.linesByLabel ++ [(c.label, [])]).map (fun p : Str × List Str => p.1)
      rw [List.map_append, List.map_append, h]
    · rw [accumStep_new_push hnew hhas]
      show (mapAdd (a.byLabel ++ [(c.label, [])]) c.label c.fromName).map (fun p => p.1) =
        (mapPush (a.linesByLabel ++ [(c.label, [])]) c.label
          (subjectLineOf c)).map (fun p => p.1)
      rw [keys_mapAdd, keys_mapPush, List.map_append, List.map_append, h]
  · by_cases hhas : ((jsGet a.byLabel c.label).getD []).contains c.fromName = true
    · rw [accumStep_old_skip hnew hhas]
      exact h
    · rw [accumStep_old_push hnew hhas]
      show (mapAdd a.byLabel c.label c.fromName).map (fun p => p.1) =
        (mapPush a.linesByLabel c.label (subjectLineOf c)).map (fun p => p.1)
      rw [keys_mapAdd, keys_mapPush, h]

theorem load_sync (lines : List Str) :
    ∀ st : Option Str × LedgerAcc,
      st.2.byLabel.map (fun p => p.1) = st.2.linesByLabel.map (fun p => p.1) →
      ((lines.foldl loadStep st).2.byLabel.map (fun p => p.1) =
        (lines.foldl loadStep st).2.linesByLabel.map (fun p => p.1)) := by
  induction lines with
  | nil => intro st h; exact h
  | cons l ls ih =>
    intro st h
    rw [List.foldl_cons]
    apply ih
    by_cases hh : isHeaderLine l = true
    · by_cases hex : (jsGet st.2.byLabel (extractLabel l)).isSome = true
      · rw [loadStep_header_old hh hex]
        exact h
      · rw [loadStep_header_new hh hex]
        show (st.2.byLabel ++ [(extractLabel l, [])]).map (fun p : Str × List Str => p.1) =
          (st.2.linesByLabel ++ [(extractLabel l, [])]).map (fun p : Str × List Str => p.1)
        rw [List.map_append, List.map_append, h]
    · obtain ⟨cur, a2⟩ := st
      cases cur with
      | some lab =>
        by_cases hcond : (jsTrimTruthy l && containsSub l sepStr) = true
        · rw [loadStep_entry hh rfl hcond]
          show (mapAdd a2.byLabel lab (splitKey l)).map (fun p => p.1) =
            a2.linesByLabel.map (fun p => p.1)
          rw [keys_mapAdd]
          exact h
        · rw [loadStep_entry_skip hh rfl hcond]
          exact h
      | none =>
        rw [loadStep_none hh]
        exact h

theorem accumStep_byLabel_src {a : LedgerAcc} {c : Candidate} {lab fn : Str}
    (hsync : a.byLabel.map (fun p => p.1) = a.linesByLabel.map (fun p => p.1))
    (h : fn ∈ (jsGet (accumStep a c).byLabel lab).getD []) :
    fn ∈ (jsGet a.byLabel lab).getD [] ∨
      (lab = c.label ∧ fn = c.fromName ∧
        subjectLineOf c ∈ (jsGet (accumStep a c).linesByLabel c.label).getD []) := by
  by_cases hnew : (jsGet a.byLabel c.label).isNone = true
  · by_cases hhas : ((jsGet (a.byLabel ++ [(c.label, [])]) c.label).getD []).contains
        c.fromName = true
    · rw [accumStep_new_skip hnew hhas] at h
      exact Or.inl (mem_jsGet_append_empty h)
    · rw [accumStep_new_push hnew hhas] at h ⊢
      have h2 : fn ∈ (jsGet (mapAdd (a.byLabel ++ [(c.label, [])]) c.label
          c.fromName) lab).getD [] := h
      rcases mem_jsGet_mapAdd h2 with h1 | ⟨hl, hf⟩
      · exact Or.inl (mem_jsGet_append_empty h1)
      · refine Or.inr ⟨hl, hf, ?_⟩
        apply mem_jsGet_mapPush_self
        rw [jsGet_append_single]
        cases hg : jsGet a.linesByLabel c.label with
        | some s => simp
        | none =>
          show ((if c.label = c.label then some ([] : List Str) else none)).isSome = true
          rw [if_pos rfl]
          rfl
  · by_cases hhas : ((jsGet a.byLabel c.label).getD []).contains c.fromName = true
    · rw [accumStep_old_skip hnew hhas] at h
      exact Or.inl h
    · rw [accumStep_old_push hnew hhas] at h ⊢
      have h2 : fn ∈ (jsGet (mapAdd a.byLabel c.label c.fromName) lab).getD [] := h
      rcases mem_jsGet_mapAdd h2 with h1 | ⟨hl, hf⟩
      · exact Or.inl h1
      · refine Or.inr ⟨hl, hf, ?_⟩
        apply mem_jsGet_mapPush_self
        have hkey : c.label ∈ a.linesByLabel.map (fun p => p.1) := by
          rw [← hsync]
          exact mem_keys_of_not_isNone hnew
        exact jsGet_isSome_of_mem_keys hkey

theorem accum_byLabel_src (C : List Candidate) :
    (∀ c ∈ C, splitKey (subjectLineOf c) = c.fromName) →
    ∀ a : LedgerAcc,
      a.byLabel.map (fun p => p.1) = a.linesByLabel.map (fun p => p.1) →
      ∀ lab fn,
      fn ∈ (jsGet (C.foldl accumStep a).byLabel lab).getD [] →
      fn ∈ (jsGet a.byLabel lab).getD [] ∨
        ∃ v, v ∈ (jsGet (C.foldl accumStep a).linesByLabel lab).getD [] ∧
          splitKey v = fn := by
  induction C with
  | nil =>
    intro _ a _ lab fn h
    exact Or.inl h
  | cons c cs ih =>
    intro hkeys a hsync lab fn h
    rw [List.foldl_cons] at h
    rcases ih (fun c2 h2 => hkeys c2 (List.mem_cons_of_mem c h2)) (accumStep a c)
      (accumStep_sync hsync) lab fn h with h1 | ⟨v, hv, hk⟩
    · rcases accumStep_byLabel_src hsync h1 with h2 | ⟨hl, hf, hline⟩
      · exact Or.inl h2
      · subst hl
        refine Or.inr ⟨subjectLineOf c, ?_, ?_⟩
        · rw [List.foldl_cons]
          exact accum_lines_mono_fold cs _ _ _ hline
        · rw [hkeys c (List.mem_cons_self c cs)]
          exact hf.symm
    · refine Or.inr ⟨v, ?_, hk⟩
      rw [List.foldl_cons]
      exact hv

theorem not_mem_ex0 {S E : Str} {k : Str} (hS : k ∉ entryKeys S)
    (hE : k ∉ entryKeys E) : k ∉ collectFrom (collectFrom [] S) E := by
  intro hm
  rcases mem_collectFrom.mp hm with h1 | h1
  · rcases mem_collectFrom.mp h1 with h2 | h2
    · exact absurd h2 (List.not_mem_nil k)
    · exact hS h2
  · exact hE h1

theorem newFold_ex_bound (L : List Str) :
    ∀ (mp : List (Str × Str)) (ex : List Str) (k : Str),
      k ∈ (L.foldl newLinesFold (mp, ex)).2 → k ∈ ex ∨ ∃ l ∈ L, splitKey l = k := by
  induction L with
  | nil =>
    intro mp ex k h
    exact Or.inl h
  | cons l L ih =>
    intro mp ex k h
    by_cases hc : ex.contains (splitKey l) = true
    · rw [List.foldl_cons, show newLinesFold (mp, ex) l = (mp, ex) from by
        simp only [newLinesFold]
        rw [if_pos hc]] at h
      rcases ih mp ex k h with h1 | ⟨l2, hl2, hk⟩
      · exact Or.inl h1
      · exact Or.inr ⟨l2, List.mem_cons_of_mem l hl2, hk⟩
    · rw [List.foldl_cons, show newLinesFold (mp, ex) l =
          (objSet mp (splitKey l) l, setAdd ex (splitKey l)) from by
        simp only [newLinesFold]
        rw [if_neg hc]] at h
      rcases ih _ _ k h with h1 | ⟨l2, hl2, hk⟩
      · rcases mem_setAdd.mp h1 with h2 | h2
        · exact Or.inl h2
        · exact Or.inr ⟨l, List.mem_cons_self l L, h2.symm⟩
      · exact Or.inr ⟨l2, List.mem_cons_of_mem l hl2, hk⟩

theorem filterMap_filter_total {mp : List (Str × Str)} (P : Str → Prop)
    (fns : List Str) :
    (∀ fn ∈ fns, ∃ v, jsGet mp fn = some v ∧ (!(v == [])) = true ∧
      splitKey v = fn ∧ P v) →
    (((fns.filterMap (fun fn => jsGet mp fn)).filter
        (fun v => !(v == []))).map splitKey = fns) ∧
    ∀ v ∈ (fns.filterMap (fun fn => jsGet mp fn)).filter (fun v => !(v == [])), P v := by
  induction fns with
  | nil =>
    intro _
    exact ⟨rfl, fun v hv => absurd hv (List.not_mem_nil v)⟩
  | cons fn fns ih =>
    intro h
    obtain ⟨v, hg, hne, hk, hP⟩ := h fn (List.mem_cons_self fn fns)
    obtain ⟨ih1, ih2⟩ := ih (fun fn2 h2 => h fn2 (List.mem_cons_of_mem fn h2))
    rw [List.filterMap_cons, hg]
    constructor
    · show ((v :: fns.filterMap (fun fn => jsGet mp fn)).filter
          (fun v => !(v == []))).map splitKey = fn :: fns
      rw [show (v :: fns.filterMap (fun fn => jsGet mp fn)).filter
            (fun v => !(v == [])) =
          v :: (fns.filterMap (fun fn => jsGet mp fn)).filter (fun v => !(v == []))
          from List.filter_cons_of_pos hne, List.map_cons, hk, ih1]
    · intro v2 hv2
      have hv3 : v2 ∈ (v :: fns.filterMap (fun fn => jsGet mp fn)).filter
          (fun v => !(v == [])) := hv2
      rw [show (v :: fns.filterMap (fun fn => jsGet mp fn)).filter
            (fun v => !(v == [])) =
          v :: (fns.filterMap (fun fn => jsGet mp fn)).filter (fun v => !(v == []))
          from List.filter_cons_of_pos hne] at hv3
      rcases List.mem_cons.mp hv3 with rfl | h4
      · exact hP
      · exact ih2 v2 h4
theorem bne_nil_of_entry {v : Str} (h : isEntryLine v = true) : (!(v == [])) = true := by
  cases hb : (v == ([] : Str)) with
  | true => exact absurd (eq_of_beq hb) (isEntryLine_nonempty h)
  | false => rfl

theorem accum_lines_cand (S : Str) (C : List Candidate) {lab v : Str}
    (h : v ∈ (jsGet (C.foldl accumStep (loadSubjects S)).linesByLabel lab).getD []) :
    ∃ c ∈ C, v = subjectLineOf c ∧ c.label = lab := by
  rcases accum_lines_label C (loadSubjects S) lab v h with h1 | h1
  · exfalso
    obtain ⟨_, _, he0⟩ := loadStep_inv (splitNl S) (none, ⟨[], []⟩)
      ⟨List.nodup_nil, fun p hp => absurd hp (List.not_mem_nil p),
        fun p hp => absurd hp (List.not_mem_nil p)⟩
    cases hg : jsGet (loadSubjects S).linesByLabel lab with
    | none =>
      rw [hg] at h1
      exact absurd h1 (List.not_mem_nil v)
    | some s =>
      rw [hg] at h1
      have hs : s = [] := he0 (lab, s) (jsGet_mem hg)
      rw [show ((some s).getD [] : List Str) = s from rfl, hs] at h1
      exact absurd h1 (List.not_mem_nil v)
  · exact h1

theorem accum_src_full (S : Str) (C : List Candidate)
    (hkeys : ∀ c ∈ C, splitKey (subjectLineOf c) = c.fromName) {lab fn : Str}
    (h : fn ∈ (jsGet (C.foldl accumStep (loadSubjects S)).byLabel lab).getD []) :
    (∃ w, (some lab, w) ∈ taggedOf (splitNl S) ∧ isEntryLine w = true ∧
      splitKey w = fn) ∨
    (∃ c ∈ C, c.label = lab ∧ c.fromName = fn ∧
      subjectLineOf c ∈ (jsGet (C.foldl accumStep (loadSubjects S)).linesByLabel
        lab).getD []) := by
  have hsync : (loadSubjects S).byLabel.map (fun p => p.1) =
      (loadSubjects S).linesByLabel.map (fun p => p.1) :=
    load_sync (splitNl S) (none, ⟨[], []⟩) rfl
  rcases accum_byLabel_src C hkeys (loadSubjects S) hsync lab fn h with h1 | ⟨v, hv, hkv⟩
  · exact Or.inl (load_keys_tagged h1)
  · obtain ⟨c, hc, rfl, hclab⟩ := accum_lines_cand S C hv
    refine Or.inr ⟨c, hc, hclab, ?_, hv⟩
    rw [← hkv]
    exact (hkeys c hc).symm

theorem merge_content_fold (S : Str) (C : List Candidate) (acc : LedgerAcc)
    (ex0 : List Str)
    (hcand : ∀ c ∈ C, CleanCand c)
    (hfresh0 : ∀ c ∈ C, c.fromName ∉ ex0)
    (huniq : ∀ c ∈ C, ∀ c2 ∈ C, c.fromName = c2.fromName → c.label = c2.label)
    (hS0 : ∀ k ∈ entryKeys S, k ∈ ex0)
    (hsrc : ∀ lab fn, fn ∈ (jsGet acc.byLabel lab).getD [] →
      (∃ w, (some lab, w) ∈ taggedOf (splitNl S) ∧ isEntryLine w = true ∧
        splitKey w = fn) ∨
      (∃ c ∈ C, c.label = lab ∧ c.fromName = fn ∧
        subjectLineOf c ∈ (jsGet acc.linesByLabel lab).getD []))
    (hlines : ∀ lab v, v ∈ (jsGet acc.linesByLabel lab).getD [] →
      ∃ c ∈ C, v = subjectLineOf c ∧ c.label = lab) :
    ∀ labs : List Str, labs.Nodup →
    ∀ st : List Str × List (Str × List Str),
      (∀ k ∈ st.1, k ∈ ex0 ∨ ∃ c ∈ C, c.fromName = k ∧ c.label ∉ labs) →
      ex0 ⊆ st.1 →
      (labs.foldl (processLabel S acc) st).2.map (fun sec => sec.1) =
        st.2.map (fun sec => sec.1) ++
          labs.filter (fun lab => !(labFromNames acc lab).isEmpty) ∧
      ∀ sec ∈ (labs.foldl (processLabel S acc) st).2, sec ∈ st.2 ∨
        (sec.2.map splitKey = labFromNames acc sec.1 ∧
          ∀ v ∈ sec.2, isEntryLine v = true ∧ nlFree v = true) := by
  intro labs
  induction labs with
  | nil =>
    intro _ st _ _
    exact ⟨by simp, fun sec hsec => Or.inl hsec⟩
  | cons lab rest ih =>
    intro hnd st hexinv hex0
    have hlab_nr : lab ∉ rest := (List.nodup_cons.mp hnd).1
    have hndr : rest.Nodup := (List.nodup_cons.mp hnd).2
    rw [List.foldl_cons]
    by_cases hemp : (labFromNames acc lab).isEmpty = true
    · rw [processLabel_empty hemp]
      have hexinv' : ∀ k ∈ st.1, k ∈ ex0 ∨
          ∃ c ∈ C, c.fromName = k ∧ c.label ∉ rest := by
        intro k hk
        rcases hexinv k hk with h1 | ⟨c, hc, hf, hn⟩
        · exact Or.inl h1
        · exact Or.inr ⟨c, hc, hf, fun hm => hn (List.mem_cons_of_mem lab hm)⟩
      obtain ⟨ha, hb⟩ := ih hndr st hexinv' hex0
      refine ⟨?_, hb⟩
      rw [ha, show (lab :: rest).filter (fun l2 => !(labFromNames acc l2).isEmpty) =
          rest.filter (fun l2 => !(labFromNames acc l2).isEmpty) from
        List.filter_cons_of_neg (by simp [hemp])]
    · rw [processLabel_pos hemp]
      have hmpinv : ∀ fn v, jsGet (subjectMapFor S lab) fn = some v →
          fn ∈ st.1 ∧ splitKey v = fn := by
        intro fn v hget
        obtain ⟨htag, hent, hkey⟩ := subjectMapFor_char S lab fn v hget
        have hvS : v ∈ entryLines S := mem_entryLines_of_tagged htag hent
        refine ⟨hex0 (hS0 fn ?_), hkey⟩
        rw [← hkey]
        exact List.mem_map_of_mem _ hvS
      have hnotex : ∀ c ∈ C, c.label = lab → c.fromName ∉ st.1 := by
        intro c hc hcl hmem
        rcases hexinv _ hmem with h1 | ⟨c2, hc2, hf2, hn2⟩
        · exact hfresh0 c hc h1
        · refine hn2 ?_
          rw [huniq c2 hc2 c hc hf2, hcl]
          exact List.mem_cons_self lab rest
      have hfold := newFold_char ((jsGet acc.linesByLabel lab).getD [])
        (subjectMapFor S lab) st.1 hmpinv
      have htot : ∀ fn ∈ labFromNames acc lab,
          ∃ v, jsGet (labFolded S acc st.1 lab).1 fn = some v ∧
            (!(v == [])) = true ∧ splitKey v = fn ∧
            (isEntryLine v = true ∧ nlFree v = true) := by
        intro fn hfn
        have hfn2 : fn ∈ (jsGet acc.byLabel lab).getD [] := by
          have hfn3 : fn ∈ List.insertionSort LeKey ((jsGet acc.byLabel lab).getD []) :=
            hfn
          exact (List.perm_insertionSort LeKey _).mem_iff.mp hfn3
        have hsome : (jsGet (labFolded S acc st.1 lab).1 fn).isSome = true := by
          show (jsGet (((jsGet acc.linesByLabel lab).getD []).foldl newLinesFold
            (subjectMapFor S lab, st.1)).1 fn).isSome = true
          apply newFold_complete
          rcases hsrc lab fn hfn2 with ⟨w, htag, hent, hkey⟩ | ⟨c, hc, hclab, hcfn, hcm⟩
          · exact Or.inl (scan_complete ⟨w, htag, hent, hkey⟩)
          · refine Or.inr ⟨subjectLineOf c, hcm, ?_, ?_⟩
            · rw [(hcand c hc).lineKey, hcfn]
            · rw [← hcfn]
              exact hnotex c hc hclab
        obtain ⟨v, hv⟩ := Option.isSome_iff_exists.mp hsome
        refine ⟨v, hv, ?_⟩
        have hv2 : jsGet (((jsGet acc.linesByLabel lab).getD []).foldl newLinesFold
            (subjectMapFor S lab, st.1)).1 fn = some v := hv
        have hkeyv : splitKey v = fn := (hfold.2.1 fn v hv2).2
        rcases hfold.1 fn v hv2 with hsc | ⟨hvL, hkv, hnex⟩
        · obtain ⟨htag, hent, hkey⟩ := subjectMapFor_char S lab fn v hsc
          have hvS : v ∈ entryLines S := mem_entryLines_of_tagged htag hent
          have hnl : nlFree v = true :=
            splitNl_lines_nlFree S v (List.mem_of_mem_filter hvS)
          exact ⟨bne_nil_of_entry hent, hkey, hent, hnl⟩
        · obtain ⟨c, hc, rfl, hclab⟩ := hlines lab v hvL
          have hent : isEntryLine (subjectLineOf c) = true :=
            isEntryLine_subjectLineOf (hcand c hc).lineNoHdr
          exact ⟨bne_nil_of_entry hent, hkeyv, hent, (hcand c hc).lineNl⟩
      have hfmt := filterMap_filter_total
        (fun v => isEntryLine v = true ∧ nlFree v = true) (labFromNames acc lab) htot
      have hexinv' : ∀ k ∈ (labFolded S acc st.1 lab).2,
          k ∈ ex0 ∨ ∃ c ∈ C, c.fromName = k ∧ c.label ∉ rest := by
        intro k hk
        have hk2 : k ∈ (((jsGet acc.linesByLabel lab).getD []).foldl newLinesFold
            (subjectMapFor S lab, st.1)).2 := hk
        rcases newFold_ex_bound _ _ _ k hk2 with h1 | ⟨l, hl, hkl⟩
        · rcases hexinv k h1 with h2 | ⟨c, hc, hf, hn⟩
          · exact Or.inl h2
          · exact Or.inr ⟨c, hc, hf, fun hm => hn (List.mem_cons_of_mem lab hm)⟩
        · obtain ⟨c, hc, rfl, hclab⟩ := hlines lab l hl
          refine Or.inr ⟨c, hc, ?_, ?_⟩
          · rw [← hkl]
            exact ((hcand c hc).lineKey).symm
          · rw [hclab]
            exact hlab_nr
      have hex0' : ∀ k ∈ ex0, k ∈ (labFolded S acc st.1 lab).2 :=
        fun k hk => hfold.2.2 k (hex0 hk)
      obtain ⟨ha, hb⟩ := ih hndr ((labFolded S acc st.1 lab).2,
        st.2 ++ [(lab, labAllSubjects S acc st.1 lab)]) hexinv' hex0'
      refine ⟨?_, ?_⟩
      · rw [ha, show (lab :: rest).filter (fun l2 => !(labFromNames acc l2).isEmpty) =
            lab :: rest.filter (fun l2 => !(labFromNames acc l2).isEmpty) from
          List.filter_cons_of_pos (by simp [hemp])]
        show (st.2 ++ [(lab, labAllSubjects S acc st.1 lab)]).map (fun sec => sec.1) ++
            rest.filter (fun l2 => !(labFromNames acc l2).isEmpty) =
          st.2.map (fun sec => sec.1) ++
            (lab :: rest.filter (fun l2 => !(labFromNames acc l2).isEmpty))
        rw [List.map_append, List.append_assoc]
        rfl
      · intro sec hsec
        rcases hb sec hsec with h1 | h1
        · rcases List.mem_append.mp h1 with h2 | h2
          · exact Or.inl h2
          · rw [List.mem_singleton] at h2
            subst h2
            refine Or.inr ⟨?_, ?_⟩
            · show (labAllSubjects S acc st.1 lab).map splitKey = labFromNames acc lab
              exact hfmt.1
            · intro v hv
              exact hfmt.2 v hv
        · exact Or.inr h1
theorem merge_sections_clean (S E : Str) (C : List Candidate) (acc : LedgerAcc)
    (hcand : ∀ c ∈ C, CleanCand c)
    (hfresh0 : ∀ c ∈ C, c.fromName ∉ collectFrom (collectFrom [] S) E)
    (huniq : ∀ c ∈ C, ∀ c2 ∈ C, c.fromName = c2.fromName → c.label = c2.label)
    (hsrc : ∀ lab fn, fn ∈ (jsGet acc.byLabel lab).getD [] →
      (∃ w, (some lab, w) ∈ taggedOf (splitNl S) ∧ isEntryLine w = true ∧
        splitKey w = fn) ∨
      (∃ c ∈ C, c.label = lab ∧ c.fromName = fn ∧
        subjectLineOf c ∈ (jsGet acc.linesByLabel lab).getD []))
    (hlines : ∀ lab v, v ∈ (jsGet acc.linesByLabel lab).getD [] →
      ∃ c ∈ C, v = subjectLineOf c ∧ c.label = lab)
    (hknd : (acc.byLabel.map (fun p => p.1)).Nodup)
    (hvnd : ∀ p ∈ acc.byLabel, p.2.Nodup)
    (hlabP : ∀ p ∈ acc.byLabel, extractLabel (renderHeader p.1) = p.1 ∧
      nlFree p.1 = true)
    (hcontains : ∀ c ∈ C, c.fromName ∈ (jsGet acc.byLabel c.label).getD [])
    (hne : (mergeFold S E acc).2 ≠ []) :
    CleanSecs (mergeFold S E acc).2 ∧ CandCovered (mergeFold S E acc).2 C := by
  obtain ⟨ha, hb⟩ := merge_content_fold S C acc (collectFrom (collectFrom [] S) E)
    hcand hfresh0 huniq (fun k hk => entryKeys_sub_ex0_S hk) hsrc hlines
    (sortLabs (acc.byLabel.map (fun p => p.1))) (nodup_insertionSort hknd)
    (collectFrom (collectFrom [] S) E, []) (fun k hk => Or.inl hk) (fun k hk => hk)
  have hlabs_eq : (mergeFold S E acc).2.map (fun sec => sec.1) =
      (sortLabs (acc.byLabel.map (fun p => p.1))).filter
        (fun l2 => !(labFromNames acc l2).isEmpty) := by
    have h2 := ha
    rw [show (([] : List (Str × List Str)).map (fun sec => sec.1)) = [] from rfl,
      List.nil_append] at h2
    exact h2
  have hbF : ∀ sec ∈ (mergeFold S E acc).2,
      sec.2.map splitKey = labFromNames acc sec.1 ∧
        ∀ v ∈ sec.2, isEntryLine v = true ∧ nlFree v = true := by
    intro sec hsec
    rcases hb sec hsec with h1 | h1
    · exact absurd h1 (List.not_mem_nil sec)
    · exact h1
  have hsecpred : ∀ sec ∈ (mergeFold S E acc).2,
      (!(labFromNames acc sec.1).isEmpty) = true := by
    intro sec hsec
    have hm : sec.1 ∈ (mergeFold S E acc).2.map (fun sec => sec.1) :=
      List.mem_map_of_mem _ hsec
    rw [hlabs_eq] at hm
    have h3 := List.of_mem_filter hm
    exact h3
  have hseclabP : ∀ sec ∈ (mergeFold S E acc).2,
      extractLabel (renderHeader sec.1) = sec.1 ∧ nlFree sec.1 = true := by
    intro sec hsec
    have hm : sec.1 ∈ (mergeFold S E acc).2.map (fun sec => sec.1) :=
      List.mem_map_of_mem _ hsec
    rw [hlabs_eq] at hm
    have hm2 : sec.1 ∈ sortLabs (acc.byLabel.map (fun p => p.1)) :=
      List.mem_of_mem_filter hm
    have hm3 : sec.1 ∈ acc.byLabel.map (fun p => p.1) :=
      (List.perm_insertionSort LeLab _).mem_iff.mp hm2
    obtain ⟨p, hp, hpe⟩ := List.mem_map.mp hm3
    rw [← hpe]
    exact hlabP p hp
  refine ⟨⟨hne, ?_, ?_, ?_, ?_, ?_, ?_, ?_, ?_, ?_⟩, ?_⟩
  · rw [hlabs_eq]
    exact List.Nodup.sublist (List.filter_sublist _) (nodup_insertionSort hknd)
  · rw [hlabs_eq]
    exact List.Pairwise.sublist (List.filter_sublist _)
      (List.sorted_insertionSort LeLab _)
  · intro sec hsec
    exact (hseclabP sec hsec).1
  · intro sec hsec
    exact (hseclabP sec hsec).2
  · intro sec hsec hnil
    have hfe : labFromNames acc sec.1 = [] := by
      rw [← (hbF sec hsec).1, hnil]
      rfl
    have hp := hsecpred sec hsec
    rw [hfe] at hp
    exact absurd hp (by decide)
  · intro sec hsec l hl
    exact ((hbF sec hsec).2 l hl).1
  · intro sec hsec l hl
    exact ((hbF sec hsec).2 l hl).2
  · intro sec hsec
    rw [(hbF sec hsec).1]
    have hvndv : ((jsGet acc.byLabel sec.1).getD []).Nodup := by
      cases hg : jsGet acc.byLabel sec.1 with
      | none => exact List.nodup_nil
      | some s => exact hvnd (sec.1, s) (jsGet_mem hg)
    exact nodup_insertionSort hvndv
  · intro sec hsec
    rw [(hbF sec hsec).1]
    exact List.sorted_insertionSort LeKey _
  · intro c hc
    have hmem : c.fromName ∈ (jsGet acc.byLabel c.label).getD [] := hcontains c hc
    have hlabkey : c.label ∈ acc.byLabel.map (fun p => p.1) := by
      apply mem_keys_of_not_isNone
      intro hisnone
      have hnone : jsGet acc.byLabel c.label = none :=
        Option.isNone_iff_eq_none.mp hisnone
      rw [hnone] at hmem
      exact absurd hmem (List.not_mem_nil _)
    have hmemf : c.fromName ∈ labFromNames acc c.label :=
      (List.perm_insertionSort LeKey _).mem_iff.mpr hmem
    have hpred : (!(labFromNames acc c.label).isEmpty) = true := by
      cases hfe : labFromNames acc c.label with
      | nil =>
        rw [hfe] at hmemf
        exact absurd hmemf (List.not_mem_nil _)
      | cons a l => rfl
    have hlabmem : c.label ∈ (mergeFold S E acc).2.map (fun sec => sec.1) := by
      rw [hlabs_eq]
      exact List.mem_filter.mpr
        ⟨(List.perm_insertionSort LeLab _).mem_iff.mpr hlabkey, hpred⟩
    obtain ⟨sec, hsec, hseclab⟩ := List.mem_map.mp hlabmem
    refine ⟨sec, hsec, hseclab, ?_⟩
    rw [(hbF sec hsec).1, show sec.1 = c.label from hseclab]
    exact hmemf
/-- Claim C3, as stated, is false: the merge is not idempotent for every
candidate input.  A candidate whose label carries a leading space is written
as `=======  A =======`, but re-reading that file extracts the trimmed label
`A`, so the second run sees a different ledger state and emits an extra
section: the file content changes again. -/
theorem c3_counterexample :
    runMerge (runMerge (str "") (str "")
        [⟨str " A", str "x", str "s", str "1"⟩]) (str "")
        [⟨str " A", str "x", str "s", str "1"⟩] ≠
      runMerge (str "") (str "") [⟨str " A", str "x", str "s", str "1"⟩] := by decide

/-- Claim C3, amended: the ledger rewrite is idempotent for candidates that
survive the file round trip — each candidate's label re-extracts from its own
header line, label and line are newline-free, the line's key is its from
name and the line is not header-shaped — whose from names are new to both
ledger files, and whose from names determine their labels.  Then running the
merge a second time with the identical candidate input leaves the subjects
file content byte-identical to the first run's output. -/
theorem c3_amended (S E : Str) (C : List Candidate)
    (hcand : ∀ c ∈ C, CleanCand c)
    (hfreshS : ∀ c ∈ C, c.fromName ∉ entryKeys S)
    (hfreshE : ∀ c ∈ C, c.fromName ∉ entryKeys E)
    (huniq : ∀ c ∈ C, ∀ c2 ∈ C, c.fromName = c2.fromName → c.label = c2.label) :
    runMerge (runMerge S E C) E C = runMerge S E C := by
  by_cases hempty : (C.foldl accumStep (loadSubjects S)).byLabel.isEmpty = true
  · have h1 : runMerge S E C = S := mergeAndPersist_empty hempty
    rw [h1]
    exact h1
  · by_cases hsec : (mergeFold S E (C.foldl accumStep (loadSubjects S))).2.isEmpty = true
    · have h1 : runMerge S E C = S := mergeAndPersist_nosec hempty hsec
      rw [h1]
      exact h1
    · have hne : (mergeFold S E (C.foldl accumStep (loadSubjects S))).2 ≠ [] := by
        intro h
        rw [h] at hsec
        exact hsec rfl
      obtain ⟨hk0, hv0, he0⟩ := loadStep_inv (splitNl S) (none, ⟨[], []⟩)
        ⟨List.nodup_nil, fun p hp => absurd hp (List.not_mem_nil p),
          fun p hp => absurd hp (List.not_mem_nil p)⟩
      have haccinv := accumStep_inv C (loadSubjects S) ⟨hk0, hv0⟩
      have hlabP : ∀ p ∈ (C.foldl accumStep (loadSubjects S)).byLabel,
          extractLabel (renderHeader p.1) = p.1 ∧ nlFree p.1 = true :=
        keys_accum (fun k => extractLabel (renderHeader k) = k ∧ nlFree k = true) C
          (fun c hc => ⟨(hcand c hc).labClean, (hcand c hc).labNl⟩)
          (loadSubjects S)
          (keys_load (fun k => extractLabel (renderHeader k) = k ∧ nlFree k = true)
            (splitNl S)
            (fun l hl => ⟨extractLabel_roundtrip l,
              nlFree_extractLabel (splitNl_lines_nlFree S l hl)⟩)
            (none, ⟨[], []⟩) (fun p hp => absurd hp (List.not_mem_nil p)))
      obtain ⟨hcs, hcov⟩ := merge_sections_clean S E C
        (C.foldl accumStep (loadSubjects S)) hcand
        (fun c hc => not_mem_ex0 (hfreshS c hc) (hfreshE c hc)) huniq
        (fun lab fn h =>
          accum_src_full S C (fun c hc => (hcand c hc).lineKey) h)
        (fun lab v h => accum_lines_cand S C h)
        haccinv.1 haccinv.2 hlabP
        (fun c hc => accum_contains C (loadSubjects S) c hc) hne
      have h1 : runMerge S E C =
          renderAll (mergeFold S E (C.foldl accumStep (loadSubjects S))).2 :=
        mergeAndPersist_render hempty hsec
      rw [h1]
      exact rerun_fixed E C _ hcs hcov

/-- Witness for the amended claim C3 at a concrete input: a subjects file
with one section `B`, an empty exclusions file and one clean fresh candidate
under label `A` satisfy the hypotheses, and the second run reproduces the
first run's output byte for byte. -/
theorem c3_amended_witness :
    (∀ c ∈ [(⟨str "A", str "x", str "s", str "1"⟩ : Candidate)], CleanCand c) ∧
    (∀ c ∈ [(⟨str "A", str "x", str "s", str "1"⟩ : Candidate)],
        c.fromName ∉ entryKeys (str "======= B =======\ny | t | 2\n")) ∧
    (∀ c ∈ [(⟨str "A", str "x", str "s", str "1"⟩ : Candidate)],
        c.fromName ∉ entryKeys (str "")) ∧
    (∀ c ∈ [(⟨str "A", str "x", str "s", str "1"⟩ : Candidate)],
        ∀ c2 ∈ [(⟨str "A", str "x", str "s", str "1"⟩ : Candidate)],
          c.fromName = c2.fromName → c.label = c2.label) ∧
    runMerge (runMerge (str "======= B =======\ny | t | 2\n") (str "")
        [(⟨str "A", str "x", str "s", str "1"⟩ : Candidate)]) (str "")
        [(⟨str "A", str "x", str "s", str "1"⟩ : Candidate)] =
      runMerge (str "======= B =======\ny | t | 2\n") (str "")
        [(⟨str "A", str "x", str "s", str "1"⟩ : Candidate)] := by
  have hc : ∀ c ∈ [(⟨str "A", str "x", str "s", str "1"⟩ : Candidate)],
      CleanCand c := by
    intro c hc
    rw [List.mem_singleton] at hc
    subst hc
    exact ⟨by decide, by decide, by decide, by decide, by decide⟩
  have hs : ∀ c ∈ [(⟨str "A", str "x", str "s", str "1"⟩ : Candidate)],
      c.fromName ∉ entryKeys (str "======= B =======\ny | t | 2\n") := by decide
  have he : ∀ c ∈ [(⟨str "A", str "x", str "s", str "1"⟩ : Candidate)],
      c.fromName ∉ entryKeys (str "") := by decide
  have hu : ∀ c ∈ [(⟨str "A", str "x", str "s", str "1"⟩ : Candidate)],
      ∀ c2 ∈ [(⟨str "A", str "x", str "s", str "1"⟩ : Candidate)],
        c.fromName = c2.fromName → c.label = c2.label := by decide
  exact ⟨hc, hs, he, hu, c3_amended _ _ _ hc hs he hu⟩
end FastmailProc
